import Mathlib

/-!
Verification development for the ThinkMark documentation pipeline.

The Lean definitions below are a shallow embedding of the Python sources of
the repository (`src/thinkmark/...` and `docs_llm_scraper/...`).  Python
dictionaries are modelled as association lists that keep insertion order
(`dictInsert` updates in place, appends fresh keys, exactly like CPython
dicts).  Dynamically typed metadata values are modelled by the small
`MetaVal` universe that covers every value the modelled code stores in a
metadata dictionary (strings, lists of strings, integers, `None`).
Filesystem effects of `PipelineState.save`/`load` are modelled by passing the
written artefacts (url-map entries, per-document content and metadata files,
the hierarchy JSON value) as pure data; `json.dump`/`json.load` of the
external standard library are modelled as the identity on the stored value.
-/

namespace ThinkMark

/-- Ordered association list standing for a CPython `dict`: assignment to an
existing key updates the stored value in place, a fresh key is appended. -/
def dictInsert {α β : Type} [DecidableEq α] (k : α) (v : β) :
    List (α × β) → List (α × β)
  | [] => [(k, v)]
  | (k', v') :: rest =>
      if k' = k then (k, v) :: rest else (k', v') :: dictInsert k v rest

/-- `d.get(k)` on the association-list model of a `dict` (first binding). -/
def dictGet {α β : Type} [DecidableEq α] (k : α) :
    List (α × β) → Option β
  | [] => none
  | (k', v) :: rest => if k' = k then some v else dictGet k rest

/-- The keys of a modelled `dict`, in insertion order. -/
def dictKeys {α β : Type} (d : List (α × β)) : List α :=
  d.map Prod.fst

/-- Dynamically typed JSON-like values stored in document metadata. -/
inductive MetaVal : Type where
  | str (s : String)
  | strList (l : List String)
  | num (n : Int)
  | null
deriving DecidableEq

/-- `thinkmark.core.models.Document` (dataclass).  Fields that Python types
only by annotation (`title`, `parent_id`, `children_ids` can be replaced by
arbitrary JSON values when a document is rebuilt from disk) are modelled with
`MetaVal`. -/
structure Document : Type where
  id : String
  url : String
  title : MetaVal
  content : String
  metadata : List (String × MetaVal)
  parent_id : MetaVal := MetaVal.null
  children_ids : MetaVal := MetaVal.strList []
deriving DecidableEq

/-- The in-memory part of `thinkmark.core.models.PipelineState`
(`site_url`, `documents`, `url_map`, `hierarchy`); the path fields
(`output_dir`, `content_dir`) are filesystem locations and carry no state of
their own.  `hierarchy` holds the JSON value written to `hierarchy.json`. -/
structure PipelineState : Type where
  site_url : String
  documents : List (String × Document) := []
  url_map : List (String × String) := []
  hierarchy : MetaVal := MetaVal.null
deriving DecidableEq

/-- `PipelineState.add_document`:
`self.documents[doc.id] = doc; self.url_map[doc.url] = doc.id`. -/
def add_document (doc : Document) (st : PipelineState) : PipelineState :=
  { st with
    documents := dictInsert doc.id doc st.documents
    url_map := dictInsert doc.url doc.id st.url_map }

/-- Folding `add_document` over a list of documents, starting from a fresh
state. -/
def runAdds (site : String) (docs : List Document) : PipelineState :=
  docs.foldl (fun st d => add_document d st) { site_url := site }

theorem dictKeys_cons {α β : Type} (k : α) (v : β) (d : List (α × β)) :
    dictKeys ((k, v) :: d) = k :: dictKeys d := rfl

theorem dictGet_insert_self {α β : Type} [DecidableEq α]
    (k : α) (v : β) (d : List (α × β)) :
    dictGet k (dictInsert k v d) = some v := by
  induction d with
  | nil => simp [dictInsert, dictGet]
  | cons hd tl ih =>
      obtain ⟨k', v'⟩ := hd
      by_cases h : k' = k
      · simp [dictInsert, dictGet, h]
      · simp [dictInsert, dictGet, h, ih]

theorem dictGet_insert_ne {α β : Type} [DecidableEq α]
    (k k' : α) (v : β) (d : List (α × β)) (h : k' ≠ k) :
    dictGet k' (dictInsert k v d) = dictGet k' d := by
  induction d with
  | nil => simp [dictInsert, dictGet, Ne.symm h]
  | cons hd tl ih =>
      obtain ⟨k₀, v₀⟩ := hd
      by_cases h0 : k₀ = k
      · subst h0
        simp [dictInsert, dictGet, Ne.symm h]
      · simp only [dictInsert, dictGet, if_neg h0]
        by_cases h1 : k₀ = k'
        · simp [h1]
        · simp [h1, ih]

theorem dictKeys_insert_mem {α β : Type} [DecidableEq α]
    (k : α) (v : β) (d : List (α × β)) (h : k ∈ dictKeys d) :
    dictKeys (dictInsert k v d) = dictKeys d := by
  induction d with
  | nil => simp [dictKeys] at h
  | cons hd tl ih =>
      obtain ⟨k', v'⟩ := hd
      by_cases h0 : k' = k
      · subst h0
        simp [dictInsert, dictKeys_cons]
      · have hmem : k ∈ dictKeys tl := by
          rcases (by simpa [dictKeys_cons] using h) with h1 | h1
          · exact absurd h1.symm h0
          · exact h1
        simp [dictInsert, h0, dictKeys_cons, ih hmem]

theorem dictKeys_insert_not_mem {α β : Type} [DecidableEq α]
    (k : α) (v : β) (d : List (α × β)) (h : k ∉ dictKeys d) :
    dictKeys (dictInsert k v d) = dictKeys d ++ [k] := by
  induction d with
  | nil => simp [dictInsert, dictKeys]
  | cons hd tl ih =>
      obtain ⟨k', v'⟩ := hd
      have h1 : k' ≠ k := by
        intro hh
        exact h (by simp [dictKeys_cons, hh])
      have h2 : k ∉ dictKeys tl := by
        intro hh
        exact h (by simp [dictKeys_cons, hh])
      simp [dictInsert, h1, dictKeys_cons, ih h2]

theorem dictKeys_nodup_insert {α β : Type} [DecidableEq α]
    (k : α) (v : β) (d : List (α × β))
    (h : (dictKeys d).Nodup) : (dictKeys (dictInsert k v d)).Nodup := by
  by_cases hmem : k ∈ dictKeys d
  · rw [dictKeys_insert_mem k v d hmem]
    exact h
  · rw [dictKeys_insert_not_mem k v d hmem]
    exact List.Nodup.append h (by simp) (by simpa using hmem)

theorem dictGet_mem_keys {α β : Type} [DecidableEq α]
    (k : α) (d : List (α × β)) (h : k ∈ dictKeys d) :
    ∃ v, dictGet k d = some v := by
  induction d with
  | nil => simp [dictKeys] at h
  | cons hd tl ih =>
      obtain ⟨k', v'⟩ := hd
      by_cases hk : k' = k
      · exact ⟨v', by simp [dictGet, hk]⟩
      · have : k ∈ dictKeys tl := by
          rcases (by simpa [dictKeys_cons] using h) with h1 | h1
          · exact absurd h1.symm hk
          · exact h1
        rcases ih this with ⟨v, hv⟩
        exact ⟨v, by simp [dictGet, hk, hv]⟩

/-- Mutual consistency of a batch of documents: two documents of the batch
share an id exactly when they share a URL. -/
def DocsConsistent (docs : List Document) : Prop :=
  ∀ d₁ ∈ docs, ∀ d₂ ∈ docs, (d₁.id = d₂.id ↔ d₁.url = d₂.url)

instance (docs : List Document) : Decidable (DocsConsistent docs) := by
  unfold DocsConsistent
  infer_instance

/-- The state invariant relating `documents` and `url_map`. -/
def Aligned (st : PipelineState) (docs : List Document) : Prop :=
  (∀ i d, dictGet i st.documents = some d →
      d.id = i ∧ d ∈ docs ∧ dictGet d.url st.url_map = some i) ∧
  (∀ u i, dictGet u st.url_map = some i →
      ∃ d, dictGet i st.documents = some d ∧ d.url = u)

theorem aligned_add (docs : List Document) (hcons : DocsConsistent docs)
    (st : PipelineState) (d : Document) (hd : d ∈ docs)
    (h : Aligned st docs) : Aligned (add_document d st) docs := by
  obtain ⟨h1, h2⟩ := h
  constructor
  · intro i e he
    by_cases hi : i = d.id
    · subst hi
      rw [add_document, show ({ st with
          documents := dictInsert d.id d st.documents,
          url_map := dictInsert d.url d.id st.url_map } : PipelineState).documents
          = dictInsert d.id d st.documents from rfl] at he
      rw [dictGet_insert_self] at he
      cases he
      exact ⟨rfl, hd, by simpa [add_document] using dictGet_insert_self d.url d.id st.url_map⟩
    · have he' : dictGet i st.documents = some e := by
        rw [add_document] at he
        simpa [dictGet_insert_ne _ _ _ _ (Ne.intro hi)] using he
      obtain ⟨hid, hmem, hurl⟩ := h1 i e he'
      refine ⟨hid, hmem, ?_⟩
      have hne : e.url ≠ d.url := by
        intro hu
        have : e.id = d.id := (hcons e hmem d hd).mpr hu
        exact hi (hid ▸ this)
      rw [add_document]
      simpa [dictGet_insert_ne _ _ _ _ hne] using hurl
  · intro u i hu
    by_cases hud : u = d.url
    · subst hud
      rw [add_document] at hu
      simp only at hu
      rw [dictGet_insert_self] at hu
      cases hu
      refine ⟨d, ?_, rfl⟩
      rw [add_document]
      simpa using dictGet_insert_self d.id d st.documents
    · have hu' : dictGet u st.url_map = some i := by
        rw [add_document] at hu
        simpa [dictGet_insert_ne _ _ _ _ (Ne.intro hud)] using hu
      obtain ⟨e, he, heu⟩ := h2 u i hu'
      have hie : i ≠ d.id := by
        intro hi
        subst hi
        obtain ⟨hid, hmem, _⟩ := h1 _ e he
        have : e.url = d.url := (hcons e hmem d hd).mp hid
        exact hud (heu ▸ this)
      refine ⟨e, ?_, heu⟩
      rw [add_document]
      simpa [dictGet_insert_ne _ _ _ _ hie] using he

theorem aligned_foldl (docs : List Document) (hcons : DocsConsistent docs)
    (l : List Document) (hl : ∀ x ∈ l, x ∈ docs) :
    ∀ st : PipelineState, Aligned st docs →
      Aligned (l.foldl (fun st d => add_document d st) st) docs := by
  induction l with
  | nil => intro st h; exact h
  | cons d rest ih =>
      intro st h
      exact ih (fun x hx => hl x (List.mem_cons_of_mem d hx)) (add_document d st)
        (aligned_add docs hcons st d (hl d (List.mem_cons_self d rest)) h)

theorem keys_nodup_foldl (l : List Document) :
    ∀ st : PipelineState,
      (dictKeys st.documents).Nodup → (dictKeys st.url_map).Nodup →
      (dictKeys ((l.foldl (fun st d => add_document d st) st)).documents).Nodup ∧
      (dictKeys ((l.foldl (fun st d => add_document d st) st)).url_map).Nodup := by
  induction l with
  | nil => intro st h1 h2; exact ⟨h1, h2⟩
  | cons d rest ih =>
      intro st h1 h2
      exact ih (add_document d st) (dictKeys_nodup_insert _ _ _ h1)
        (dictKeys_nodup_insert _ _ _ h2)

/-- Concrete documents used to refute the bijection part of C7: the same id
added twice under two different URLs. -/
def docSameIdA : Document :=
  { id := "A", url := "u1", title := MetaVal.str "t1", content := "", metadata := [] }

/-- Second document of the C7 counterexample (same id, different URL). -/
def docSameIdB : Document :=
  { id := "A", url := "u2", title := MetaVal.str "t2", content := "", metadata := [] }

/-- C7 (counterexample): after `add_document` of two documents with the same
id `"A"` under URLs `"u1"` and `"u2"`, both URLs map to `"A"`, so the URL→id
map is not a bijection: the claim that every id is mapped to by exactly one
URL fails on this concrete run. -/
theorem c7_counterexample :
    ¬ (∀ u₁ u₂ i, dictGet u₁ (runAdds "s" [docSameIdA, docSameIdB]).url_map = some i →
        dictGet u₂ (runAdds "s" [docSameIdA, docSameIdB]).url_map = some i → u₁ = u₂) := by
  intro h
  have h1 : dictGet "u1" (runAdds "s" [docSameIdA, docSameIdB]).url_map = some "A" := by
    decide
  have h2 : dictGet "u2" (runAdds "s" [docSameIdA, docSameIdB]).url_map = some "A" := by
    decide
  have := h "u1" "u2" "A" h1 h2
  exact absurd this (by decide)

/-- C7 (amended): over any sequence of `add_document` calls, document ids
remain unique and adding a document with an existing id replaces the stored
document; each URL maps to exactly one id (dict keys are unique).  The URL→id
map is a bijection between the stored URLs and the stored document ids
provided the added documents are mutually consistent (two of them share an id
exactly when they share a URL); without that proviso the bijection can fail,
as `c7_counterexample` shows. -/
theorem c7_add_document_amended (site : String) (docs : List Document)
    (hcons : DocsConsistent docs) :
    (dictKeys (runAdds site docs).documents).Nodup ∧
    (dictKeys (runAdds site docs).url_map).Nodup ∧
    (∀ (st : PipelineState) (d : Document),
        dictGet d.id (add_document d st).documents = some d ∧
        ∀ i, i ≠ d.id → dictGet i (add_document d st).documents = dictGet i st.documents) ∧
    (∀ u₁ u₂ i, dictGet u₁ (runAdds site docs).url_map = some i →
        dictGet u₂ (runAdds site docs).url_map = some i → u₁ = u₂) ∧
    (∀ u i, dictGet u (runAdds site docs).url_map = some i →
        ∃ d, dictGet i (runAdds site docs).documents = some d ∧ d.url = u) ∧
    (∀ i d, dictGet i (runAdds site docs).documents = some d →
        dictGet d.url (runAdds site docs).url_map = some i) := by
  have hstart : Aligned { site_url := site } docs := by
    constructor
    · intro i d h
      simp [dictGet] at h
    · intro u i h
      simp [dictGet] at h
  have halign : Aligned (runAdds site docs) docs :=
    aligned_foldl docs hcons docs (fun x hx => hx) _ hstart
  have hnodup := keys_nodup_foldl docs { site_url := site } (by simp [dictKeys])
    (by simp [dictKeys])
  refine ⟨hnodup.1, hnodup.2, ?_, ?_, ?_, ?_⟩
  · intro st d
    refine ⟨by simpa [add_document] using dictGet_insert_self d.id d st.documents, ?_⟩
    intro i hi
    simpa [add_document] using dictGet_insert_ne _ _ d st.documents (Ne.intro hi)
  · intro u₁ u₂ i h1 h2
    obtain ⟨d₁, hd₁, hu₁⟩ := halign.2 u₁ i h1
    obtain ⟨d₂, hd₂, hu₂⟩ := halign.2 u₂ i h2
    rw [hd₁] at hd₂
    cases hd₂
    rw [← hu₁, ← hu₂]
  · exact halign.2
  · intro i d h
    exact (halign.1 i d h).2.2

/-- C7 (witness): the amended theorem applied to a concrete consistent batch
of two documents. -/
theorem c7_witness :
    DocsConsistent [docSameIdA, { docSameIdB with id := "B" }] ∧
    (dictKeys (runAdds "s" [docSameIdA, { docSameIdB with id := "B" }]).documents).Nodup := by
  refine ⟨by decide, ?_⟩
  exact (c7_add_document_amended "s" _ (by decide)).1

/-- The artefacts `PipelineState.save` writes to disk: `hierarchy.json`
(a JSON value), the `urls_map.jsonl` entries in dict order, and per document
a `{id}.md` content file together with a `{id}.meta.json` metadata file
(writing an already-present name overwrites the file, hence `dictInsert`). -/
structure SavedState : Type where
  hierarchy : MetaVal
  url_entries : List (String × String)
  content_files : List (String × (String × List (String × MetaVal)))
deriving DecidableEq

/-- `PipelineState.save`: dumps `self.hierarchy`, one `{"url", "id"}` line per
`url_map` item, and for every document its `content` and its `metadata`
(and nothing else: `title`, `parent_id`, `children_ids` are not written
unless they happen to be mirrored inside `metadata`). -/
def save (st : PipelineState) : SavedState :=
  { hierarchy := st.hierarchy
    url_entries := st.url_map
    content_files := st.documents.foldl
      (fun acc p => dictInsert p.2.id (p.2.content, p.2.metadata) acc) [] }

/-- `PipelineState.load`: rebuilds `url_map` from the jsonl entries, reads the
hierarchy back, and recreates each document from its content/meta files:
`url` is the first `url_map` entry mapping to the document id, `title` is
`metadata.get("title", "")`, `parent_id` is `metadata.get("parent_id")` and
`children_ids` is `metadata.get("children_ids", [])`. -/
def load (site : String) (sv : SavedState) : PipelineState :=
  let um := sv.url_entries.foldl (fun acc p => dictInsert p.1 p.2 acc) []
  { site_url := site
    hierarchy := sv.hierarchy
    url_map := um
    documents := sv.content_files.foldl (fun acc f =>
      let doc : Document :=
        { id := f.1
          url := ((um.find? (fun p => p.2 = f.1)).map Prod.fst).getD ""
          title := (dictGet "title" f.2.2).getD (MetaVal.str "")
          content := f.2.1
          metadata := f.2.2
          parent_id := (dictGet "parent_id" f.2.2).getD MetaVal.null
          children_ids := (dictGet "children_ids" f.2.2).getD (MetaVal.strList []) }
      dictInsert f.1 doc acc) [] }

/-- The document of the repository's own fixture
(`tests/core/test_models.py`, `sample_documents`): a title and a parent id
that are not mirrored inside `metadata`. -/
def docPage2 : Document :=
  { id := "doc2"
    url := "https://example.com/page2"
    title := MetaVal.str "Page 2"
    content := "Content 2"
    metadata := [("type", MetaVal.str "html")]
    parent_id := MetaVal.str "doc1" }

/-- C1: `save()` followed by `load()` does not reproduce the in-memory
documents: on the repository's own test fixture (`test_load_state`), the
reloaded document's `title` is `""` instead of `"Page 2"` and its
`parent_id` is `None` instead of `"doc1"`, because `save` writes only
`content` and `metadata` while `load` reconstructs `title`/`parent_id`/
`children_ids` from `metadata`, where `save` never stored them.  The code
contradicts its own test, which asserts equality of all these fields. -/
theorem c1_save_load_not_roundtrip :
    dictGet "doc2" (runAdds "https://example.com" [docPage2]).documents
        = some docPage2 ∧
    docPage2.title = MetaVal.str "Page 2" ∧
    docPage2.parent_id = MetaVal.str "doc1" ∧
    (let reloaded := dictGet "doc2"
        (load "https://example.com"
          (save (runAdds "https://example.com" [docPage2]))).documents
     reloaded.map Document.title = some (MetaVal.str "") ∧
     reloaded.map Document.parent_id = some MetaVal.null ∧
     reloaded.map Document.url = some docPage2.url ∧
     reloaded.map Document.content = some docPage2.content ∧
     reloaded.map Document.metadata = some docPage2.metadata ∧
     reloaded ≠ some docPage2) := by
  exact ⟨by decide, rfl, rfl, by decide, by decide, by decide, by decide, by decide,
    by decide⟩

/-- `thinkmark.core.pipeline.markify_stage`, per-document behaviour.  The
HTML→Markdown conversion (`thinkmark.markify.adapter.process_document`, which
may raise) is passed in as a fallible function.  For a document whose
`metadata["type"]` is `"html"` the stage adds the converted document; on an
exception it logs and adds the original document unchanged; non-HTML
documents are added as-is.  The final `build_hierarchy()` call only
recomputes the `hierarchy` field and is not modelled here. -/
def markify_stage (process : Document → Except String Document)
    (st : PipelineState) : PipelineState :=
  st.documents.foldl (fun acc p =>
    if dictGet "type" p.2.metadata = some (MetaVal.str "html") then
      match process p.2 with
      | Except.ok md => add_document md acc
      | Except.error _ => add_document p.2 acc
    else add_document p.2 acc) { site_url := st.site_url }

/-- The failing document of the repository's markify test
(`tests/core/test_pipeline_markify_stage.py`). -/
def docError : Document :=
  { id := "doc_error"
    url := "http://example.com/error_page"
    title := MetaVal.str "Error Page"
    content := "<html><body><malformed>html</body></html>"
    metadata := [("type", MetaVal.str "html"), ("should_fail", MetaVal.str "yes")] }

/-- C8: when HTML→Markdown conversion of a document fails, `markify_stage`
keeps the original document (HTML content retained — that half of the claim
is true) but records nothing: the stored document's metadata has no
`conversion_error` key, although the repository's own test
(`test_pipeline_markify_stage.py`) asserts
`"conversion_error" in doc.metadata` with the exception's message. -/
theorem c8_markify_error_not_recorded :
    (dictGet "doc_error"
      (markify_stage (fun _ => Except.error "Simulated conversion error")
        (runAdds "http://example.com" [docError])).documents)
      = some docError ∧
    (dictGet "doc_error"
      (markify_stage (fun _ => Except.error "Simulated conversion error")
        (runAdds "http://example.com" [docError])).documents).map
        (fun d => dictGet "conversion_error" d.metadata) = some none ∧
    (dictGet "doc_error"
      (markify_stage (fun _ => Except.error "Simulated conversion error")
        (runAdds "http://example.com" [docError])).documents).map
        Document.content = some docError.content := by
  exact ⟨by decide, by decide, by decide⟩

/-- `str.strip()` (both ends, whitespace). -/
def pyStrip (s : String) : String :=
  String.mk (((s.data.dropWhile Char.isWhitespace).reverse.dropWhile
    Char.isWhitespace).reverse)

/-- `str.upper()` (character-wise upper-casing). -/
def pyUpper (s : String) : String :=
  String.mk (s.data.map Char.toUpper)

/-- The FAIL-sentinel handling of `annotate_docs` in
`thinkmark.annotate.client`: `if summary.strip().upper() == "FAIL":
summary = None`. -/
def summaryFromReply (reply : String) : Option String :=
  if pyUpper (pyStrip reply) = "FAIL" then none else some reply

/-- `annotate_docs`: content written for a document, given an optional
summary: `f"## Summary\n\n{summary}\n\n---\n\n{markdown_content}"` when a
summary is available, the unchanged markdown otherwise. -/
def annotated_content (summary : Option String) (markdown : String) : String :=
  match summary with
  | some s => "## Summary\n\n" ++ s ++ "\n\n---\n\n" ++ markdown
  | none => markdown

/-- Modelled from the spec: `thinkmark.annotate.client.process_document` is
imported by `annotate_stage` (pipeline.py) but is absent from `client.py`.
Per the spec, `Summarize` "may return a sentinel FAIL string that MUST be
treated as no summary" and on success the summary is prepended under a
`## Summary` heading followed by `---` — exactly the handling `annotate_docs`
in `client.py` applies to the service reply. -/
def llm_process_document (reply : String) (markdown : String) : String :=
  annotated_content (summaryFromReply reply) markdown

/-- The per-document wrapper of `annotate_stage` (pipeline.py): a new
document with the annotated content and `metadata["type"] = "annotated"`,
all other fields copied. -/
def annotate_stage_doc (doc : Document) (annotated : String) : Document :=
  { doc with
    content := annotated
    metadata := dictInsert "type" (MetaVal.str "annotated") doc.metadata }

/-- C9: if the Summarize service replies with the sentinel `FAIL`
(after `strip().upper()`), the document content is left unchanged (no
summary added); for a non-FAIL reply the output content is the original
content with the summary prepended under a `## Summary` heading followed by
`---`, and the document's `metadata["type"]` becomes `"annotated"` while
id, url and title are preserved. -/
theorem c9_annotate_fail_sentinel (doc : Document) (reply : String) :
    (pyUpper (pyStrip reply) = "FAIL" →
      llm_process_document reply doc.content = doc.content) ∧
    (pyUpper (pyStrip reply) ≠ "FAIL" →
      (annotate_stage_doc doc (llm_process_document reply doc.content)).content
          = "## Summary\n\n" ++ reply ++ "\n\n---\n\n" ++ doc.content ∧
      dictGet "type"
          (annotate_stage_doc doc (llm_process_document reply doc.content)).metadata
          = some (MetaVal.str "annotated") ∧
      (annotate_stage_doc doc (llm_process_document reply doc.content)).id = doc.id ∧
      (annotate_stage_doc doc (llm_process_document reply doc.content)).url = doc.url ∧
      (annotate_stage_doc doc (llm_process_document reply doc.content)).title
          = doc.title) := by
  constructor
  · intro h
    simp [llm_process_document, summaryFromReply, h, annotated_content]
  · intro h
    refine ⟨?_, ?_, rfl, rfl, rfl⟩
    · simp [annotate_stage_doc, llm_process_document, summaryFromReply, h,
        annotated_content]
    · simp [annotate_stage_doc]
      exact dictGet_insert_self "type" (MetaVal.str "annotated") doc.metadata

/-- Sample document used by the C9 witness. -/
def docSample : Document :=
  { id := "d1", url := "http://example.com/d1", title := MetaVal.str "D1"
    content := "Body text.", metadata := [("type", MetaVal.str "markdown")] }

/-- C9 (witness): the theorem applied with a concrete non-FAIL reply and a
concrete FAIL reply. -/
theorem c9_witness :
    (pyUpper (pyStrip " fail ") = "FAIL" ∧
      llm_process_document " fail " docSample.content = docSample.content) ∧
    (pyUpper (pyStrip "A summary.") ≠ "FAIL" ∧
      (annotate_stage_doc docSample
        (llm_process_document "A summary." docSample.content)).content
        = "## Summary\n\n" ++ "A summary." ++ "\n\n---\n\n" ++ docSample.content) := by
  constructor
  · exact ⟨by decide, (c9_annotate_fail_sentinel docSample " fail ").1 (by decide)⟩
  · exact ⟨by decide, ((c9_annotate_fail_sentinel docSample "A summary.").2 (by decide)).1⟩

/-- A parsed URL as produced by `urllib.parse.urlparse`: the six components
`scheme://netloc/path;params?query#fragment`.  The port, when present, is
part of `netloc`. -/
structure Url : Type where
  scheme : String
  netloc : String
  path : String
  params : String := ""
  query : String := ""
  fragment : String := ""
deriving DecidableEq

/-- `s.endswith("/")` — true exactly when the last character is `'/'`. -/
def endsWithSlash (s : String) : Bool :=
  s.data.getLast? = some '/'

/-- `s.rstrip("/")`: remove every trailing `'/'`. -/
def rstripSlash (s : String) : String :=
  String.mk ((s.data.reverse.dropWhile (fun c => c = '/')).reverse)

/-- `s.lstrip("/")`: remove every leading `'/'`. -/
def lstripSlash (s : String) : String :=
  String.mk (s.data.dropWhile (fun c => c = '/'))

/-- `thinkmark.utils.url.normalize_url` on a parsed URL: drop the fragment
(`urldefrag`), strip all trailing slashes from the path unless the path is
exactly the root `"/"`, and rebuild with `params=""` and the query kept.
The netloc — ports included — is left untouched. -/
def normalize_url (u : Url) : Url :=
  let current_path := u.path
  let new_path :=
    if current_path ≠ "/" ∧ endsWithSlash current_path then
      rstripSlash current_path
    else current_path
  { u with path := new_path, fragment := "", params := "" }

/-- `s.endswith(t)` for a concrete tail `t`. -/
def endsWithSeg (t s : String) : Bool :=
  (s.data.reverse.take t.data.length).reverse = t.data

/-- Remove a default port from a netloc (`":80"` for http, `":443"` for
https) — what the spec sentence asserts `normalize` does. -/
def stripDefaultPort (scheme netloc : String) : String :=
  if scheme = "http" ∧ endsWithSeg ":80" netloc then
    String.mk (netloc.data.take (netloc.data.length - 3))
  else if scheme = "https" ∧ endsWithSeg ":443" netloc then
    String.mk (netloc.data.take (netloc.data.length - 4))
  else netloc

/-- The spec's wording of normalisation (for comparison with the code's
`normalize_url`): fragment stripped, default port removed, trailing slash
removed from non-root paths. -/
def spec_normalize_url (u : Url) : Url :=
  let new_path :=
    if u.path ≠ "/" ∧ endsWithSlash u.path then rstripSlash u.path else u.path
  let new_netloc := stripDefaultPort u.scheme u.netloc
  { u with path := new_path, fragment := "", netloc := new_netloc }

/-- A URL carrying an explicit default port, kept verbatim by the code. -/
def urlWithPort : Url :=
  { scheme := "http", netloc := "example.com:80", path := "/a" }

/-- C6 (counterexample): `normalize_url` does not remove default ports: on
`http://example.com:80/a` the code returns the netloc `example.com:80`
unchanged, while the claimed behaviour (`spec_normalize_url`) yields
`example.com`. -/
theorem c6_counterexample :
    (normalize_url urlWithPort).netloc = "example.com:80" ∧
    (spec_normalize_url urlWithPort).netloc = "example.com" ∧
    normalize_url urlWithPort ≠ spec_normalize_url urlWithPort := by
  exact ⟨by decide, by decide, by decide⟩

theorem endsWithSlash_rstripSlash (s : String) :
    endsWithSlash (rstripSlash s) = false := by
  unfold endsWithSlash rstripSlash
  simp only [String.data]
  rw [List.getLast?_reverse]
  cases h : (s.data.reverse.dropWhile fun c => c = '/').head? with
  | none => simp [h]
  | some c =>
      have := List.head?_dropWhile_not (fun c => c = '/') s.data.reverse
      rw [h] at this
      simp at this
      simp [h, this]

/-- C6 (amended): `normalize_url u` strips the fragment (and RFC params),
preserves scheme, netloc (so ports, default or not, are kept) and query,
leaves the root path `"/"` unchanged, leaves paths without a trailing slash
unchanged, and removes all trailing slashes from any other path (the result
never ends in `"/"`). -/
theorem c6_normalize_url_amended (u : Url) :
    (normalize_url u).scheme = u.scheme ∧
    (normalize_url u).netloc = u.netloc ∧
    (normalize_url u).query = u.query ∧
    (normalize_url u).fragment = "" ∧
    (normalize_url u).params = "" ∧
    (u.path = "/" → (normalize_url u).path = "/") ∧
    (endsWithSlash u.path = false → (normalize_url u).path = u.path) ∧
    (u.path ≠ "/" → endsWithSlash (normalize_url u).path = false) := by
  refine ⟨rfl, rfl, rfl, rfl, rfl, ?_, ?_, ?_⟩
  · intro h
    simp [normalize_url, h]
  · intro h
    simp [normalize_url, h]
  · intro h
    by_cases hs : endsWithSlash u.path
    · simp [normalize_url, h, hs, endsWithSlash_rstripSlash]
    · simp only [normalize_url]
      rw [if_neg (by simp [hs])]
      simpa using hs

/-- C6 (witness): the amended theorem at `http://example.com:80/a/`. -/
theorem c6_witness :
    ({ scheme := "http", netloc := "example.com:80", path := "/a/" } : Url).path ≠ "/" ∧
    endsWithSlash (normalize_url
      { scheme := "http", netloc := "example.com:80", path := "/a/" }).path = false := by
  refine ⟨by decide, ?_⟩
  exact (c6_normalize_url_amended
    { scheme := "http", netloc := "example.com:80", path := "/a/" }).2.2.2.2.2.2.2
    (by decide)

/-- Does `p` begin the list `s`? -/
def startsL : List Char → List Char → Bool
  | [], _ => true
  | _ :: _, [] => false
  | p :: ps, c :: cs => p = c && startsL ps cs

/-- Worker for `listReplace`, structurally recursive on a fuel that bounds
the input length (every step consumes at least one character, so a fuel of
`s.length` is always sufficient and the `0` fallback is never reached). -/
def listReplaceAux (pat rep : List Char) : Nat → List Char → List Char
  | _, [] => []
  | Nat.succ fuel, c :: rest =>
      if pat ≠ [] ∧ startsL pat (c :: rest) then
        rep ++ listReplaceAux pat rep fuel ((c :: rest).drop pat.length)
      else
        c :: listReplaceAux pat rep fuel rest
  | 0, s => s

/-- Python `str.replace(pat, rep)` on character lists: replace every
non-overlapping occurrence, scanning left to right and continuing after the
replacement (an empty pattern is never used by the modelled code and is
treated as no-op). -/
def listReplace (pat rep s : List Char) : List Char :=
  listReplaceAux pat rep s.length s

/-- Split a character list at every non-alphanumeric character (the pieces
between separators, in order; separators are dropped). -/
def splitNA : List Char → List (List Char)
  | [] => [[]]
  | c :: rest =>
      match splitNA rest with
      | [] => if c.isAlphanum then [[c]] else [[], []]
      | w :: ws => if c.isAlphanum then (c :: w) :: ws else [] :: w :: ws

/-- Model of the external `python-slugify` default behaviour on the ASCII
strings the pipeline feeds it: lowercase, keep alphanumeric runs, collapse
every other character into a single hyphen, no leading/trailing hyphens. -/
def slugify (s : String) : String :=
  String.mk (List.intercalate ['-']
    ((splitNA (s.data.map Char.toLower)).filter (fun w => w ≠ [])))

/-- `thinkmark.utils.url.url_to_filename`: slug of the netloc (`"site"` when
empty), then — for files — the slug of the path with `/` replaced by `-`,
joined with a hyphen and suffixed `.html`; the scheme, query, params and
fragment never enter the result. -/
def url_to_filename (u : Url) (is_dir : Bool := false) : String :=
  let domain := if u.netloc = "" then "site" else u.netloc
  let path := lstripSlash (rstripSlash u.path)
  if is_dir then slugify domain
  else if path ≠ "" then
    slugify domain ++ "-" ++
      slugify (String.mk (path.data.map (fun c => if c = '/' then '-' else c))) ++
      ".html"
  else slugify domain ++ ".html"

/-- `thinkmark.scrape.adapter.create_documents_from_crawl`:
`doc_id = url_to_filename(url).replace(".html", "")`. -/
def url_to_id (u : Url) : String :=
  String.mk (listReplace ".html".data [] (url_to_filename u).data)

/-- First C5 URL: `http://example.com/docs`. -/
def urlHttpDocs : Url := { scheme := "http", netloc := "example.com", path := "/docs" }

/-- Second C5 URL: `https://example.com/docs` — normalises differently (the
scheme is kept by `normalize_url`) yet produces the same document id. -/
def urlHttpsDocs : Url := { scheme := "https", netloc := "example.com", path := "/docs" }

/-- C5 (counterexample): `url_to_id` is not injective over URLs that
normalise to distinct values: `http://example.com/docs` and
`https://example.com/docs` normalise differently but share the id
`example-com-docs`, because `url_to_filename` ignores the scheme (and the
query) entirely. -/
theorem c5_counterexample :
    normalize_url urlHttpDocs ≠ normalize_url urlHttpsDocs ∧
    url_to_id urlHttpDocs = url_to_id urlHttpsDocs ∧
    url_to_id urlHttpDocs = "example-com-docs" := by
  exact ⟨by decide, by decide, by decide⟩

theorem dropWhile_self {α : Type} (p : α → Bool) (l : List α) :
    (l.dropWhile p).dropWhile p = l.dropWhile p := by
  induction l with
  | nil => simp
  | cons a l ih =>
      by_cases h : p a
      · simp [List.dropWhile_cons, h, ih]
      · simp [List.dropWhile_cons, h]

theorem rstripSlash_idem (s : String) :
    rstripSlash (rstripSlash s) = rstripSlash s := by
  simp [rstripSlash, List.reverse_reverse, dropWhile_self]

theorem rstripSlash_normalize (p : String) :
    rstripSlash (if p ≠ "/" ∧ endsWithSlash p then rstripSlash p else p)
      = rstripSlash p := by
  by_cases h : p ≠ "/" ∧ endsWithSlash p
  · simp [h, rstripSlash_idem]
  · simp [h]

/-- C5 (amended): `url_to_id` is not injective over normalise-distinct URLs
(see `c5_counterexample`); the direction that does hold is the spec's other
sentence: two URLs that `normalize` maps to the same value always receive
the same filename and the same document id. -/
theorem c5_url_to_id_amended (u₁ u₂ : Url)
    (h : normalize_url u₁ = normalize_url u₂) :
    url_to_filename u₁ = url_to_filename u₂ ∧ url_to_id u₁ = url_to_id u₂ := by
  have hnet : u₁.netloc = u₂.netloc := by
    have := congrArg Url.netloc h
    simpa [normalize_url] using this
  have hpath :
      (if u₁.path ≠ "/" ∧ endsWithSlash u₁.path then rstripSlash u₁.path else u₁.path)
        = (if u₂.path ≠ "/" ∧ endsWithSlash u₂.path then rstripSlash u₂.path
            else u₂.path) := by
    have := congrArg Url.path h
    simpa [normalize_url] using this
  have hr : rstripSlash u₁.path = rstripSlash u₂.path := by
    have h1 := rstripSlash_normalize u₁.path
    have h2 := rstripSlash_normalize u₂.path
    rw [← h1, ← h2, hpath]
  have hfile : url_to_filename u₁ = url_to_filename u₂ := by
    unfold url_to_filename
    rw [hnet, hr]
  refine ⟨hfile, ?_⟩
  unfold url_to_id
  rw [hfile]

/-- C5 (witness): the amended theorem applied to `/docs/` and `/docs`, which
normalise equal. -/
theorem c5_witness :
    normalize_url { urlHttpDocs with path := "/docs/" } = normalize_url urlHttpDocs ∧
    url_to_id { urlHttpDocs with path := "/docs/" } = url_to_id urlHttpDocs := by
  refine ⟨by decide, ?_⟩
  exact (c5_url_to_id_amended { urlHttpDocs with path := "/docs/" } urlHttpDocs
    (by decide)).2

/-- `p.startswith(q)` on strings, via the character-list worker. -/
def pyStartsWith (q s : String) : Bool :=
  startsL q.data s.data

/-- `not line.strip()`: the line consists of whitespace only. -/
def isBlank (l : String) : Bool :=
  l.data.all Char.isWhitespace

/-- The module-level deduplication state of
`docs_llm_scraper.cleaner.html_cleaner`: `paragraph_hashes` (hash →
occurrence count, `.get(h, 0)` default) and `skip_hashes` (hashes seen three
times).  SHA-256 is injective for all practical purposes, so hashes are
modelled by the hashed line itself. -/
structure CleanState : Type where
  counts : String → Nat
  skips : String → Bool

/-- The initial (empty) dedup state. -/
def initClean : CleanState := { counts := fun _ => 0, skips := fun _ => false }

/-- `line.startswith(('#', '>', '```', '    ', '-', '*', '|'))`. -/
def markStarts (l : String) : Bool :=
  pyStartsWith "#" l || pyStartsWith ">" l || pyStartsWith "```" l ||
    pyStartsWith "    " l || pyStartsWith "-" l || pyStartsWith "*" l ||
    pyStartsWith "|" l

/-- Is this line subject to deduplication?  The code deduplicates every
non-blank line that does not start with `#`, `>`, three backticks, four
spaces, `-`, `*` or `|`. -/
def qualifies (l : String) : Bool :=
  !(isBlank l) && !(markStarts l)

/-- One iteration of the line loop of `HTMLCleaner._clean_markdown`: blank
lines are emitted as `""`; marked lines pass through; for any other line the
hash count is consulted — a known-skipped hash is dropped, a hash reaching a
count of 3 is added to the skip set and dropped, otherwise the line is
kept. -/
def cleanStep (st : CleanState) (line : String) : List String × CleanState :=
  if isBlank line then ([""], st)
  else if !(markStarts line) then
    let h := line
    if st.skips h then ([], st)
    else
      let c := st.counts h + 1
      let counts' : String → Nat := fun x => if x = h then c else st.counts x
      if c ≥ 3 then
        ([], { counts := counts', skips := fun x => if x = h then true else st.skips x })
      else
        ([line], { st with counts := counts' })
  else ([line], st)

/-- The line loop of `_clean_markdown` over one document's lines. -/
def cleanLines : List String → CleanState → List String × CleanState
  | [], st => ([], st)
  | l :: rest, st =>
      let p := cleanStep st l
      let q := cleanLines rest p.2
      (p.1 ++ q.1, q.2)

/-- Running the cleaner over a sequence of documents; the dedup state is
module-level in Python and therefore persists across documents. -/
def cleanDocs : List (List String) → CleanState → List String × CleanState
  | [], st => ([], st)
  | d :: ds, st =>
      let p := cleanLines d st
      let q := cleanDocs ds p.2
      (p.1 ++ q.1, q.2)

/-- The per-line invariant tying the output count of a qualifying line `v`
to the dedup state. -/
def CleanGood (v : String) (st : CleanState) (n : Nat) : Prop :=
  n = min (st.counts v) 2 ∧ (st.skips v = true ↔ st.counts v ≥ 3)

theorem cleanStep_good (v l : String) (st : CleanState) (n : Nat)
    (hv : qualifies v = true) (h : CleanGood v st n) :
    CleanGood v (cleanStep st l).2 (n + (cleanStep st l).1.count v) := by
  obtain ⟨hn, hs⟩ := h
  have hvq : isBlank v = false ∧ markStarts v = false := by
    have := hv
    unfold qualifies at this
    simp only [Bool.and_eq_true, Bool.not_eq_true'] at this
    exact this
  unfold cleanStep
  by_cases hb : isBlank l = true
  · have hlv : ("" : String) ≠ v := by
      intro hquote
      rw [← hquote] at hvq
      simp [isBlank] at hvq
    rw [if_pos hb]
    exact ⟨by simpa [List.count_cons, hlv] using hn, hs⟩
  · rw [if_neg hb]
    by_cases hm : markStarts l = true
    · have hlv : l ≠ v := by
        intro he
        rw [he] at hm
        rw [hvq.2] at hm
        exact absurd hm (by simp)
      rw [if_neg (by simp [hm])]
      exact ⟨by simpa [List.count_cons, hlv] using hn, hs⟩
    · rw [if_pos (by simp [hm])]
      by_cases hlv : l = v
      · subst hlv
        by_cases hsk : st.skips l = true
        · rw [if_pos hsk]
          exact ⟨by simpa using hn, hs⟩
        · rw [if_neg hsk]
          have hcv : (if l = l then st.counts l + 1 else st.counts l)
              = st.counts l + 1 := if_pos rfl
          have hbv : (if l = l then true else st.skips l) = true := if_pos rfl
          by_cases hc : st.counts l + 1 ≥ 3
          · rw [if_pos hc]
            refine ⟨?_, ?_⟩
            · simp [hn]
              omega
            · simp
              omega
          · rw [if_neg hc]
            refine ⟨?_, ?_⟩
            · simp [hn]
              omega
            · have hsf : st.skips l = false := by
                cases hq : st.skips l
                · rfl
                · exact absurd (hs.mp hq) (by omega)
              simp [hsf]
              omega
      · have hlv' : v ≠ l := fun he => hlv he.symm
        by_cases hsk : st.skips l = true
        · rw [if_pos hsk]
          exact ⟨by simpa using hn, hs⟩
        · rw [if_neg hsk]
          by_cases hc : st.counts l + 1 ≥ 3
          · rw [if_pos hc]
            exact ⟨by simpa [if_neg hlv'] using hn, by simpa [if_neg hlv'] using hs⟩
          · rw [if_neg hc]
            exact ⟨by simpa [List.count_cons, hlv, hlv', if_neg hlv'] using hn,
              by simpa [if_neg hlv'] using hs⟩

theorem cleanLines_good (v : String) (hv : qualifies v = true) :
    ∀ (d : List String) (st : CleanState) (n : Nat), CleanGood v st n →
      CleanGood v (cleanLines d st).2 (n + (cleanLines d st).1.count v) := by
  intro d
  induction d with
  | nil => intro st n h; simpa [cleanLines] using h
  | cons l rest ih =>
      intro st n h
      have h1 := cleanStep_good v l st n hv h
      have h2 := ih (cleanStep st l).2 (n + (cleanStep st l).1.count v) h1
      simpa [cleanLines, List.count_append, Nat.add_assoc] using h2

theorem cleanDocs_good (v : String) (hv : qualifies v = true) :
    ∀ (ds : List (List String)) (st : CleanState) (n : Nat), CleanGood v st n →
      CleanGood v (cleanDocs ds st).2 (n + (cleanDocs ds st).1.count v) := by
  intro ds
  induction ds with
  | nil => intro st n h; simpa [cleanDocs] using h
  | cons d rest ih =>
      intro st n h
      have h1 := cleanLines_good v hv d st n h
      have h2 := ih (cleanLines d st).2 (n + (cleanLines d st).1.count v) h1
      simpa [cleanDocs, List.count_append, Nat.add_assoc] using h2

/-- The dedup loop alone (before the source-comment prepend) keeps every
qualifying line at most twice across a document sequence; the final state
records a line in the skip set exactly when its count reached 3, and the
surviving occurrences number `min(count, 2)`. -/
theorem cleanDocs_count_le_two (docs : List (List String)) (v : String)
    (hv : qualifies v = true) :
    (cleanDocs docs initClean).1.count v ≤ 2 ∧
    (cleanDocs docs initClean).1.count v
      = min ((cleanDocs docs initClean).2.counts v) 2 ∧
    ((cleanDocs docs initClean).2.skips v = true ↔
      (cleanDocs docs initClean).2.counts v ≥ 3) := by
  have h0 : CleanGood v initClean 0 := by
    constructor
    · simp [initClean]
    · simp [initClean]
  have h := cleanDocs_good v hv docs initClean 0 h0
  obtain ⟨h1, h2⟩ := h
  simp only [Nat.zero_add] at h1
  exact ⟨by omega, h1, h2⟩

/-- The per-page record of `thinkmark.scrape.hierarchy.build_tree`'s `pages`
dict: `pages[url]` carries `"title"`, `"url"` and optionally `"page"`. -/
structure PageInfo : Type where
  title : String
  url : String
  page : Option String := none
deriving DecidableEq

mutual
/-- A node of the tree `build_tree` returns:
`{"title", "url", "page", "children"}`. -/
inductive HNode : Type where
  | mk (title url page : String) (children : HForest)
/-- A list of hierarchy nodes (`"children"`). -/
inductive HForest : Type where
  | nil
  | cons (n : HNode) (rest : HForest)
end

/-- `pages[url].get("page", f"{url}.md")`. -/
def pageName (url : String) (pg : PageInfo) : String :=
  pg.page.getD (url ++ ".md")

/-- The minimal reference node returned when a URL is revisited: same
title/url/page fields, empty children (the `none` case mirrors the
fuel-exhausted fallback and is unreachable from `build_tree`, where every
traversed URL is a key of `pages`). -/
def leafNode (pages : List (String × PageInfo)) (url : String) : HNode :=
  match dictGet url pages with
  | some pg => HNode.mk pg.title url (pageName url pg) HForest.nil
  | none => HNode.mk "" url (url ++ ".md") HForest.nil

/-- `children_map` of `build_tree`: for each parent, the children recorded in
`edges` (a child → parent dict) whose endpoints are both pages, in `edges`
order. -/
def children_map (pages : List (String × PageInfo))
    (edges : List (String × String)) (p : String) : List String :=
  (edges.filter (fun cp =>
    ((dictGet cp.1 pages).isSome && (dictGet cp.2 pages).isSome) &&
      (cp.2 = p))).map Prod.fst

/-- Folding a subtree builder over a list of candidate URLs, threading the
(shared, only ever growing) `visited` list; `keep` is the per-URL guard
(`child_url in pages` inside `build_subtree`; always true for the root
loop). -/
def forestFold (keep : String → Bool)
    (step : List String → String → HNode × List String) :
    List String → List String → HForest × List String
  | v, [] => (HForest.nil, v)
  | v, c :: rest =>
      if keep c then
        let r1 := step v c
        let r2 := forestFold keep step r1.2 rest
        (HForest.cons r1.1 r2.1, r2.2)
      else forestFold keep step v rest

/-- `build_subtree` of `build_tree`: a revisited URL yields a minimal leaf
reference; otherwise the URL is marked visited and a fresh node is built
with the children recursively processed (children not in `pages` are
skipped).  Structural fuel bounds the recursion depth; every expansion
consumes one fuel unit and marks one previously unvisited page, so any fuel
larger than the number of pages is never exhausted (the fuel-out branch
coincides with the leaf-reference branch). -/
def goSub (pages : List (String × PageInfo)) (cmap : String → List String) :
    Nat → List String → String → HNode × List String
  | 0 => fun visited url => (leafNode pages url, visited)
  | Nat.succ fuel => fun visited url =>
      if url ∈ visited then (leafNode pages url, visited)
      else
        match dictGet url pages with
        | none => (HNode.mk "" url (url ++ ".md") HForest.nil, visited)
        | some pg =>
            let r := forestFold (fun c => (dictGet c pages).isSome)
              (goSub pages cmap fuel) (url :: visited) (cmap url)
            (HNode.mk pg.title url (pageName url pg) r.1, r.2)

/-- The root URLs of `build_tree`: pages that never occur as a child in
`edges`; when there is none but pages exist, the first page is the fallback
root. -/
def root_urls (pages : List (String × PageInfo))
    (edges : List (String × String)) : List String :=
  let child_urls := edges.map Prod.fst
  let roots := (pages.map Prod.fst).filter (fun u => decide (u ∉ child_urls))
  if roots = [] ∧ pages ≠ [] then [(pages.map Prod.fst).headI] else roots

/-- `min(root_urls, key=len)`: the first URL of minimal length. -/
def minByLen (l : List String) : String :=
  match l with
  | [] => ""
  | x :: rest => rest.foldl (fun acc y => if y.length < acc.length then y else acc) x

/-- `thinkmark.scrape.hierarchy.build_tree`.  With several roots, a virtual
root is synthesised from the shortest root URL (`page` is `index.md`) and
every root's subtree is appended under it, the DFS `visited` set being
shared across the whole build; with exactly one root that root's subtree is
returned; with no pages at all, a `"No Title"` placeholder. -/
def build_tree (pages : List (String × PageInfo))
    (edges : List (String × String)) : HNode :=
  let cmap := children_map pages edges
  let roots := root_urls pages edges
  let fuel := pages.length + 1
  if roots.length > 1 then
    let main_root := minByLen roots
    let pg := (dictGet main_root pages).getD { title := "", url := "" }
    let r := forestFold (fun _ => true) (goSub pages cmap fuel) [] roots
    HNode.mk pg.title pg.url "index.md" r.1
  else
    match roots with
    | [r0] => (goSub pages cmap fuel [] r0).1
    | _ => HNode.mk "No Title" "" "index.md" HForest.nil

mutual
/-- Number of nodes of the tree whose `url` is `u`. -/
def occTree (u : String) : HNode → Nat
  | HNode.mk _ url _ cs => (if url = u then 1 else 0) + occForest u cs
/-- Number of nodes of the forest whose `url` is `u`. -/
def occForest (u : String) : HForest → Nat
  | HForest.nil => 0
  | HForest.cons n rest => occTree u n + occForest u rest
end

/-- Is the forest empty? -/
def isNilF : HForest → Bool
  | HForest.nil => true
  | HForest.cons _ _ => false

mutual
/-- Number of nodes with `url = u` that have a non-empty children list. -/
def occNETree (u : String) : HNode → Nat
  | HNode.mk _ url _ cs =>
      (if url = u ∧ isNilF cs = false then 1 else 0) + occNEForest u cs
/-- Forest version of `occNETree`. -/
def occNEForest (u : String) : HForest → Nat
  | HForest.nil => 0
  | HForest.cons n rest => occNETree u n + occNEForest u rest
end

/-- Occurrence count of a string in a list. -/
def countL (u : String) : List String → Nat
  | [] => 0
  | x :: rest => (if x = u then 1 else 0) + countL u rest

/-- Total number of `cmap`-children equal to `u` over a list of parents. -/
def cmapSum (pages : List (String × PageInfo)) (edges : List (String × String))
    (u : String) (W : List String) : Nat :=
  (W.map (fun x => countL u (children_map pages edges x))).sum

theorem countL_append (u : String) (a b : List String) :
    countL u (a ++ b) = countL u a + countL u b := by
  induction a with
  | nil => simp [countL]
  | cons x xs ih => simp [countL, ih]; omega

theorem countL_eq_zero_of_not_mem {u : String} {l : List String} (h : u ∉ l) :
    countL u l = 0 := by
  induction l with
  | nil => rfl
  | cons x xs ih =>
      have hx : x ≠ u := fun he => h (he ▸ List.mem_cons_self x xs)
      have hxs : u ∉ xs := fun hm => h (List.mem_cons_of_mem x hm)
      simp [countL, hx, ih hxs]

theorem countL_le_one_of_nodup {u : String} {l : List String} (h : l.Nodup) :
    countL u l ≤ 1 := by
  induction l with
  | nil => simp [countL]
  | cons x xs ih =>
      rcases List.nodup_cons.mp h with ⟨hx, hxs⟩
      by_cases he : x = u
      · subst he
        simp [countL, countL_eq_zero_of_not_mem hx]
      · simp [countL, he]
        exact ih hxs

theorem dictGet_isSome_mem {α β : Type} [DecidableEq α] {k : α} {d : List (α × β)}
    (h : (dictGet k d).isSome = true) : k ∈ dictKeys d := by
  induction d with
  | nil => simp [dictGet] at h
  | cons hd tl ih =>
      obtain ⟨k', v'⟩ := hd
      by_cases hk : k' = k
      · simp [dictKeys_cons, hk]
      · rw [dictGet, if_neg hk] at h
        exact List.mem_cons_of_mem _ (ih h)

theorem cmapSum_append (pages : List (String × PageInfo))
    (edges : List (String × String)) (u : String) (a b : List String) :
    cmapSum pages edges u (a ++ b)
      = cmapSum pages edges u a + cmapSum pages edges u b := by
  simp [cmapSum]

theorem mem_children_map {pages : List (String × PageInfo)}
    {edges : List (String × String)} {x y : String}
    (h : y ∈ children_map pages edges x) : y ∈ edges.map Prod.fst := by
  unfold children_map at h
  rcases List.mem_map.mp h with ⟨cp, hcp, hfst⟩
  exact List.mem_map.mpr ⟨cp, List.mem_of_mem_filter hcp, hfst⟩

theorem countL_cmap_zero {pages : List (String × PageInfo)}
    {edges : List (String × String)} {u : String}
    (h : u ∉ edges.map Prod.fst) (x : String) :
    countL u (children_map pages edges x) = 0 := by
  refine countL_eq_zero_of_not_mem ?_
  intro hm
  exact h (mem_children_map hm)

theorem cmapSum_zero {pages : List (String × PageInfo)}
    {edges : List (String × String)} {u : String}
    (h : u ∉ edges.map Prod.fst) (W : List String) :
    cmapSum pages edges u W = 0 := by
  unfold cmapSum
  refine List.sum_eq_zero ?_
  intro y hy
  rcases List.mem_map.mp hy with ⟨x, _, hx⟩
  rw [← hx]
  exact countL_cmap_zero h x

theorem sum_map_add_split (f g : String → Nat) (W : List String) :
    (W.map (fun x => f x + g x)).sum = (W.map f).sum + (W.map g).sum := by
  induction W with
  | nil => rfl
  | cons x xs ih => simp [ih]; omega

theorem sum_ite_head (W : List String) (hW : W.Nodup) (a : String) (P : Prop)
    [Decidable P] :
    (W.map (fun x => if x = a ∧ P then 1 else 0)).sum
      ≤ if P then 1 else 0 := by
  by_cases hp : P
  · have : (W.map (fun x => if x = a ∧ P then 1 else 0)).sum = countL a W := by
      induction W with
      | nil => rfl
      | cons x xs ih =>
          rcases List.nodup_cons.mp hW with ⟨_, hxs⟩
          simp only [List.map_cons, List.sum_cons, countL, ih hxs]
          by_cases hx : x = a
          · simp [hx, hp]
          · simp [hx, hp]
    rw [this, if_pos hp]
    exact countL_le_one_of_nodup hW
  · have : (W.map (fun x => if x = a ∧ P then 1 else 0)).sum = 0 := by
      refine List.sum_eq_zero ?_
      intro y hy
      rcases List.mem_map.mp hy with ⟨x, _, hx⟩
      rw [← hx, if_neg (fun hc => hp hc.2)]
    rw [this, if_neg hp]

theorem countL_children_map_cons (pages : List (String × PageInfo))
    (e : String × String) (es : List (String × String)) (u x : String) :
    countL u (children_map pages (e :: es) x)
      = (if x = e.2 ∧
            (((dictGet e.1 pages).isSome && (dictGet e.2 pages).isSome) = true
              ∧ e.1 = u) then 1 else 0)
        + countL u (children_map pages es x) := by
  unfold children_map
  rw [List.filter_cons]
  by_cases hc : (((dictGet e.1 pages).isSome && (dictGet e.2 pages).isSome) &&
      decide (e.2 = x)) = true
  · rw [if_pos hc]
    have h1 : ((dictGet e.1 pages).isSome && (dictGet e.2 pages).isSome) = true := by
      exact (Bool.and_eq_true_iff.mp hc).1
    have h2 : e.2 = x := by
      have := (Bool.and_eq_true_iff.mp hc).2
      exact of_decide_eq_true this
    simp only [List.map_cons, countL]
    by_cases hu : e.1 = u
    · rw [if_pos hu, if_pos ⟨h2.symm, h1, hu⟩]
    · rw [if_neg hu, if_neg (fun hh => hu hh.2.2)]
  · rw [if_neg hc]
    have : ¬ (x = e.2 ∧
        (((dictGet e.1 pages).isSome && (dictGet e.2 pages).isSome) = true
          ∧ e.1 = u)) := by
      intro hh
      exact hc (by
        rw [Bool.and_eq_true_iff]
        exact ⟨hh.2.1, decide_eq_true hh.1.symm⟩)
    rw [if_neg this]
    omega

theorem cmapSum_le (pages : List (String × PageInfo)) (u : String)
    (W : List String) (hW : W.Nodup) :
    ∀ edges : List (String × String),
      cmapSum pages edges u W ≤ countL u (edges.map Prod.fst) := by
  intro edges
  induction edges with
  | nil =>
      have : cmapSum pages [] u W = 0 := cmapSum_zero (by simp) W
      simp [this]
  | cons e es ih =>
      have hsplit : cmapSum pages (e :: es) u W
          = (W.map (fun x => if x = e.2 ∧
              (((dictGet e.1 pages).isSome && (dictGet e.2 pages).isSome) = true
                ∧ e.1 = u) then 1 else 0)).sum + cmapSum pages es u W := by
        unfold cmapSum
        rw [← sum_map_add_split]
        have hfun : (fun x => countL u (children_map pages (e :: es) x))
            = fun x => (if x = e.2 ∧
                (((dictGet e.1 pages).isSome && (dictGet e.2 pages).isSome) = true
                  ∧ e.1 = u) then 1 else 0)
              + countL u (children_map pages es x) := by
          funext x
          exact countL_children_map_cons pages e es u x
        rw [hfun]
      rw [hsplit]
      have h1 := sum_ite_head W hW e.2
        ((((dictGet e.1 pages).isSome && (dictGet e.2 pages).isSome) = true
          ∧ e.1 = u))
      have h2 : (if (((dictGet e.1 pages).isSome && (dictGet e.2 pages).isSome)
          = true ∧ e.1 = u) then 1 else 0) ≤ (if e.1 = u then 1 else 0) := by
        by_cases hq : (((dictGet e.1 pages).isSome && (dictGet e.2 pages).isSome)
            = true ∧ e.1 = u)
        · rw [if_pos hq, if_pos hq.2]
        · rw [if_neg hq]
          omega
      have h3 : countL u ((e :: es).map Prod.fst)
          = (if e.1 = u then 1 else 0) + countL u (es.map Prod.fst) := rfl
      rw [h3]
      omega

theorem occTree_leafNode (pages : List (String × PageInfo)) (u c : String) :
    occTree u (leafNode pages c) = if c = u then 1 else 0 := by
  unfold leafNode
  cases dictGet c pages with
  | none => simp [occTree, occForest]
  | some pg => simp [occTree, occForest]

theorem occNETree_leafNode (pages : List (String × PageInfo)) (u c : String) :
    occNETree u (leafNode pages c) = 0 := by
  unfold leafNode
  cases dictGet c pages with
  | none => simp [occNETree, occNEForest, isNilF]
  | some pg => simp [occNETree, occNEForest, isNilF]

/-- Everything the induction needs to know about one `build_subtree` call:
the visited list grows by a duplicate-free block `w` of previously
unvisited page keys; the number of `u`-nodes of the built tree is bounded by
the root indicator plus the number of `u`-children recorded under the newly
visited parents; and at most one `u`-node has children — none unless `u`
itself was newly visited. -/
def StepSpec (pages : List (String × PageInfo))
    (edges : List (String × String)) (u : String)
    (step : List String → String → HNode × List String) : Prop :=
  ∀ v c, ∃ w : List String,
    (step v c).2 = w ++ v ∧ w.Nodup ∧ (∀ x ∈ w, x ∉ v) ∧
    (∀ x ∈ w, x ∈ pages.map Prod.fst) ∧
    occTree u (step v c).1
      ≤ (if c = u then 1 else 0) + cmapSum pages edges u w ∧
    occNETree u (step v c).1 ≤ (if u ∈ w then 1 else 0)

theorem forestFold_spec (pages : List (String × PageInfo))
    (edges : List (String × String)) (u : String) (keep : String → Bool)
    (step : List String → String → HNode × List String)
    (hstep : StepSpec pages edges u step) :
    ∀ (cs : List String) (v : List String), ∃ w : List String,
      (forestFold keep step v cs).2 = w ++ v ∧ w.Nodup ∧ (∀ x ∈ w, x ∉ v) ∧
      (∀ x ∈ w, x ∈ pages.map Prod.fst) ∧
      occForest u (forestFold keep step v cs).1
        ≤ countL u cs + cmapSum pages edges u w ∧
      occNEForest u (forestFold keep step v cs).1 ≤ (if u ∈ w then 1 else 0) := by
  intro cs
  induction cs with
  | nil =>
      intro v
      exact ⟨[], rfl, List.nodup_nil, by simp, by simp,
        by simp [forestFold, occForest, countL, cmapSum], by simp [forestFold, occNEForest]⟩
  | cons c rest ih =>
      intro v
      by_cases hk : keep c = true
      · obtain ⟨w₁, hv₁, hnd₁, hdis₁, hkeys₁, hocc₁, hne₁⟩ := hstep v c
        obtain ⟨w₂, hv₂, hnd₂, hdis₂, hkeys₂, hocc₂, hne₂⟩ := ih (step v c).2
        refine ⟨w₂ ++ w₁, ?_, ?_, ?_, ?_, ?_, ?_⟩
        · show (forestFold keep step v (c :: rest)).2 = (w₂ ++ w₁) ++ v
          unfold forestFold
          rw [if_pos hk]
          rw [hv₂, hv₁, List.append_assoc]
        · refine List.Nodup.append hnd₂ hnd₁ ?_
          intro x hx₂ hx₁
          exact hdis₂ x hx₂ (by rw [hv₁]; exact List.mem_append.mpr (Or.inl hx₁))
        · intro x hx
          rcases List.mem_append.mp hx with hx₂ | hx₁
          · intro hxv
            exact hdis₂ x hx₂ (by rw [hv₁]; exact List.mem_append.mpr (Or.inr hxv))
          · exact hdis₁ x hx₁
        · intro x hx
          rcases List.mem_append.mp hx with hx₂ | hx₁
          · exact hkeys₂ x hx₂
          · exact hkeys₁ x hx₁
        · show occForest u (forestFold keep step v (c :: rest)).1 ≤ _
          unfold forestFold
          rw [if_pos hk]
          simp only [occForest]
          have hcount : countL u (c :: rest)
              = (if c = u then 1 else 0) + countL u rest := rfl
          rw [hcount, cmapSum_append]
          omega
        · show occNEForest u (forestFold keep step v (c :: rest)).1 ≤ _
          unfold forestFold
          rw [if_pos hk]
          simp only [occNEForest]
          by_cases hu₁ : u ∈ w₁
          · have hu₂ : u ∉ w₂ := by
              intro hx
              exact hdis₂ u hx (by rw [hv₁]; exact List.mem_append.mpr (Or.inl hu₁))
            have hmem : u ∈ w₂ ++ w₁ := List.mem_append.mpr (Or.inr hu₁)
            rw [if_pos hmem]
            rw [if_pos hu₁] at hne₁
            rw [if_neg hu₂] at hne₂
            omega
          · rw [if_neg hu₁] at hne₁
            by_cases hu₂ : u ∈ w₂
            · have hmem : u ∈ w₂ ++ w₁ := List.mem_append.mpr (Or.inl hu₂)
              rw [if_pos hmem]
              rw [if_pos hu₂] at hne₂
              omega
            · have hmem : u ∉ w₂ ++ w₁ := by
                intro hx
                rcases List.mem_append.mp hx with h | h
                · exact hu₂ h
                · exact hu₁ h
              rw [if_neg hmem]
              rw [if_neg hu₂] at hne₂
              omega
      · obtain ⟨w, hv, hnd, hdis, hkeys, hocc, hne⟩ := ih v
        refine ⟨w, ?_, hnd, hdis, hkeys, ?_, ?_⟩
        · show (forestFold keep step v (c :: rest)).2 = w ++ v
          unfold forestFold
          rw [if_neg hk]
          exact hv
        · show occForest u (forestFold keep step v (c :: rest)).1 ≤ _
          unfold forestFold
          rw [if_neg hk]
          have hcount : countL u (c :: rest)
              = (if c = u then 1 else 0) + countL u rest := rfl
          rw [hcount]
          omega
        · show occNEForest u (forestFold keep step v (c :: rest)).1 ≤ _
          unfold forestFold
          rw [if_neg hk]
          exact hne

theorem goSub_spec (pages : List (String × PageInfo))
    (edges : List (String × String)) (u : String) :
    ∀ fuel : Nat,
      StepSpec pages edges u (goSub pages (children_map pages edges) fuel) := by
  intro fuel
  induction fuel with
  | zero =>
      intro v c
      refine ⟨[], rfl, List.nodup_nil, by simp, by simp, ?_, ?_⟩
      · show occTree u (leafNode pages c) ≤ _
        rw [occTree_leafNode]
        simp [cmapSum]
      · show occNETree u (leafNode pages c) ≤ _
        rw [occNETree_leafNode]
        simp
  | succ fuel ih =>
      intro v c
      by_cases hvis : c ∈ v
      · refine ⟨[], ?_, List.nodup_nil, by simp, by simp, ?_, ?_⟩
        · show (goSub pages (children_map pages edges) (fuel + 1) v c).2 = [] ++ v
          unfold goSub
          rw [if_pos hvis]
          rfl
        · show occTree u (goSub pages (children_map pages edges) (fuel + 1) v c).1 ≤ _
          unfold goSub
          rw [if_pos hvis]
          rw [occTree_leafNode]
          simp [cmapSum]
        · show occNETree u (goSub pages (children_map pages edges) (fuel + 1) v c).1 ≤ _
          unfold goSub
          rw [if_pos hvis]
          rw [occNETree_leafNode]
          simp
      · cases hpg : dictGet c pages with
        | none =>
            refine ⟨[], ?_, List.nodup_nil, by simp, by simp, ?_, ?_⟩
            · show (goSub pages (children_map pages edges) (fuel + 1) v c).2 = [] ++ v
              unfold goSub
              rw [if_neg hvis, hpg]
              rfl
            · show occTree u (goSub pages (children_map pages edges) (fuel + 1) v c).1 ≤ _
              unfold goSub
              rw [if_neg hvis, hpg]
              simp [occTree, occForest, cmapSum]
            · show occNETree u (goSub pages (children_map pages edges) (fuel + 1) v c).1 ≤ _
              unfold goSub
              rw [if_neg hvis, hpg]
              simp [occNETree, occNEForest, isNilF]
        | some pg =>
            obtain ⟨wf, hvf, hndf, hdisf, hkeysf, hoccf, hnef⟩ :=
              forestFold_spec pages edges u (fun x => (dictGet x pages).isSome)
                (goSub pages (children_map pages edges) fuel) ih
                (children_map pages edges c) (c :: v)
            have hcw : c ∉ wf := by
              intro hx
              exact hdisf c hx (List.mem_cons_self c v)
            refine ⟨wf ++ [c], ?_, ?_, ?_, ?_, ?_, ?_⟩
            · show (goSub pages (children_map pages edges) (fuel + 1) v c).2
                  = (wf ++ [c]) ++ v
              unfold goSub
              rw [if_neg hvis, hpg]
              simp only [hvf, List.append_assoc, List.singleton_append]
            · refine List.Nodup.append hndf (List.nodup_singleton c) ?_
              intro x hx hx'
              rcases List.mem_singleton.mp hx' with rfl
              exact hcw hx
            · intro x hx
              rcases List.mem_append.mp hx with h | h
              · intro hxv
                exact hdisf x h (List.mem_cons_of_mem c hxv)
              · rcases List.mem_singleton.mp h with rfl
                exact hvis
            · intro x hx
              rcases List.mem_append.mp hx with h | h
              · exact hkeysf x h
              · rcases List.mem_singleton.mp h with rfl
                exact dictGet_isSome_mem (by rw [hpg]; rfl)
            · show occTree u (goSub pages (children_map pages edges) (fuel + 1) v c).1 ≤ _
              unfold goSub
              rw [if_neg hvis, hpg]
              simp only [occTree]
              rw [cmapSum_append]
              have hsing : cmapSum pages edges u [c]
                  = countL u (children_map pages edges c) := by
                simp [cmapSum]
              rw [hsing]
              omega
            · show occNETree u (goSub pages (children_map pages edges) (fuel + 1) v c).1 ≤ _
              unfold goSub
              rw [if_neg hvis, hpg]
              simp only [occNETree]
              by_cases hcu : c = u
              · subst hcu
                have hmem : c ∈ wf ++ [c] :=
                  List.mem_append.mpr (Or.inr (List.mem_singleton_self c))
                rw [if_pos hmem]
                rw [if_neg hcw] at hnef
                have hfirst : (if c = c ∧ isNilF (forestFold
                    (fun x => (dictGet x pages).isSome)
                    (goSub pages (children_map pages edges) fuel) (c :: v)
                    (children_map pages edges c)).1 = false then 1 else 0) ≤ 1 := by
                  by_cases hq : (c = c ∧ isNilF (forestFold
                      (fun x => (dictGet x pages).isSome)
                      (goSub pages (children_map pages edges) fuel) (c :: v)
                      (children_map pages edges c)).1 = false)
                  · rw [if_pos hq]
                  · rw [if_neg hq]
                    omega
                omega
              · rw [if_neg (fun hq => hcu hq.1)]
                by_cases hu : u ∈ wf
                · have hmem : u ∈ wf ++ [c] := List.mem_append.mpr (Or.inl hu)
                  rw [if_pos hmem]
                  rw [if_pos hu] at hnef
                  omega
                · have hmem : u ∉ wf ++ [c] := by
                    intro hx
                    rcases List.mem_append.mp hx with h | h
                    · exact hu h
                    · rcases List.mem_singleton.mp h with rfl
                      exact hcu rfl
                  rw [if_neg hmem]
                  rw [if_neg hu] at hnef
                  omega

theorem root_urls_cases (pages : List (String × PageInfo))
    (edges : List (String × String)) :
    root_urls pages edges = [(pages.map Prod.fst).headI] ∨
    root_urls pages edges
      = (pages.map Prod.fst).filter (fun u => decide (u ∉ edges.map Prod.fst)) := by
  unfold root_urls
  by_cases h : (pages.map Prod.fst).filter
      (fun u => decide (u ∉ edges.map Prod.fst)) = [] ∧ pages ≠ []
  · left
    simp only [if_pos h]
  · right
    simp only [if_neg h]

/-- C3 (amended): for every pages map and parent-edge map with
duplicate-free keys, the tree built by `build_tree` contains each page URL
at most twice, a revisited URL always yields a leaf reference with an empty
children list (this is what breaks cycles), and at most one occurrence of a
URL has a non-empty children list whenever there is at most one root; with
several roots the synthesised virtual root duplicates the shortest root's
URL and both of its occurrences may carry children, so the bound for
occurrences-with-children is 2, not 1. -/
theorem c3_build_tree_amended (pages : List (String × PageInfo))
    (edges : List (String × String))
    (hp : (pages.map Prod.fst).Nodup) (he : (edges.map Prod.fst).Nodup)
    (u : String) :
    occTree u (build_tree pages edges) ≤ 2 ∧
    occNETree u (build_tree pages edges) ≤ 2 ∧
    ((root_urls pages edges).length ≤ 1 →
      occNETree u (build_tree pages edges) ≤ 1) ∧
    (∀ (fuel : Nat) (v : List String) (url : String), url ∈ v →
      goSub pages (children_map pages edges) fuel v url = (leafNode pages url, v)) := by
  have hrevisit : ∀ (fuel : Nat) (v : List String) (url : String), url ∈ v →
      goSub pages (children_map pages edges) fuel v url = (leafNode pages url, v) := by
    intro fuel v url hvis
    cases fuel with
    | zero => rfl
    | succ f =>
        unfold goSub
        rw [if_pos hvis]
  by_cases hlen : (root_urls pages edges).length > 1
  · -- multi-root: virtual root case
    have hform : root_urls pages edges
        = (pages.map Prod.fst).filter (fun u => decide (u ∉ edges.map Prod.fst)) := by
      rcases root_urls_cases pages edges with h | h
      · rw [h] at hlen
        simp at hlen
      · exact h
    have hroots_nodup : (root_urls pages edges).Nodup := by
      rw [hform]
      exact hp.filter _
    have hroots_not_child : ∀ x ∈ root_urls pages edges, x ∉ edges.map Prod.fst := by
      intro x hx
      rw [hform] at hx
      have := (List.mem_filter.mp hx).2
      exact of_decide_eq_true this
    obtain ⟨wF, hvF, hndF, _, _, hoccF, hneF⟩ :=
      forestFold_spec pages edges u (fun _ => true)
        (goSub pages (children_map pages edges) (pages.length + 1))
        (goSub_spec pages edges u (pages.length + 1))
        (root_urls pages edges) []
    have hbound : countL u (root_urls pages edges) + cmapSum pages edges u wF ≤ 1 := by
      by_cases hu : u ∈ root_urls pages edges
      · have h0 : u ∉ edges.map Prod.fst := hroots_not_child u hu
        have hz : cmapSum pages edges u wF = 0 := cmapSum_zero h0 wF
        have hc : countL u (root_urls pages edges) ≤ 1 :=
          countL_le_one_of_nodup hroots_nodup
        omega
      · have hc : countL u (root_urls pages edges) = 0 :=
          countL_eq_zero_of_not_mem hu
        have hs : cmapSum pages edges u wF ≤ countL u (edges.map Prod.fst) :=
          cmapSum_le pages u wF hndF edges
        have h1 : countL u (edges.map Prod.fst) ≤ 1 := countL_le_one_of_nodup he
        omega
    have htree : build_tree pages edges
        = HNode.mk
            ((dictGet (minByLen (root_urls pages edges)) pages).getD
              { title := "", url := "" }).title
            ((dictGet (minByLen (root_urls pages edges)) pages).getD
              { title := "", url := "" }).url
            "index.md"
            (forestFold (fun _ => true)
              (goSub pages (children_map pages edges) (pages.length + 1)) []
              (root_urls pages edges)).1 := by
      simp only [build_tree]
      rw [if_pos hlen]
    refine ⟨?_, ?_, ?_, hrevisit⟩
    · rw [htree]
      simp only [occTree]
      have hif : (if ((dictGet (minByLen (root_urls pages edges)) pages).getD
          { title := "", url := "" }).url = u then 1 else 0) ≤ 1 := by
        split
        · exact le_refl 1
        · omega
      omega
    · rw [htree]
      simp only [occNETree]
      have hif : (if ((dictGet (minByLen (root_urls pages edges)) pages).getD
          { title := "", url := "" }).url = u ∧
          isNilF (forestFold (fun _ => true)
            (goSub pages (children_map pages edges) (pages.length + 1)) []
            (root_urls pages edges)).1 = false then 1 else 0) ≤ 1 := by
        split
        · exact le_refl 1
        · omega
      have hne1 : occNEForest u (forestFold (fun _ => true)
          (goSub pages (children_map pages edges) (pages.length + 1)) []
          (root_urls pages edges)).1 ≤ 1 := by
        refine le_trans hneF ?_
        split
        · exact le_refl 1
        · omega
      omega
    · intro h
      omega
  · -- at most one root: either the placeholder tree or a single DFS subtree
    rcases hroots : root_urls pages edges with _ | ⟨r0, rest⟩
    · have htree : build_tree pages edges
          = HNode.mk "No Title" "" "index.md" HForest.nil := by
        simp only [build_tree]
        rw [hroots]
        simp
      refine ⟨?_, ?_, ?_, hrevisit⟩
      · rw [htree]
        simp only [occTree, occForest]
        split
        · omega
        · omega
      · rw [htree]
        simp [occNETree, occNEForest, isNilF]
      · intro _
        rw [htree]
        simp [occNETree, occNEForest, isNilF]
    · have hrest : rest = [] := by
        cases rest with
        | nil => rfl
        | cons a b =>
            rw [hroots] at hlen
            simp at hlen
      subst hrest
      have htree : build_tree pages edges
          = (goSub pages (children_map pages edges) (pages.length + 1) [] r0).1 := by
        simp only [build_tree]
        rw [hroots]
        simp
      obtain ⟨w, hv, hnd, _, _, hocc, hne⟩ :=
        goSub_spec pages edges u (pages.length + 1) [] r0
      have hcm : cmapSum pages edges u w ≤ 1 :=
        le_trans (cmapSum_le pages u w hnd edges) (countL_le_one_of_nodup he)
      have h1 : occTree u (build_tree pages edges) ≤ 2 := by
        rw [htree]
        refine le_trans hocc ?_
        have hif : (if r0 = u then 1 else 0) ≤ 1 := by
          split
          · omega
          · omega
        omega
      have h2 : occNETree u (build_tree pages edges) ≤ 1 := by
        rw [htree]
        refine le_trans hne ?_
        split
        · omega
        · omega
      exact ⟨h1, by omega, fun _ => h2, hrevisit⟩

/-- Pages of the C3 counterexample: two roots `a`, `b` and a child `c` of
`a`. -/
def pagesC3 : List (String × PageInfo) :=
  [("a", { title := "A", url := "a", page := some "a.md" }),
   ("b", { title := "B", url := "b" }),
   ("c", { title := "C", url := "c" })]

/-- Edges of the C3 counterexample: `c`'s parent is `a`. -/
def edgesC3 : List (String × String) := [("c", "a")]

/-- C3 (counterexample): with the two roots `a`, `b` and edge `c → a`,
`build_tree` synthesises a virtual root that reuses `a`'s URL and gives it
children, while `a`'s own DFS subtree also has the child `c`: the URL `a`
occurs twice and *both* occurrences have a non-empty children list, so "at
most one occurrence of which has children" fails as stated. -/
theorem c3_counterexample :
    occTree "a" (build_tree pagesC3 edgesC3) = 2 ∧
    occNETree "a" (build_tree pagesC3 edgesC3) = 2 := by
  exact ⟨by decide, by decide⟩

/-- C3 (witness): the amended theorem applied to the concrete maps of the
counterexample (whose keys are duplicate-free). -/
theorem c3_witness :
    ((pagesC3.map Prod.fst).Nodup ∧ (edgesC3.map Prod.fst).Nodup) ∧
    occTree "a" (build_tree pagesC3 edgesC3) ≤ 2 := by
  refine ⟨⟨by decide, by decide⟩, ?_⟩
  exact (c3_build_tree_amended pagesC3 edgesC3 (by decide) (by decide) "a").1

/-- Split a character list at every character satisfying `p`, keeping empty
pieces (`"a\n\nb".split('\n') = ['a', '', 'b']`). -/
def splitChars (p : Char → Bool) : List Char → List (List Char)
  | [] => [[]]
  | c :: rest =>
      match splitChars p rest with
      | [] => if p c then [[], []] else [[c]]
      | w :: ws => if p c then [] :: w :: ws else (c :: w) :: ws

/-- Does `needle` occur as a contiguous substring of the list? -/
def hasSub (needle : List Char) : List Char → Bool
  | [] => needle.isEmpty
  | c :: rest => startsL needle (c :: rest) || hasSub needle rest

/-- Number of non-overlapping occurrences of `needle`, scanning left to
right (`str.count`); `fuel` bounds the scan and `s.length` always
suffices. -/
def countSubAux (needle : List Char) : Nat → List Char → Nat
  | _, [] => 0
  | Nat.succ fuel, c :: rest =>
      if startsL needle (c :: rest) then
        1 + countSubAux needle fuel ((c :: rest).drop needle.length)
      else countSubAux needle fuel rest
  | 0, _ => 0

/-- Number of `"```"` fences occurring in a text. -/
def fenceCount (t : String) : Nat :=
  countSubAux ("```".data) t.data.length t.data

/-- Split a list around the first occurrence of `needle`: `some (pre, post)`
with the input equal to `pre ++ needle ++ post`, or `none` when `needle`
does not occur. -/
def splitFirstSub (needle : List Char) : List Char → Option (List Char × List Char)
  | [] => if needle.isEmpty then some ([], []) else none
  | c :: rest =>
      if startsL needle (c :: rest) then some ([], (c :: rest).drop needle.length)
      else
        match splitFirstSub needle rest with
        | some p => some (c :: p.1, p.2)
        | none => none

/-- Decimal digits of a natural number (what Python's `f"{i}"` writes);
structurally recursive on a fuel for which `n + 1` always suffices. -/
def natDigitsAux : Nat → Nat → List Char
  | 0, _ => []
  | Nat.succ fuel, n =>
      if n < 10 then [Char.ofNat (48 + n)]
      else natDigitsAux fuel (n / 10) ++ [Char.ofNat (48 + n % 10)]

/-- Decimal rendering of a natural number as characters. -/
def natDigits (n : Nat) : List Char :=
  natDigitsAux (n + 1) n

/-- The placeholder `__CODE_BLOCK_{i}__`. -/
def codePH (i : Nat) : List Char :=
  "__CODE_BLOCK_".data ++ natDigits i ++ "__".data

/-- The placeholder `__TABLE_{i}__`. -/
def tablePH (i : Nat) : List Char :=
  "__TABLE_".data ++ natDigits i ++ "__".data

/-- A `\w` character: alphanumeric or underscore. -/
def isWordChar (c : Char) : Bool :=
  c.isAlphanum || c = '_'

/-- Try the code-block pattern `` ```(?:\w+)?\n([\s\S]*?)``` `` at the head
of the list: the optional language word is the maximal `\w` run (if the
character after it is not a newline no shorter run can succeed either), and
the lazy body ends at the first closing fence. -/
def matchCodeAt (s : List Char) : Option (List Char × List Char) :=
  if startsL ("```".data) s then
    let after := s.drop 3
    let lang := after.takeWhile isWordChar
    match after.drop lang.length with
    | '\n' :: body =>
        match splitFirstSub ("```".data) body with
        | some p =>
            some ("```".data ++ lang ++ '\n' :: (p.1 ++ "```".data), p.2)
        | none => none
    | _ => none
  else none

/-- `re.sub` with the code-block pattern, replacing the `i`-th match (from
`k` on) by `__CODE_BLOCK_i__` and collecting the matched blocks; scans left
to right and continues after each match.  `fuel ≥ s.length` always
suffices. -/
def subCodeAux : Nat → Nat → List Char → List Char × List (List Char)
  | _, _, [] => ([], [])
  | Nat.succ fuel, k, c :: rest =>
      match matchCodeAt (c :: rest) with
      | some m =>
          let r := subCodeAux fuel (k + 1) m.2
          (codePH k ++ r.1, m.1 :: r.2)
      | none =>
          let r := subCodeAux fuel k rest
          (c :: r.1, r.2)
  | 0, _, s => (s, [])

/-- A table row `\|[^\n]+\|` spanning a whole newline-free segment: starts
and ends with `|` and has at least one character in between. -/
def isRowLine (l : List Char) : Bool :=
  decide (l.length ≥ 3) && startsL ['|'] l && decide (l.getLast? = some '|')

/-- The delimiter row `\|[-:| ]+\|`: a row line all of whose characters are
`-`, `:`, `|` or space. -/
def isDelimLine (l : List Char) : Bool :=
  isRowLine l && l.all (fun c => c = '-' || c = ':' || c = '|' || c = ' ')

/-- Greedily consume `(?:\|[^\n]+\|\n)+` rows: returns the consumed
characters, the rest, and the number of rows. -/
def matchRowsAux : Nat → List Char → List Char × List Char × Nat
  | 0, s => ([], s, 0)
  | Nat.succ fuel, s =>
      match splitFirstSub ['\n'] s with
      | some p =>
          if isRowLine p.1 then
            let r := matchRowsAux fuel p.2
            (p.1 ++ '\n' :: r.1, r.2.1, r.2.2 + 1)
          else ([], s, 0)
      | none => ([], s, 0)

/-- Try the table pattern `(\|[^\n]+\|\n\|[-:| ]+\|\n(?:\|[^\n]+\|\n)+)` at
the head of the list. -/
def matchTableAt (s : List Char) : Option (List Char × List Char) :=
  match splitFirstSub ['\n'] s with
  | some p1 =>
      if isRowLine p1.1 then
        match splitFirstSub ['\n'] p1.2 with
        | some p2 =>
            if isDelimLine p2.1 then
              let r := matchRowsAux p2.2.length p2.2
              if r.2.2 ≥ 1 then
                some (p1.1 ++ '\n' :: (p2.1 ++ '\n' :: r.1), r.2.1)
              else none
            else none
        | none => none
      else none
  | none => none

/-- `re.sub` with the table pattern, mirroring `subCodeAux`. -/
def subTableAux : Nat → Nat → List Char → List Char × List (List Char)
  | _, _, [] => ([], [])
  | Nat.succ fuel, k, c :: rest =>
      match matchTableAt (c :: rest) with
      | some m =>
          let r := subTableAux fuel (k + 1) m.2
          (tablePH k ++ r.1, m.1 :: r.2)
      | none =>
          let r := subTableAux fuel k rest
          (c :: r.1, r.2)
  | 0, _, s => (s, [])

/-- The result of `MarkdownStructureParser._preserve_special_blocks`: the
text with placeholders, and the `placeholders['code']` /
`placeholders['table']` lists. -/
structure PreserveOut : Type where
  text : List Char
  code : List (List Char)
  table : List (List Char)
deriving DecidableEq

/-- `_preserve_special_blocks`: first every code block is replaced by
`__CODE_BLOCK_i__`, then every table of the resulting text by
`__TABLE_i__`. -/
def preserve_special_blocks (t : List Char) : PreserveOut :=
  let c := subCodeAux t.length 0 t
  let tb := subTableAux c.1.length 0 c.1
  { text := tb.1, code := c.2, table := tb.2 }

/-- Replace `ph start, ph (start+1), ...` by the successive blocks (each an
unrestricted `str.replace`, i.e. all occurrences). -/
def restoreFold (ph : Nat → List Char) : List (List Char) → Nat → List Char → List Char
  | [], _, t => t
  | b :: rest, start, t => restoreFold ph rest (start + 1) (listReplace (ph start) b t)

/-- `_restore_special_blocks`: code placeholders are substituted back first
(in index order), then table placeholders. -/
def restore_special_blocks (st : PreserveOut) (t : List Char) : List Char :=
  restoreFold tablePH st.table 0 (restoreFold codePH st.code 0 t)

/-- The round trip of C10: preserve, then immediately restore on the
preserved text. -/
def preserveRestore (t : List Char) : List Char :=
  restore_special_blocks (preserve_special_blocks t) (preserve_special_blocks t).text

mutual
/-- `MarkdownSection`: heading, heading level, content lines and nested
subsections (the `parent_section` back-pointer carries no information). -/
inductive MSection : Type where
  | mk (heading : String) (heading_level : Nat) (content : List String)
      (subsections : MSections)
/-- A list of subsections. -/
inductive MSections : Type where
  | nil
  | cons (s : MSection) (rest : MSections)
end

/-- `MarkdownSection.get_text`: the `#`-prefixed heading line (when a
non-empty heading with positive level is present) followed by the content
lines, joined with newlines. -/
def get_text (s : MSection) : String :=
  match s with
  | MSection.mk heading level content _ =>
      let parts :=
        (if heading ≠ "" ∧ level > 0 then
          [String.mk (List.replicate level '#') ++ " " ++ heading]
        else []) ++ content
      String.intercalate "\n" parts

/-- `_should_split_section`: whitespace-token count strictly above
`chunk_size * 1.5` (stated as `2·tokens > 3·chunk_size`, exact for the
integer sizes involved). -/
def should_split_section (chunk_size : Nat) (text : String) : Bool :=
  2 * ((splitChars (fun c => c.isWhitespace) text.data).filter
    (fun w => w ≠ [])).length > 3 * chunk_size

/-- The splitting guard of `_create_node_from_section`:
`any(placeholder in section_text for placeholder in ['```', '|---|'])`. -/
def has_protected (text : String) : Bool :=
  hasSub ("```".data) text.data || hasSub ("|---|".data) text.data

/-- The node texts emitted for one section itself, together with the inputs
handed to the fallback sentence splitter `F` (the recorded second component
is the instrumentation: it logs exactly the texts passed to `F`). -/
def selfTexts (chunk_size : Nat) (F : String → List String) (text : String) :
    List String × List String :=
  if should_split_section chunk_size text && !(has_protected text) then
    (F text, [text])
  else ([text], [])

mutual
/-- `_create_node_from_section`, projected to the emitted node texts: the
section's own node(s) followed by the recursively emitted subsection nodes;
second component: every text passed to the fallback splitter. -/
def createNodeTexts (chunk_size : Nat) (F : String → List String) :
    MSection → List String × List String
  | MSection.mk h lv content subs =>
      let text := get_text (MSection.mk h lv content subs)
      let self := selfTexts chunk_size F text
      let rest := createNodesTexts chunk_size F subs
      (self.1 ++ rest.1, self.2 ++ rest.2)
/-- `createNodeTexts` over a subsection list. -/
def createNodesTexts (chunk_size : Nat) (F : String → List String) :
    MSections → List String × List String
  | MSections.nil => ([], [])
  | MSections.cons s r =>
      let a := createNodeTexts chunk_size F s
      let b := createNodesTexts chunk_size F r
      (a.1 ++ b.1, a.2 ++ b.2)
end

mutual
/-- Every section of a section tree (the section itself and, recursively,
its subsections). -/
def allSecs : MSection → List MSection
  | MSection.mk h lv c subs => MSection.mk h lv c subs :: allSecsF subs
/-- `allSecs` over a subsection list. -/
def allSecsF : MSections → List MSection
  | MSections.nil => []
  | MSections.cons s r => allSecs s ++ allSecsF r
end

/-- The heading pattern `^(#{1,6})\s+(.+)$` applied to one line: one to six
leading `#` (a longer run can never match, the next character being a `#`
rather than whitespace), at least one whitespace character, and a non-empty
remainder; returns the level and the raw remainder. -/
def headingMatch (l : List Char) : Option (Nat × List Char) :=
  let hashes := l.takeWhile (fun c => c = '#')
  if 1 ≤ hashes.length ∧ hashes.length ≤ 6 then
    let rest := l.drop hashes.length
    let sp := rest.takeWhile Char.isWhitespace
    if sp ≠ [] ∧ rest.drop sp.length ≠ [] then
      some (hashes.length, rest.drop sp.length)
    else none
  else none

/-- A section being assembled by `MarkdownStructureParser.parse`: heading,
level, content so far, and the already-completed subsections. -/
structure Frame : Type where
  heading : String
  level : Nat
  content : List String
  children : List MSection

/-- Turn a completed list of subsections into the nested representation. -/
def toMSections : List MSection → MSections
  | [] => MSections.nil
  | s :: r => MSections.cons s (toMSections r)

/-- Close a frame into a section. -/
def closeFrame (f : Frame) : MSection :=
  MSection.mk f.heading f.level f.content (toMSections f.children)

/-- Pop stack frames whose level is `≥ n` (the root is never popped),
attaching each closed frame to its parent's children; fuel-bounded, the
stack length always sufficing. -/
def popWhileAux : Nat → Nat → List Frame → List Frame
  | 0, _, st => st
  | Nat.succ fuel, n, st =>
      match st with
      | f :: g :: rest =>
          if f.level ≥ n then
            popWhileAux fuel n
              ({ g with children := g.children ++ [closeFrame f] } :: rest)
          else st
      | _ => st

/-- Pop every frame down to the root at the end of the parse. -/
def popAllAux : Nat → List Frame → List Frame
  | 0, st => st
  | Nat.succ fuel, st =>
      match st with
      | f :: g :: rest =>
          popAllAux fuel ({ g with children := g.children ++ [closeFrame f] } :: rest)
      | _ => st

/-- The heading loop of `MarkdownStructureParser.parse` over the lines of
the placeholder-protected text: pending content is flushed to the current
(= most recently opened) section when a heading arrives and at the end. -/
def parseLines (lines : List String) : MSection :=
  let flush := fun (st : List Frame × List String) =>
    match st.1 with
    | f :: rest => { f with content := f.content ++ st.2 } :: rest
    | [] => st.1
  let step := fun (st : List Frame × List String) (line : String) =>
    match headingMatch line.data with
    | some p =>
        let popped := popWhileAux (flush st).length p.1 (flush st)
        ({ heading := pyStrip (String.mk p.2), level := p.1, content := [],
            children := [] } :: popped, [])
    | none => (st.1, st.2 ++ [line])
  let root : Frame := { heading := "Document", level := 0, content := [], children := [] }
  let fin := lines.foldl step ([root], [])
  match popAllAux (flush fin).length (flush fin) with
  | [f] => closeFrame f
  | _ => closeFrame root

mutual
/-- `_restore_special_blocks_in_sections`: restore the placeholders inside
every content line of every section. -/
def restoreSec (st : PreserveOut) : MSection → MSection
  | MSection.mk h lv content subs =>
      MSection.mk h lv
        (content.map (fun l => String.mk (restore_special_blocks st l.data)))
        (restoreSecs st subs)
/-- `restoreSec` over a subsection list. -/
def restoreSecs (st : PreserveOut) : MSections → MSections
  | MSections.nil => MSections.nil
  | MSections.cons s r => MSections.cons (restoreSec st s) (restoreSecs st r)
end

/-- `MarkdownStructureParser.parse`: preserve code blocks and tables, split
into lines, build the heading hierarchy, restore the special blocks. -/
def parse (t : String) : MSection :=
  let po := preserve_special_blocks t.data
  let lines := (splitChars (fun c => c = '\n') po.text).map String.mk
  restoreSec po (parseLines lines)

/-- `StructureAwareNodeParser.get_nodes_from_documents` for one document,
projected to the emitted node texts (first component) and the fallback
splitter inputs (second). -/
def get_nodes_texts (chunk_size : Nat) (F : String → List String)
    (docText : String) : List String × List String :=
  createNodeTexts chunk_size F (parse docText)

theorem startsL_append_right {n x : List Char} (b : List Char)
    (h : startsL n x = true) : startsL n (x ++ b) = true := by
  induction n generalizing x with
  | nil => rfl
  | cons p ps ih =>
      cases x with
      | nil => simp [startsL] at h
      | cons c cs =>
          rw [startsL, Bool.and_eq_true] at h
          show startsL (p :: ps) (c :: (cs ++ b)) = true
          rw [startsL, Bool.and_eq_true]
          exact ⟨h.1, ih h.2⟩

theorem hasSub_empty_needle (x : List Char) : hasSub [] x = true := by
  cases x with
  | nil => rfl
  | cons c r => simp [hasSub, startsL]

theorem hasSub_append_right {n c : List Char} (b : List Char)
    (h : hasSub n c = true) : hasSub n (c ++ b) = true := by
  induction c with
  | nil =>
      rw [hasSub] at h
      have : n = [] := by
        cases n with
        | nil => rfl
        | cons _ _ => simp at h
      rw [this]
      exact hasSub_empty_needle b
  | cons x xs ih =>
      rw [hasSub, Bool.or_eq_true] at h
      show hasSub n (x :: (xs ++ b)) = true
      rw [hasSub, Bool.or_eq_true]
      rcases h with h | h
      · exact Or.inl (by
          have := startsL_append_right (x := x :: xs) b h
          simpa using this)
      · exact Or.inr (ih h)

theorem hasSub_append_left {n y : List Char} (x : List Char)
    (h : hasSub n y = true) : hasSub n (x ++ y) = true := by
  induction x with
  | nil => simpa using h
  | cons c cs ih =>
      show hasSub n (c :: (cs ++ y)) = true
      rw [hasSub, Bool.or_eq_true]
      exact Or.inr ih

theorem hasSub_of_infix {n t c : List Char} {a b : List Char}
    (ht : t = a ++ c ++ b) (hc : hasSub n c = true) : hasSub n t = true := by
  rw [ht, List.append_assoc]
  exact hasSub_append_left a (hasSub_append_right b hc)

theorem countSubAux_zero {n t : List Char} (h : hasSub n t = false) :
    ∀ fuel, countSubAux n fuel t = 0 := by
  intro fuel
  induction fuel generalizing t with
  | zero => cases t <;> rfl
  | succ fuel ih =>
      cases t with
      | nil => rfl
      | cons c rest =>
          rw [hasSub, Bool.or_eq_false_iff] at h
          rw [countSubAux, if_neg (by simp [h.1])]
          exact ih h.2

mutual
theorem splitterInputsClean (cs : Nat) (F : String → List String) :
    ∀ s : MSection, ∀ t : String,
      t ∈ (createNodeTexts cs F s).2 → has_protected t = false
  | MSection.mk h lv c subs => by
      intro t ht
      simp only [createNodeTexts] at ht
      rcases List.mem_append.mp ht with hself | hrest
      · unfold selfTexts at hself
        by_cases hcond : (should_split_section cs
            (get_text (MSection.mk h lv c subs))
            && !(has_protected (get_text (MSection.mk h lv c subs)))) = true
        · rw [if_pos hcond] at hself
          rcases List.mem_singleton.mp hself with rfl
          have := (Bool.and_eq_true_iff.mp hcond).2
          simpa using this
        · rw [if_neg hcond] at hself
          simp at hself
      · exact splitterInputsCleanF cs F subs t hrest
theorem splitterInputsCleanF (cs : Nat) (F : String → List String) :
    ∀ ss : MSections, ∀ t : String,
      t ∈ (createNodesTexts cs F ss).2 → has_protected t = false
  | MSections.nil => by
      intro t ht
      simp [createNodesTexts] at ht
  | MSections.cons s r => by
      intro t ht
      simp only [createNodesTexts] at ht
      rcases List.mem_append.mp ht with h1 | h2
      · exact splitterInputsClean cs F s t h1
      · exact splitterInputsCleanF cs F r t h2
end

mutual
theorem chunksBalanced (cs : Nat) (F : String → List String)
    (hF : ∀ t c, c ∈ F t → ∃ a b : List Char, t.data = a ++ c.data ++ b) :
    ∀ s : MSection,
      (∀ sec ∈ allSecs s, fenceCount (get_text sec) % 2 = 0) →
      ∀ c ∈ (createNodeTexts cs F s).1, fenceCount c % 2 = 0
  | MSection.mk h lv c subs => by
      intro hall ch hch
      simp only [createNodeTexts] at hch
      rcases List.mem_append.mp hch with hself | hrest
      · unfold selfTexts at hself
        by_cases hcond : (should_split_section cs
            (get_text (MSection.mk h lv c subs))
            && !(has_protected (get_text (MSection.mk h lv c subs)))) = true
        · rw [if_pos hcond] at hself
          have hclean : has_protected (get_text (MSection.mk h lv c subs)) = false := by
            have := (Bool.and_eq_true_iff.mp hcond).2
            simpa using this
          have hnof : hasSub ("```".data)
              (get_text (MSection.mk h lv c subs)).data = false := by
            unfold has_protected at hclean
            exact (Bool.or_eq_false_iff.mp hclean).1
          obtain ⟨a, b, hab⟩ := hF _ ch hself
          have hchsub : hasSub ("```".data) ch.data = false := by
            by_contra hc
            have hc' : hasSub ("```".data) ch.data = true := by
              cases hq : hasSub ("```".data) ch.data
              · exact absurd hq hc
              · rfl
            have := hasSub_of_infix hab hc'
            rw [this] at hnof
            exact absurd hnof (by simp)
          unfold fenceCount
          rw [countSubAux_zero hchsub]
        · rw [if_neg hcond] at hself
          rcases List.mem_singleton.mp hself with rfl
          exact hall (MSection.mk h lv c subs) (by
            unfold allSecs
            exact List.mem_cons_self _ _)
      · refine chunksBalancedF cs F hF subs ?_ ch hrest
        intro sec hsec
        exact hall sec (by
          unfold allSecs
          exact List.mem_cons_of_mem _ hsec)
theorem chunksBalancedF (cs : Nat) (F : String → List String)
    (hF : ∀ t c, c ∈ F t → ∃ a b : List Char, t.data = a ++ c.data ++ b) :
    ∀ ss : MSections,
      (∀ sec ∈ allSecsF ss, fenceCount (get_text sec) % 2 = 0) →
      ∀ c ∈ (createNodesTexts cs F ss).1, fenceCount c % 2 = 0
  | MSections.nil => by
      intro _ ch hch
      simp [createNodesTexts] at hch
  | MSections.cons s r => by
      intro hall ch hch
      simp only [createNodesTexts] at hch
      rcases List.mem_append.mp hch with h1 | h2
      · refine chunksBalanced cs F hF s ?_ ch h1
        intro sec hsec
        exact hall sec (by
          unfold allSecsF
          exact List.mem_append.mpr (Or.inl hsec))
      · refine chunksBalancedF cs F hF r ?_ ch h2
        intro sec hsec
        exact hall sec (by
          unfold allSecsF
          exact List.mem_append.mpr (Or.inr hsec))
end

/-- C4 (counterexample): the claim fails twice on the code.  (i) The
document consisting of the single line `` ``` `` is emitted as one chunk
whose text contains one triple-backtick — an unbalanced fence count — so
"no emitted chunk's text contains an unbalanced number of triple-backtick
fences" is false.  (ii) The guard checks the literal substrings `` ``` ``
and `|---|` only: the document `| a |\n| --- |\n| b |\n` contains a
pipe-table (its delimiter row is spaced), yet with `chunk_size = 2` its
section is passed to the fallback sentence splitter — the recorded splitter
inputs are non-empty — so "never passed to the fallback sentence splitter"
is false for spaced table delimiters. -/
theorem c4_counterexample :
    (get_nodes_texts 1024 (fun t => [t]) "```").1 = ["```"] ∧
    fenceCount "```" % 2 = 1 ∧
    (matchTableAt ("| a |\n| --- |\n| b |\n".data)).isSome = true ∧
    (get_nodes_texts 2 (fun t => [t]) "| a |\n| --- |\n| b |\n").2
      = ["| a |\n| --- |\n| b |\n"] := by
  exact ⟨by decide, by decide, by decide, by decide⟩

/-- C4 (amended): for every section tree and every fallback splitter whose
chunks are substrings of its input, (i) every text handed to the fallback
splitter contains neither `` ``` `` nor the literal `|---|` (the guard is
these two literal substrings — a spaced delimiter row such as `| --- |` is
not protected), so a section containing a code fence or a `|---|` delimiter
is never split; (ii) such a protected section is emitted as exactly one
node carrying its full text; and (iii) if every section's own text has an
even number of triple-backtick fences then so does every emitted chunk —
a document whose own text is fence-unbalanced yields exactly one
fence-unbalanced chunk instead. -/
theorem c4_chunker_amended (chunk_size : Nat) (F : String → List String)
    (hF : ∀ t c, c ∈ F t → ∃ a b : List Char, t.data = a ++ c.data ++ b)
    (s : MSection) :
    (∀ t ∈ (createNodeTexts chunk_size F s).2,
        hasSub ("```".data) t.data = false ∧
        hasSub ("|---|".data) t.data = false) ∧
    (∀ text : String, has_protected text = true →
        selfTexts chunk_size F text = ([text], [])) ∧
    ((∀ sec ∈ allSecs s, fenceCount (get_text sec) % 2 = 0) →
      ∀ c ∈ (createNodeTexts chunk_size F s).1, fenceCount c % 2 = 0) := by
  refine ⟨?_, ?_, chunksBalanced chunk_size F hF s⟩
  · intro t ht
    have h := splitterInputsClean chunk_size F s t ht
    unfold has_protected at h
    exact ⟨(Bool.or_eq_false_iff.mp h).1, (Bool.or_eq_false_iff.mp h).2⟩
  · intro text hprot
    unfold selfTexts
    rw [if_neg (by simp [hprot])]

/-- The section used by the C4 witness: balanced (fence-free) content. -/
def secBalanced : MSection :=
  MSection.mk "Document" 0 ["plain text"] MSections.nil

/-- C4 (witness): the amended theorem applied to the identity-like splitter
(whose single chunk is trivially a substring of the input) and a concrete
balanced section. -/
theorem c4_witness :
    (∀ (t c : String), c ∈ [t] → ∃ a b : List Char, t.data = a ++ c.data ++ b) ∧
    (∀ sec ∈ allSecs secBalanced, fenceCount (get_text sec) % 2 = 0) ∧
    (∀ c ∈ (createNodeTexts 1024 (fun t => [t]) secBalanced).1,
        fenceCount c % 2 = 0) := by
  have hF : ∀ (t c : String), c ∈ [t] → ∃ a b : List Char, t.data = a ++ c.data ++ b := by
    intro t c hc
    rcases List.mem_singleton.mp hc with rfl
    exact ⟨[], [], by simp⟩
  refine ⟨hF, by decide, ?_⟩
  exact (c4_chunker_amended 1024 (fun t => [t]) hF secBalanced).2.2 (by decide)

theorem startsL_self_append (p y : List Char) : startsL p (p ++ y) = true := by
  induction p with
  | nil => rfl
  | cons c cs ih => simp [startsL, ih]

theorem startsL_nil_cons (c : Char) (cs : List Char) :
    startsL (c :: cs) [] = false := rfl

theorem startsL_cancel (a b c : List Char) :
    startsL (a ++ b) (a ++ c) = startsL b c := by
  induction a with
  | nil => rfl
  | cons x xs ih => simp [startsL, ih]

theorem startsL_decomp {p s : List Char} (h : startsL p s = true) :
    s = p ++ s.drop p.length := by
  induction p generalizing s with
  | nil => simp
  | cons c cs ih =>
      cases s with
      | nil => simp [startsL] at h
      | cons x xs =>
          rw [startsL, Bool.and_eq_true] at h
          have hx : c = x := of_decide_eq_true h.1
          have := ih h.2
          simp [hx, List.drop]
          exact this

theorem natDigitsAux_ne_nil (fuel n : Nat) (h : n < fuel) :
    natDigitsAux fuel n ≠ [] := by
  cases fuel with
  | zero => omega
  | succ f =>
      unfold natDigitsAux
      by_cases hn : n < 10
      · simp [hn]
      · simp [hn]

theorem natDigits_ne_nil (n : Nat) : natDigits n ≠ [] :=
  natDigitsAux_ne_nil (n + 1) n (Nat.lt_succ_self n)

theorem mem_natDigitsAux_isDigit :
    ∀ (fuel n : Nat), ∀ c ∈ natDigitsAux fuel n, c.isDigit = true := by
  intro fuel
  induction fuel with
  | zero => intro n c hc; simp [natDigitsAux] at hc
  | succ f ih =>
      intro n c hc
      unfold natDigitsAux at hc
      by_cases hn : n < 10
      · rw [if_pos hn] at hc
        rcases List.mem_singleton.mp hc with rfl
        interval_cases n <;> decide
      · rw [if_neg hn] at hc
        rcases List.mem_append.mp hc with h | h
        · exact ih (n / 10) c h
        · rcases List.mem_singleton.mp h with rfl
          have : n % 10 < 10 := Nat.mod_lt n (by omega)
          interval_cases h : n % 10 <;> decide

theorem mem_natDigits_isDigit (n : Nat) : ∀ c ∈ natDigits n, c.isDigit = true :=
  mem_natDigitsAux_isDigit (n + 1) n

theorem natDigits_no_underscore (n : Nat) : '_' ∉ natDigits n := by
  intro h
  have := mem_natDigits_isDigit n '_' h
  exact absurd this (by decide)

/-- Decode a decimal character string back to the number. -/
def digitsVal (l : List Char) : Nat :=
  l.foldl (fun a c => 10 * a + (c.toNat - 48)) 0

theorem digitsVal_append_digit (l : List Char) (c : Char) :
    digitsVal (l ++ [c]) = 10 * digitsVal l + (c.toNat - 48) := by
  simp [digitsVal, List.foldl_append]

theorem digitsVal_natDigitsAux :
    ∀ fuel n, n < fuel → digitsVal (natDigitsAux fuel n) = n := by
  intro fuel
  induction fuel with
  | zero => intro n h; omega
  | succ f ih =>
      intro n h
      unfold natDigitsAux
      by_cases hn : n < 10
      · rw [if_pos hn]
        interval_cases n <;> decide
      · rw [if_neg hn]
        rw [digitsVal_append_digit]
        have h1 : n / 10 < f := by omega
        rw [ih (n / 10) h1]
        have h2 : n % 10 < 10 := Nat.mod_lt n (by omega)
        have h3 : (Char.ofNat (48 + n % 10)).toNat - 48 = n % 10 := by
          interval_cases h : n % 10 <;> decide
        rw [h3]
        omega

theorem natDigits_inj {m n : Nat} (h : natDigits m = natDigits n) : m = n := by
  have hm := digitsVal_natDigitsAux (m + 1) m (Nat.lt_succ_self m)
  have hn := digitsVal_natDigitsAux (n + 1) n (Nat.lt_succ_self n)
  unfold natDigits at h
  rw [← hm, ← hn, h]

theorem natDigits_head (n : Nat) :
    ∃ c d, natDigits n = c :: d ∧ c.isDigit = true := by
  cases h : natDigits n with
  | nil => exact absurd h (natDigits_ne_nil n)
  | cons c d =>
      refine ⟨c, d, rfl, ?_⟩
      exact mem_natDigits_isDigit n c (by rw [h]; exact List.mem_cons_self c d)

theorem codePH_def (i : Nat) :
    codePH i = ['_', '_', 'C', 'O', 'D', 'E', '_', 'B', 'L', 'O', 'C', 'K', '_']
      ++ natDigits i ++ ['_', '_'] := rfl

theorem tablePH_def (j : Nat) :
    tablePH j = ['_', '_', 'T', 'A', 'B', 'L', 'E', '_']
      ++ natDigits j ++ ['_', '_'] := rfl

theorem mem_codePH {c : Char} {i : Nat} (h : c ∈ codePH i) :
    c ∈ ['_', 'C', 'O', 'D', 'E', 'B', 'L', 'K'] ∨ c.isDigit = true := by
  rw [codePH_def] at h
  rcases List.mem_append.mp h with h | h
  · rcases List.mem_append.mp h with h | h
    · left
      fin_cases h <;> simp
    · exact Or.inr (mem_natDigits_isDigit i c h)
  · left
    fin_cases h <;> simp

theorem mem_tablePH {c : Char} {j : Nat} (h : c ∈ tablePH j) :
    c ∈ ['_', 'T', 'A', 'B', 'L', 'E'] ∨ c.isDigit = true := by
  rw [tablePH_def] at h
  rcases List.mem_append.mp h with h | h
  · rcases List.mem_append.mp h with h | h
    · left
      fin_cases h <;> simp
    · exact Or.inr (mem_natDigits_isDigit j c h)
  · left
    fin_cases h <;> simp

theorem codePH_no_pipe {i : Nat} : '|' ∉ codePH i := by
  intro h
  rcases mem_codePH h with h | h
  · exact absurd h (by decide)
  · exact absurd h (by decide)

theorem codePH_no_newline {i : Nat} : '\n' ∉ codePH i := by
  intro h
  rcases mem_codePH h with h | h
  · exact absurd h (by decide)
  · exact absurd h (by decide)

theorem tablePH_no_pipe {j : Nat} : '|' ∉ tablePH j := by
  intro h
  rcases mem_tablePH h with h | h
  · exact absurd h (by decide)
  · exact absurd h (by decide)

theorem startsL_sep {d₁ d₂ r₁ r₂ : List Char} (h₁ : '_' ∉ d₁) (h₂ : '_' ∉ d₂)
    (h : startsL (d₁ ++ '_' :: r₁) (d₂ ++ '_' :: r₂) = true) :
    d₁ = d₂ ∧ startsL r₁ r₂ = true := by
  induction d₁ generalizing d₂ with
  | nil =>
      cases d₂ with
      | nil =>
          simp only [List.nil_append] at h
          rw [startsL, Bool.and_eq_true] at h
          exact ⟨rfl, h.2⟩
      | cons c₂ t₂ =>
          simp only [List.nil_append, List.cons_append] at h
          rw [startsL, Bool.and_eq_true] at h
          have : '_' = c₂ := of_decide_eq_true h.1
          exact absurd (this ▸ List.mem_cons_self c₂ t₂) h₂
  | cons c₁ t₁ ih =>
      cases d₂ with
      | nil =>
          simp only [List.cons_append, List.nil_append] at h
          rw [startsL, Bool.and_eq_true] at h
          have : c₁ = '_' := of_decide_eq_true h.1
          exact absurd (this ▸ List.mem_cons_self c₁ t₁) h₁
      | cons c₂ t₂ =>
          simp only [List.cons_append] at h
          rw [startsL, Bool.and_eq_true] at h
          have hc : c₁ = c₂ := of_decide_eq_true h.1
          have h₁' : '_' ∉ t₁ := fun hm => h₁ (List.mem_cons_of_mem c₁ hm)
          have h₂' : '_' ∉ t₂ := fun hm => h₂ (List.mem_cons_of_mem c₂ hm)
          obtain ⟨he, hs⟩ := ih h₁' h₂' h.2
          exact ⟨by rw [hc, he], hs⟩

theorem startsL_codePH_codePH {i j : Nat} (hij : j ≠ i) (y : List Char) :
    startsL (codePH i) (codePH j ++ y) = false := by
  by_contra hc
  have h : startsL (codePH i) (codePH j ++ y) = true := by
    cases hq : startsL (codePH i) (codePH j ++ y)
    · exact absurd hq hc
    · rfl
  rw [codePH_def i, codePH_def j] at h
  simp only [List.append_assoc] at h
  rw [startsL_cancel] at h
  exact hij (natDigits_inj (startsL_sep (natDigits_no_underscore i)
    (natDigits_no_underscore j) h).1.symm)

theorem startsL_tablePH_tablePH {i j : Nat} (hij : j ≠ i) (y : List Char) :
    startsL (tablePH i) (tablePH j ++ y) = false := by
  by_contra hc
  have h : startsL (tablePH i) (tablePH j ++ y) = true := by
    cases hq : startsL (tablePH i) (tablePH j ++ y)
    · exact absurd hq hc
    · rfl
  rw [tablePH_def i, tablePH_def j] at h
  simp only [List.append_assoc] at h
  rw [startsL_cancel] at h
  exact hij (natDigits_inj (startsL_sep (natDigits_no_underscore i)
    (natDigits_no_underscore j) h).1.symm)

/-- A piece of restorable text: a literal segment, a code placeholder, or a
table placeholder. -/
inductive RPi where
  | seg (s : List Char)
  | cph (i : Nat)
  | tph (j : Nat)
deriving DecidableEq

/-- The characters of one piece. -/
def pieceChars : RPi → List Char
  | RPi.seg s => s
  | RPi.cph i => codePH i
  | RPi.tph j => tablePH j

/-- Flatten a piece list to the text it denotes. -/
def flat : List RPi → List Char
  | [] => []
  | q :: r => pieceChars q ++ flat r

/-- Flatten while substituting supplied texts for the placeholders. -/
def flatSub (fc ft : Nat → List Char) : List RPi → List Char
  | [] => []
  | RPi.seg s :: r => s ++ flatSub fc ft r
  | RPi.cph i :: r => fc i ++ flatSub fc ft r
  | RPi.tph j :: r => ft j ++ flatSub fc ft r

/-- Every literal segment of the list is underscore-free. -/
def CleanSegs (ps : List RPi) : Prop := ∀ s, RPi.seg s ∈ ps → '_' ∉ s

def isSeg : RPi → Prop
  | RPi.seg _ => True
  | _ => False

instance (q : RPi) : Decidable (isSeg q) := by
  cases q <;> simp [isSeg] <;> infer_instance

theorem cleanSegs_nil : CleanSegs [] := by
  intro s hs; simp at hs

theorem cleanSegs_cons {q : RPi} {ps : List RPi} (h : CleanSegs (q :: ps)) :
    CleanSegs ps := fun s hs => h s (List.mem_cons_of_mem q hs)

theorem flat_eq_flatSub (ps : List RPi) : flat ps = flatSub codePH tablePH ps := by
  induction ps with
  | nil => rfl
  | cons q r ih => cases q <;> simp [flat, flatSub, pieceChars, ih]

theorem flatSub_congr {fc ft fc' ft' : Nat → List Char} :
    ∀ (ps : List RPi), (∀ j, RPi.cph j ∈ ps → fc j = fc' j) →
    (∀ j, RPi.tph j ∈ ps → ft j = ft' j) →
    flatSub fc ft ps = flatSub fc' ft' ps := by
  intro ps
  induction ps with
  | nil => intro _ _; rfl
  | cons q r ih =>
      intro hc ht
      cases q with
      | seg s =>
          simp only [flatSub]
          rw [ih (fun j hj => hc j (List.mem_cons_of_mem _ hj))
              (fun j hj => ht j (List.mem_cons_of_mem _ hj))]
      | cph i =>
          simp only [flatSub]
          rw [hc i (List.mem_cons_self _ _),
            ih (fun j hj => hc j (List.mem_cons_of_mem _ hj))
              (fun j hj => ht j (List.mem_cons_of_mem _ hj))]
      | tph j =>
          simp only [flatSub]
          rw [ht j (List.mem_cons_self _ _),
            ih (fun j hj => hc j (List.mem_cons_of_mem _ hj))
              (fun j hj => ht j (List.mem_cons_of_mem _ hj))]

/-- Walking a literal underscore-free segment cannot complete a pattern of the
form w ++ "_" ++ (non-underscore) ++ r. -/
theorem noStart_sep_seg (c : Char) (_hc : c ≠ '_') (r y : List Char)
    (hy : ∀ w, '_' ∉ w → startsL (w ++ '_' :: c :: r) y = false) :
    ∀ (s : List Char), '_' ∉ s → ∀ (w : List Char), '_' ∉ w →
    startsL (w ++ '_' :: c :: r) (s ++ y) = false := by
  intro s
  induction s with
  | nil => intro _ w hw; simpa using hy w hw
  | cons ch s' ih =>
      intro hs w hw
      have hch : ch ≠ '_' := fun he => hs (he ▸ List.mem_cons_self _ _)
      have hs' : '_' ∉ s' := fun hm => hs (List.mem_cons_of_mem ch hm)
      cases w with
      | nil =>
          simp only [List.nil_append, List.cons_append]
          rw [startsL]
          have h1 : ('_' = ch) = False := eq_false (fun he => hch he.symm)
          simp [h1]
      | cons a w' =>
          have hw' : '_' ∉ w' := fun hm => hw (List.mem_cons_of_mem a hm)
          simp only [List.cons_append]
          rw [startsL]
          by_cases hac : a = ch
          · have := ih hs' w' hw'
            simp only [List.cons_append] at this
            simp [hac, this]
          · simp [hac]

/-- Inside the flattening of a clean piece list, no underscore block of the
form w ++ "_" ++ (non-underscore) ++ rest can start: placeholders open with two
underscores followed by a letter, and segments hold no underscore at all. -/
theorem noStart_sep : ∀ (ps : List RPi), CleanSegs ps →
    ∀ (w : List Char), '_' ∉ w → ∀ (c : Char), c ≠ '_' → ∀ (r : List Char),
    startsL (w ++ '_' :: c :: r) (flat ps) = false
  | [], _, w, _, c, _, r => by
      cases w with
      | nil => rfl
      | cons a w' => rfl
  | RPi.seg s :: rest, hclean, w, hw, c, hc, r => by
      have hrest : CleanSegs rest := cleanSegs_cons hclean
      have hs : '_' ∉ s := hclean s (List.mem_cons_self _ _)
      show startsL (w ++ '_' :: c :: r) (s ++ flat rest) = false
      exact noStart_sep_seg c hc r (flat rest)
        (fun w' hw' => noStart_sep rest hrest w' hw' c hc r) s hs w hw
  | RPi.cph i :: rest, hclean, w, hw, c, hc, r => by
      show startsL (w ++ '_' :: c :: r) (codePH i ++ flat rest) = false
      rw [codePH_def, List.append_assoc, List.append_assoc]
      cases w with
      | nil =>
          simp only [List.nil_append, List.cons_append]
          rw [startsL, startsL]
          simp [hc]
      | cons a w' =>
          have ha : a ≠ '_' := fun he => hw (he ▸ List.mem_cons_self _ _)
          simp only [List.cons_append]
          rw [startsL]
          simp [ha]
  | RPi.tph j :: rest, hclean, w, hw, c, hc, r => by
      show startsL (w ++ '_' :: c :: r) (tablePH j ++ flat rest) = false
      rw [tablePH_def, List.append_assoc, List.append_assoc]
      cases w with
      | nil =>
          simp only [List.nil_append, List.cons_append]
          rw [startsL, startsL]
          simp [hc]
      | cons a w' =>
          have ha : a ≠ '_' := fun he => hw (he ▸ List.mem_cons_self _ _)
          simp only [List.cons_append]
          rw [startsL]
          simp [ha]

theorem listReplaceAux_nil (pat rep : List Char) (f : Nat) :
    listReplaceAux pat rep f [] = [] := by
  cases f <;> rfl

theorem listReplaceAux_stable (pat rep : List Char) :
    ∀ (f₁ : Nat) (s : List Char) (f₂ : Nat), s.length ≤ f₁ → s.length ≤ f₂ →
    listReplaceAux pat rep f₁ s = listReplaceAux pat rep f₂ s := by
  intro f₁
  induction f₁ with
  | zero =>
      intro s f₂ h₁ _
      have : s = [] := List.eq_nil_of_length_eq_zero (Nat.le_zero.mp h₁)
      subst this
      rw [listReplaceAux_nil, listReplaceAux_nil]
  | succ f ih =>
      intro s f₂ h₁ h₂
      cases s with
      | nil => rw [listReplaceAux_nil, listReplaceAux_nil]
      | cons c rest =>
          cases f₂ with
          | zero => simp at h₂
          | succ f₂' =>
              simp only [listReplaceAux]
              by_cases hcond : pat ≠ [] ∧ startsL pat (c :: rest) = true
              · rw [if_pos hcond, if_pos hcond]
                have hlen : ((c :: rest).drop pat.length).length ≤ rest.length := by
                  rw [List.length_drop]
                  cases pat with
                  | nil => exact absurd rfl hcond.1
                  | cons p pr => simp
                rw [ih _ f₂' (le_trans hlen (Nat.le_of_succ_le_succ h₁))
                  (le_trans hlen (Nat.le_of_succ_le_succ h₂))]
              · rw [if_neg hcond, if_neg hcond]
                rw [ih rest f₂' (Nat.le_of_succ_le_succ h₁)
                  (Nat.le_of_succ_le_succ h₂)]

theorem listReplace_cons_miss {pat : List Char} {c : Char} {s : List Char}
    (rep : List Char) (h : startsL pat (c :: s) = false) :
    listReplace pat rep (c :: s) = c :: listReplace pat rep s := by
  show listReplaceAux pat rep (s.length + 1) (c :: s) = _
  simp only [listReplaceAux]
  rw [if_neg (fun hc => Bool.false_ne_true (h ▸ hc.2))]
  rfl

theorem listReplace_match {pat : List Char} (rep : List Char) (hpat : pat ≠ [])
    (y : List Char) :
    listReplace pat rep (pat ++ y) = rep ++ listReplace pat rep y := by
  cases pat with
  | nil => exact absurd rfl hpat
  | cons p pr =>
      show listReplaceAux (p :: pr) rep ((pr ++ y).length + 1) (p :: (pr ++ y)) = _
      simp only [listReplaceAux]
      rw [if_pos ⟨hpat, startsL_self_append (p :: pr) y⟩]
      have hdrop : (p :: (pr ++ y)).drop (p :: pr).length = y := by
        have : p :: (pr ++ y) = (p :: pr) ++ y := rfl
        rw [this, List.drop_left]
      rw [hdrop, listReplaceAux_stable (p :: pr) rep (pr ++ y).length y y.length
        (by simp) (le_refl _)]
      rfl

theorem listReplace_skip {pat : List Char} (rep : List Char) :
    ∀ (q y : List Char),
    (∀ a z, q = a ++ z → z ≠ [] → startsL pat (z ++ y) = false) →
    listReplace pat rep (q ++ y) = q ++ listReplace pat rep y := by
  intro q
  induction q with
  | nil => intro y _; simp
  | cons c q' ih =>
      intro y hq
      have hmiss : startsL pat (c :: (q' ++ y)) = false :=
        hq [] (c :: q') rfl (List.cons_ne_nil c q')
      have : (c :: q') ++ y = c :: (q' ++ y) := rfl
      rw [this, listReplace_cons_miss rep hmiss,
        ih y (fun a z hz hne => hq (c :: a) z (by rw [hz]; rfl) hne)]
      rfl

theorem startsL_underscore_vs {t : List Char} {c : Char} (hc : c ≠ '_')
    (w : List Char) : startsL ('_' :: t) (c :: w) = false := by
  rw [startsL]
  have h1 : ('_' = c) = False := eq_false fun he => hc he.symm
  simp [h1]

theorem startsL_uu_vs {t : List Char} {c : Char} (hc : c ≠ '_')
    (w : List Char) : startsL ('_' :: '_' :: t) ('_' :: c :: w) = false := by
  rw [startsL, startsL]
  have h1 : ('_' = c) = False := eq_false fun he => hc he.symm
  simp [h1]

theorem isDigit_ne_underscore {c : Char} (hc : c.isDigit = true) : c ≠ '_' :=
  fun he => by rw [he] at hc; exact absurd hc (by decide)

/-- After the two leading underscores of a code placeholder, the remaining
pattern cannot start inside a clean flattened piece list. -/
theorem startsL_code_tail (i : Nat) (ps : List RPi) (hclean : CleanSegs ps) :
    startsL (codePH i) ('_' :: '_' :: flat ps) = false := by
  show startsL (['_', '_'] ++ (['C', 'O', 'D', 'E'] ++ '_' :: 'B' ::
    (['L', 'O', 'C', 'K', '_'] ++ (natDigits i ++ ['_', '_']))))
    (['_', '_'] ++ flat ps) = false
  rw [startsL_cancel]
  exact noStart_sep ps hclean ['C', 'O', 'D', 'E'] (by decide) 'B' (by decide) _

theorem startsL_table_tail (i : Nat) (ps : List RPi) (hclean : CleanSegs ps) :
    startsL (tablePH i) ('_' :: '_' :: flat ps) = false := by
  obtain ⟨c, d, hnd, hdig⟩ := natDigits_head i
  show startsL (['_', '_'] ++ (['T', 'A', 'B', 'L', 'E'] ++ '_' ::
    (natDigits i ++ ['_', '_']))) (['_', '_'] ++ flat ps) = false
  rw [startsL_cancel, hnd]
  exact noStart_sep ps hclean ['T', 'A', 'B', 'L', 'E'] (by decide) c
    (isDigit_ne_underscore hdig) (d ++ ['_', '_'])

theorem startsL_code_one (i : Nat) (ps : List RPi) (hclean : CleanSegs ps) :
    startsL (codePH i) ('_' :: flat ps) = false := by
  show startsL (['_'] ++ ('_' :: 'C' :: (['O', 'D', 'E', '_', 'B', 'L', 'O',
    'C', 'K', '_'] ++ (natDigits i ++ ['_', '_'])))) (['_'] ++ flat ps) = false
  rw [startsL_cancel]
  exact noStart_sep ps hclean [] (by decide) 'C' (by decide) _

theorem startsL_table_one (i : Nat) (ps : List RPi) (hclean : CleanSegs ps) :
    startsL (tablePH i) ('_' :: flat ps) = false := by
  show startsL (['_'] ++ ('_' :: 'T' :: (['A', 'B', 'L', 'E', '_'] ++
    (natDigits i ++ ['_', '_'])))) (['_'] ++ flat ps) = false
  rw [startsL_cancel]
  exact noStart_sep ps hclean [] (by decide) 'T' (by decide) _

/-- No nonempty suffix of `codePH j` (`j ≠ i`), followed by clean flattened
pieces, can start an occurrence of `codePH i`. -/
theorem cph_suffix_no_code {i j : Nat} (hij : j ≠ i) (ps : List RPi)
    (hclean : CleanSegs ps) :
    ∀ a z, codePH j = a ++ z → z ≠ [] →
    startsL (codePH i) (z ++ flat ps) = false := by
  intro a z hsplit hz
  rw [codePH_def, List.append_assoc] at hsplit
  rcases List.append_eq_append_iff.mp hsplit.symm with ⟨a₂, ha₂, hd⟩ | ⟨c₂, hc₂, hzz⟩
  · -- z = a₂ ++ digits ++ "__" with a₂ a suffix of the literal prefix
    have hsuf : a₂ ∈ List.tails
        ['_', '_', 'C', 'O', 'D', 'E', '_', 'B', 'L', 'O', 'C', 'K', '_'] :=
      (List.mem_tails _ _).mpr ⟨a, ha₂.symm⟩
    subst hd
    obtain ⟨c, d, hnd, hdig⟩ := natDigits_head j
    fin_cases hsuf
    · exact (by simpa [codePH_def, List.append_assoc]
        using startsL_codePH_codePH hij (flat ps))
    · rfl
    · rfl
    · rfl
    · rfl
    · rfl
    · rfl
    · rfl
    · rfl
    · rfl
    · rfl
    · rfl
    · rw [hnd]
      exact startsL_uu_vs (isDigit_ne_underscore hdig) _
    · rw [hnd]
      exact startsL_underscore_vs (isDigit_ne_underscore hdig) _
  · -- z lies inside the digits or the trailing underscores
    rcases List.append_eq_append_iff.mp hzz with ⟨x, hx, hDD⟩ | ⟨y, hy, hzy⟩
    · rcases x with _ | ⟨x1, _ | ⟨x2, xt⟩⟩
      · simp only [List.nil_append] at hDD
        subst hDD
        exact startsL_code_tail i ps hclean
      · simp only [List.cons_append, List.nil_append] at hDD
        injection hDD with h1 h2
        subst h2
        exact startsL_code_one i ps hclean
      · simp only [List.cons_append] at hDD
        injection hDD with h1 h2
        injection h2 with h3 h4
        rcases List.append_eq_nil.mp h4.symm with ⟨_, hznil⟩
        exact absurd hznil hz
    · cases y with
      | nil =>
          simp only [List.nil_append] at hzy
          subst hzy
          exact startsL_code_tail i ps hclean
      | cons c d =>
          have hcmem : c ∈ natDigits j := by
            rw [hy]; exact List.mem_append.mpr (Or.inr (List.mem_cons_self _ _))
          subst hzy
          exact startsL_underscore_vs
            (isDigit_ne_underscore (mem_natDigits_isDigit j c hcmem)) _

/-- No nonempty suffix of a table placeholder, followed by clean flattened
pieces, can start an occurrence of `codePH i`. -/
theorem tph_suffix_no_code (i j : Nat) (ps : List RPi)
    (hclean : CleanSegs ps) :
    ∀ a z, tablePH j = a ++ z → z ≠ [] →
    startsL (codePH i) (z ++ flat ps) = false := by
  intro a z hsplit hz
  rw [tablePH_def, List.append_assoc] at hsplit
  rcases List.append_eq_append_iff.mp hsplit.symm with ⟨a₂, ha₂, hd⟩ | ⟨c₂, hc₂, hzz⟩
  · have hsuf : a₂ ∈ List.tails ['_', '_', 'T', 'A', 'B', 'L', 'E', '_'] :=
      (List.mem_tails _ _).mpr ⟨a, ha₂.symm⟩
    subst hd
    obtain ⟨c, d, hnd, hdig⟩ := natDigits_head j
    fin_cases hsuf
    · rfl
    · rfl
    · rfl
    · rfl
    · rfl
    · rfl
    · rfl
    · rw [hnd]
      exact startsL_uu_vs (isDigit_ne_underscore hdig) _
    · rw [hnd]
      exact startsL_underscore_vs (isDigit_ne_underscore hdig) _
  · rcases List.append_eq_append_iff.mp hzz with ⟨x, hx, hDD⟩ | ⟨y, hy, hzy⟩
    · rcases x with _ | ⟨x1, _ | ⟨x2, xt⟩⟩
      · simp only [List.nil_append] at hDD
        subst hDD
        exact startsL_code_tail i ps hclean
      · simp only [List.cons_append, List.nil_append] at hDD
        injection hDD with h1 h2
        subst h2
        exact startsL_code_one i ps hclean
      · simp only [List.cons_append] at hDD
        injection hDD with h1 h2
        injection h2 with h3 h4
        rcases List.append_eq_nil.mp h4.symm with ⟨_, hznil⟩
        exact absurd hznil hz
    · cases y with
      | nil =>
          simp only [List.nil_append] at hzy
          subst hzy
          exact startsL_code_tail i ps hclean
      | cons c d =>
          have hcmem : c ∈ natDigits j := by
            rw [hy]; exact List.mem_append.mpr (Or.inr (List.mem_cons_self _ _))
          subst hzy
          exact startsL_underscore_vs
            (isDigit_ne_underscore (mem_natDigits_isDigit j c hcmem)) _

/-- No nonempty suffix of `tablePH j` (`j ≠ i`), followed by clean flattened
pieces, can start an occurrence of `tablePH i`. -/
theorem tph_suffix_no_table {i j : Nat} (hij : j ≠ i) (ps : List RPi)
    (hclean : CleanSegs ps) :
    ∀ a z, tablePH j = a ++ z → z ≠ [] →
    startsL (tablePH i) (z ++ flat ps) = false := by
  intro a z hsplit hz
  rw [tablePH_def, List.append_assoc] at hsplit
  rcases List.append_eq_append_iff.mp hsplit.symm with ⟨a₂, ha₂, hd⟩ | ⟨c₂, hc₂, hzz⟩
  · have hsuf : a₂ ∈ List.tails ['_', '_', 'T', 'A', 'B', 'L', 'E', '_'] :=
      (List.mem_tails _ _).mpr ⟨a, ha₂.symm⟩
    subst hd
    obtain ⟨c, d, hnd, hdig⟩ := natDigits_head j
    fin_cases hsuf
    · exact (by simpa [tablePH_def, List.append_assoc]
        using startsL_tablePH_tablePH hij (flat ps))
    · rfl
    · rfl
    · rfl
    · rfl
    · rfl
    · rfl
    · rw [hnd]
      exact startsL_uu_vs (isDigit_ne_underscore hdig) _
    · rw [hnd]
      exact startsL_underscore_vs (isDigit_ne_underscore hdig) _
  · rcases List.append_eq_append_iff.mp hzz with ⟨x, hx, hDD⟩ | ⟨y, hy, hzy⟩
    · rcases x with _ | ⟨x1, _ | ⟨x2, xt⟩⟩
      · simp only [List.nil_append] at hDD
        subst hDD
        exact startsL_table_tail i ps hclean
      · simp only [List.cons_append, List.nil_append] at hDD
        injection hDD with h1 h2
        subst h2
        exact startsL_table_one i ps hclean
      · simp only [List.cons_append] at hDD
        injection hDD with h1 h2
        injection h2 with h3 h4
        rcases List.append_eq_nil.mp h4.symm with ⟨_, hznil⟩
        exact absurd hznil hz
    · cases y with
      | nil =>
          simp only [List.nil_append] at hzy
          subst hzy
          exact startsL_table_tail i ps hclean
      | cons c d =>
          have hcmem : c ∈ natDigits j := by
            rw [hy]; exact List.mem_append.mpr (Or.inr (List.mem_cons_self _ _))
          subst hzy
          exact startsL_underscore_vs
            (isDigit_ne_underscore (mem_natDigits_isDigit j c hcmem)) _

theorem codePH_ne_nil (i : Nat) : codePH i ≠ [] := by
  rw [codePH_def]
  simp

theorem tablePH_ne_nil (i : Nat) : tablePH i ≠ [] := by
  rw [tablePH_def]
  simp

/-- Replacing `codePH i` by `B` in the flattening of a clean piece list
substitutes exactly the `cph i` pieces. -/
theorem listReplace_flat_cph (i : Nat) (B : List Char) :
    ∀ ps : List RPi, CleanSegs ps →
    listReplace (codePH i) B (flat ps) =
      flat (ps.map (fun q => if q = RPi.cph i then RPi.seg B else q)) := by
  intro ps
  induction ps with
  | nil => intro _; rfl
  | cons q rest ih =>
      intro hclean
      have hrest := cleanSegs_cons hclean
      cases q with
      | seg s =>
          have hs : '_' ∉ s := hclean s (List.mem_cons_self _ _)
          show listReplace (codePH i) B (s ++ flat rest) = _
          rw [listReplace_skip B s (flat rest) (fun a z hzs hzne => by
            cases z with
            | nil => exact absurd rfl hzne
            | cons zh zt =>
                have hmem : zh ∈ s := by
                  rw [hzs]
                  exact List.mem_append.mpr (Or.inr (List.mem_cons_self _ _))
                exact startsL_underscore_vs (fun he => hs (he ▸ hmem)) _)]
          rw [ih hrest]
          have hne : ¬ (RPi.seg s = RPi.cph i) := by intro h; cases h
          simp only [List.map_cons, if_neg hne]
          rfl
      | cph j =>
          by_cases hji : j = i
          · subst hji
            show listReplace (codePH j) B (codePH j ++ flat rest) = _
            rw [listReplace_match B (codePH_ne_nil j) (flat rest), ih hrest]
            simp only [List.map_cons, if_pos rfl]
            rfl
          · show listReplace (codePH i) B (codePH j ++ flat rest) = _
            rw [listReplace_skip B (codePH j) (flat rest)
              (cph_suffix_no_code hji rest hrest), ih hrest]
            have hne : ¬ (RPi.cph j = RPi.cph i) := by
              intro h; injection h with h'; exact hji h'
            simp only [List.map_cons, if_neg hne]
            rfl
      | tph j =>
          show listReplace (codePH i) B (tablePH j ++ flat rest) = _
          rw [listReplace_skip B (tablePH j) (flat rest)
            (tph_suffix_no_code i j rest hrest), ih hrest]
          have hne : ¬ (RPi.tph j = RPi.cph i) := by intro h; cases h
          simp only [List.map_cons, if_neg hne]
          rfl

/-- Replacing `tablePH i` by `B` in the flattening of a clean piece list
without code placeholders substitutes exactly the `tph i` pieces. -/
theorem listReplace_flat_tph (i : Nat) (B : List Char) :
    ∀ ps : List RPi, CleanSegs ps → (∀ j, RPi.cph j ∉ ps) →
    listReplace (tablePH i) B (flat ps) =
      flat (ps.map (fun q => if q = RPi.tph i then RPi.seg B else q)) := by
  intro ps
  induction ps with
  | nil => intro _ _; rfl
  | cons q rest ih =>
      intro hclean hnoc
      have hrest := cleanSegs_cons hclean
      have hnoc' : ∀ j, RPi.cph j ∉ rest :=
        fun j hm => hnoc j (List.mem_cons_of_mem q hm)
      cases q with
      | seg s =>
          have hs : '_' ∉ s := hclean s (List.mem_cons_self _ _)
          show listReplace (tablePH i) B (s ++ flat rest) = _
          rw [listReplace_skip B s (flat rest) (fun a z hzs hzne => by
            cases z with
            | nil => exact absurd rfl hzne
            | cons zh zt =>
                have hmem : zh ∈ s := by
                  rw [hzs]
                  exact List.mem_append.mpr (Or.inr (List.mem_cons_self _ _))
                exact startsL_underscore_vs (fun he => hs (he ▸ hmem)) _)]
          rw [ih hrest hnoc']
          have hne : ¬ (RPi.seg s = RPi.tph i) := by intro h; cases h
          simp only [List.map_cons, if_neg hne]
          rfl
      | cph j => exact absurd (List.mem_cons_self _ _) (hnoc j)
      | tph j =>
          by_cases hji : j = i
          · subst hji
            show listReplace (tablePH j) B (tablePH j ++ flat rest) = _
            rw [listReplace_match B (tablePH_ne_nil j) (flat rest),
              ih hrest hnoc']
            simp only [List.map_cons, if_pos rfl]
            rfl
          · show listReplace (tablePH i) B (tablePH j ++ flat rest) = _
            rw [listReplace_skip B (tablePH j) (flat rest)
              (tph_suffix_no_table hji rest hrest), ih hrest hnoc']
            have hne : ¬ (RPi.tph j = RPi.tph i) := by
              intro h; injection h with h'; exact hji h'
            simp only [List.map_cons, if_neg hne]
            rfl

/-- The effect on one piece of restoring the code blocks `C` starting at
index `r`. -/
def substC (r : Nat) (C : List (List Char)) : RPi → RPi
  | RPi.cph i =>
      if r ≤ i ∧ i < r + C.length then RPi.seg (C.getD (i - r) []) else RPi.cph i
  | q => q

/-- The effect on one piece of restoring the table blocks `T` starting at
index `r`. -/
def substT (r : Nat) (T : List (List Char)) : RPi → RPi
  | RPi.tph i =>
      if r ≤ i ∧ i < r + T.length then RPi.seg (T.getD (i - r) []) else RPi.tph i
  | q => q

theorem substC_point (r : Nat) (b : List Char) (C' : List (List Char)) (q : RPi) :
    substC (r + 1) C' (if q = RPi.cph r then RPi.seg b else q)
      = substC r (b :: C') q := by
  cases q with
  | seg s =>
      rw [if_neg (by intro h; cases h)]
      rfl
  | tph j =>
      rw [if_neg (by intro h; cases h)]
      rfl
  | cph k =>
      by_cases hkr : k = r
      · subst hkr
        rw [if_pos rfl]
        show RPi.seg b = substC k (b :: C') (RPi.cph k)
        rw [substC, if_pos ⟨le_refl k, by simp⟩]
        simp
      · rw [if_neg (by intro h; injection h with h'; exact hkr h')]
        show substC (r + 1) C' (RPi.cph k) = substC r (b :: C') (RPi.cph k)
        rw [substC, substC]
        by_cases hin : r + 1 ≤ k ∧ k < r + 1 + C'.length
        · rw [if_pos hin, if_pos ⟨by omega, by simp only [List.length_cons]; omega⟩]
          have hk : k - r = (k - (r + 1)) + 1 := by omega
          rw [hk, List.getD_cons_succ]
        · rw [if_neg hin, if_neg (by
            intro hc
            exact hin ⟨by omega, by simp at hc; omega⟩)]

theorem substT_point (r : Nat) (b : List Char) (T' : List (List Char)) (q : RPi) :
    substT (r + 1) T' (if q = RPi.tph r then RPi.seg b else q)
      = substT r (b :: T') q := by
  cases q with
  | seg s =>
      rw [if_neg (by intro h; cases h)]
      rfl
  | cph j =>
      rw [if_neg (by intro h; cases h)]
      rfl
  | tph k =>
      by_cases hkr : k = r
      · subst hkr
        rw [if_pos rfl]
        show RPi.seg b = substT k (b :: T') (RPi.tph k)
        rw [substT, if_pos ⟨le_refl k, by simp⟩]
        simp
      · rw [if_neg (by intro h; injection h with h'; exact hkr h')]
        show substT (r + 1) T' (RPi.tph k) = substT r (b :: T') (RPi.tph k)
        rw [substT, substT]
        by_cases hin : r + 1 ≤ k ∧ k < r + 1 + T'.length
        · rw [if_pos hin, if_pos ⟨by omega, by simp only [List.length_cons]; omega⟩]
          have hk : k - r = (k - (r + 1)) + 1 := by omega
          rw [hk, List.getD_cons_succ]
        · rw [if_neg hin, if_neg (by
            intro hc
            exact hin ⟨by omega, by simp at hc; omega⟩)]

theorem restoreFold_code :
    ∀ (C : List (List Char)) (r : Nat) (ps : List RPi), CleanSegs ps →
    (∀ b ∈ C, '_' ∉ b) →
    restoreFold codePH C r (flat ps) = flat (ps.map (substC r C)) := by
  intro C
  induction C with
  | nil =>
      intro r ps _ _
      show flat ps = _
      have hpt : ∀ q ∈ ps, substC r [] q = id q := by
        intro q _
        cases q with
        | cph i =>
            show substC r [] (RPi.cph i) = RPi.cph i
            rw [substC, if_neg (by simp)]
        | seg s => rfl
        | tph j => rfl
      rw [List.map_congr_left hpt, List.map_id]
  | cons b C' ih =>
      intro r ps hclean hC
      show restoreFold codePH C' (r + 1) (listReplace (codePH r) b (flat ps)) = _
      rw [listReplace_flat_cph r b ps hclean]
      have hclean' : CleanSegs (ps.map (fun q =>
          if q = RPi.cph r then RPi.seg b else q)) := by
        intro s hs
        rcases List.mem_map.mp hs with ⟨q, hq, hfq⟩
        by_cases hqr : q = RPi.cph r
        · rw [if_pos hqr] at hfq
          injection hfq with h'
          subst h'
          exact hC b (List.mem_cons_self _ _)
        · rw [if_neg hqr] at hfq
          subst hfq
          exact hclean s hq
      rw [ih (r + 1) _ hclean' (fun b' hb' => hC b' (List.mem_cons_of_mem b hb')),
        List.map_map]
      have hpt : ∀ q ∈ ps,
          (substC (r + 1) C' ∘ fun q => if q = RPi.cph r then RPi.seg b else q) q
            = substC r (b :: C') q :=
        fun q _ => substC_point r b C' q
      rw [List.map_congr_left hpt]

theorem restoreFold_table :
    ∀ (T : List (List Char)) (r : Nat) (ps : List RPi), CleanSegs ps →
    (∀ j, RPi.cph j ∉ ps) → (∀ b ∈ T, '_' ∉ b) →
    restoreFold tablePH T r (flat ps) = flat (ps.map (substT r T)) := by
  intro T
  induction T with
  | nil =>
      intro r ps _ _ _
      show flat ps = _
      have hpt : ∀ q ∈ ps, substT r [] q = id q := by
        intro q _
        cases q with
        | tph i =>
            show substT r [] (RPi.tph i) = RPi.tph i
            rw [substT, if_neg (by simp)]
        | seg s => rfl
        | cph j => rfl
      rw [List.map_congr_left hpt, List.map_id]
  | cons b T' ih =>
      intro r ps hclean hnoc hT
      show restoreFold tablePH T' (r + 1) (listReplace (tablePH r) b (flat ps)) = _
      rw [listReplace_flat_tph r b ps hclean hnoc]
      have hclean' : CleanSegs (ps.map (fun q =>
          if q = RPi.tph r then RPi.seg b else q)) := by
        intro s hs
        rcases List.mem_map.mp hs with ⟨q, hq, hfq⟩
        by_cases hqr : q = RPi.tph r
        · rw [if_pos hqr] at hfq
          injection hfq with h'
          subst h'
          exact hT b (List.mem_cons_self _ _)
        · rw [if_neg hqr] at hfq
          subst hfq
          exact hclean s hq
      have hnoc' : ∀ j, RPi.cph j ∉ ps.map (fun q =>
          if q = RPi.tph r then RPi.seg b else q) := by
        intro j hm
        rcases List.mem_map.mp hm with ⟨q, hq, hfq⟩
        by_cases hqr : q = RPi.tph r
        · rw [if_pos hqr] at hfq
          cases hfq
        · rw [if_neg hqr] at hfq
          subst hfq
          exact hnoc j hq
      rw [ih (r + 1) _ hclean' hnoc'
        (fun b' hb' => hT b' (List.mem_cons_of_mem b hb')), List.map_map]
      have hpt : ∀ q ∈ ps,
          (substT (r + 1) T' ∘ fun q => if q = RPi.tph r then RPi.seg b else q) q
            = substT r (b :: T') q :=
        fun q _ => substT_point r b T' q
      rw [List.map_congr_left hpt]

/-- Prepend one character to a piece list, merging into a leading literal
segment when there is one. -/
def segCons (c : Char) : List RPi → List RPi
  | RPi.seg s :: tl => RPi.seg (c :: s) :: tl
  | l => RPi.seg [c] :: l

theorem flat_segCons (c : Char) (l : List RPi) :
    flat (segCons c l) = c :: flat l := by
  cases l with
  | nil => rfl
  | cons q tl => cases q <;> rfl

theorem flatSub_segCons (fc ft : Nat → List Char) (c : Char) (l : List RPi) :
    flatSub fc ft (segCons c l) = c :: flatSub fc ft l := by
  cases l with
  | nil => rfl
  | cons q tl => cases q <;> rfl

theorem cleanSegs_segCons {c : Char} (hc : c ≠ '_') {l : List RPi}
    (hl : CleanSegs l) : CleanSegs (segCons c l) := by
  cases l with
  | nil =>
      intro s hs
      rcases List.mem_singleton.mp hs with h
      injection h with h'
      subst h'
      intro hm
      rcases List.mem_singleton.mp hm with h
      exact hc h.symm
  | cons q tl =>
      cases q with
      | seg s₀ =>
          intro s hs
          rcases List.mem_cons.mp hs with h | h
          · injection h with h'
            subst h'
            intro hm
            rcases List.mem_cons.mp hm with h | h
            · exact hc h.symm
            · exact hl s₀ (List.mem_cons_self _ _) h
          · exact hl s (List.mem_cons_of_mem _ h)
      | cph i =>
          intro s hs
          rcases List.mem_cons.mp hs with h | h
          · injection h with h'
            subst h'
            intro hm
            rcases List.mem_singleton.mp hm with h
            exact hc h.symm
          · exact hl s h
      | tph i =>
          intro s hs
          rcases List.mem_cons.mp hs with h | h
          · injection h with h'
            subst h'
            intro hm
            rcases List.mem_singleton.mp hm with h
            exact hc h.symm
          · exact hl s h

theorem cph_mem_segCons {c : Char} {l : List RPi} {j : Nat}
    (h : RPi.cph j ∈ segCons c l) : RPi.cph j ∈ l := by
  cases l with
  | nil =>
      rcases List.mem_singleton.mp h with h'
      cases h'
  | cons q tl =>
      cases q with
      | seg s₀ =>
          rcases List.mem_cons.mp h with h' | h'
          · cases h'
          · exact List.mem_cons_of_mem _ h'
      | cph i =>
          rcases List.mem_cons.mp h with h' | h'
          · cases h'
          · exact h'
      | tph i =>
          rcases List.mem_cons.mp h with h' | h'
          · cases h'
          · exact h'

theorem tph_mem_segCons {c : Char} {l : List RPi} {j : Nat}
    (h : RPi.tph j ∈ segCons c l) : RPi.tph j ∈ l := by
  cases l with
  | nil =>
      rcases List.mem_singleton.mp h with h'
      cases h'
  | cons q tl =>
      cases q with
      | seg s₀ =>
          rcases List.mem_cons.mp h with h' | h'
          · cases h'
          · exact List.mem_cons_of_mem _ h'
      | cph i =>
          rcases List.mem_cons.mp h with h' | h'
          · cases h'
          · exact h'
      | tph i =>
          rcases List.mem_cons.mp h with h' | h'
          · cases h'
          · exact h'

theorem chain_noSegs_segCons (c : Char) {l : List RPi}
    (hl : List.Chain' (fun a b => ¬ (isSeg a ∧ isSeg b)) l) :
    List.Chain' (fun a b => ¬ (isSeg a ∧ isSeg b)) (segCons c l) := by
  cases l with
  | nil => simp [segCons]
  | cons q tl =>
      cases q with
      | seg s₀ =>
          show List.Chain' _ (RPi.seg (c :: s₀) :: tl)
          rw [List.chain'_cons'] at hl ⊢
          refine ⟨fun b hb => ?_, hl.2⟩
          have := hl.1 b hb
          simpa [isSeg] using this
      | cph i =>
          show List.Chain' _ (RPi.seg [c] :: RPi.cph i :: tl)
          rw [List.chain'_cons]
          exact ⟨by simp [isSeg], hl⟩
      | tph i =>
          show List.Chain' _ (RPi.seg [c] :: RPi.tph i :: tl)
          rw [List.chain'_cons]
          exact ⟨by simp [isSeg], hl⟩

theorem splitFirstSub_spec {n : List Char} :
    ∀ {s : List Char} {p : List Char × List Char},
    splitFirstSub n s = some p → s = p.1 ++ n ++ p.2 := by
  intro s
  induction s with
  | nil =>
      intro p h
      rw [splitFirstSub] at h
      by_cases hn : n.isEmpty
      · rw [if_pos hn] at h
        injection h with h'
        subst h'
        simp [List.isEmpty_iff.mp hn]
      · rw [if_neg hn] at h
        exact absurd h (by simp)
  | cons c rest ih =>
      intro p h
      rw [splitFirstSub] at h
      by_cases hst : startsL n (c :: rest) = true
      · rw [if_pos hst] at h
        injection h with h'
        subst h'
        have := startsL_decomp hst
        simpa using this
      · rw [if_neg hst] at h
        cases hsp : splitFirstSub n rest with
        | none => rw [hsp] at h; exact absurd h (by simp)
        | some q =>
            rw [hsp] at h
            injection h with h'
            subst h'
            have := ih hsp
            simp only [List.cons_append]
            rw [← this]

theorem takeWhile_take (p : Char → Bool) :
    ∀ l : List Char, l.take (l.takeWhile p).length = l.takeWhile p := by
  intro l
  induction l with
  | nil => rfl
  | cons c rest ih =>
      by_cases h : p c
      · simp [List.takeWhile_cons, h, ih]
      · simp [List.takeWhile_cons, h]

theorem matchCodeAt_spec {s : List Char} {m : List Char × List Char}
    (h : matchCodeAt s = some m) : s = m.1 ++ m.2 ∧ m.1 ≠ [] := by
  simp only [matchCodeAt] at h
  split at h
  · rename_i hst
    split at h
    · rename_i body heq
      split at h
      · rename_i q hsp
        injection h with h'
        subst h'
        refine ⟨?_, by simp⟩
        have hs3 : s = "```".data ++ s.drop 3 := by
          have := startsL_decomp hst
          simpa using this
        have h2 : (s.drop 3).takeWhile isWordChar ++
            (s.drop 3).drop ((s.drop 3).takeWhile isWordChar).length
              = s.drop 3 := by
          conv_rhs => rw [← List.take_append_drop
            ((s.drop 3).takeWhile isWordChar).length (s.drop 3)]
          rw [takeWhile_take]
        have hbody : body = q.1 ++ ("```".data ++ q.2) := by
          have := splitFirstSub_spec hsp
          simpa [List.append_assoc] using this
        calc s = "```".data ++ s.drop 3 := hs3
          _ = "```".data ++ ((s.drop 3).takeWhile isWordChar ++
              (s.drop 3).drop ((s.drop 3).takeWhile isWordChar).length) := by
                rw [h2]
          _ = "```".data ++ ((s.drop 3).takeWhile isWordChar ++
              ('\n' :: body)) := by rw [heq]
          _ = "```".data ++ ((s.drop 3).takeWhile isWordChar ++
              ('\n' :: (q.1 ++ ("```".data ++ q.2)))) := by rw [hbody]
          _ = ("```".data ++ (s.drop 3).takeWhile isWordChar ++
              '\n' :: (q.1 ++ "```".data)) ++ q.2 := by
                simp [List.append_assoc]
      · exact absurd h (by simp)
    · exact absurd h (by simp)
  · exact absurd h (by simp)

theorem matchRowsAux_spec : ∀ (fuel : Nat) (s : List Char),
    s = (matchRowsAux fuel s).1 ++ (matchRowsAux fuel s).2.1 := by
  intro fuel
  induction fuel with
  | zero => intro s; rfl
  | succ f ih =>
      intro s
      simp only [matchRowsAux]
      split
      · rename_i p hsp
        split
        · show s = (p.1 ++ '\n' :: (matchRowsAux f p.2).1)
            ++ (matchRowsAux f p.2).2.1
          have h1 := splitFirstSub_spec hsp
          have h2 := ih p.2
          calc s = p.1 ++ ['\n'] ++ p.2 := h1
            _ = p.1 ++ ['\n'] ++ ((matchRowsAux f p.2).1
                ++ (matchRowsAux f p.2).2.1) := by rw [← h2]
            _ = (p.1 ++ '\n' :: (matchRowsAux f p.2).1)
                ++ (matchRowsAux f p.2).2.1 := by simp
        · show s = [] ++ s
          simp
      · show s = [] ++ s
        simp

theorem matchTableAt_spec {s : List Char} {m : List Char × List Char}
    (h : matchTableAt s = some m) :
    s = m.1 ++ m.2 ∧ m.1 ≠ [] := by
  simp only [matchTableAt] at h
  split at h
  · rename_i p1 hsp1
    split at h
    · rename_i hrow
      split at h
      · rename_i p2 hsp2
        split at h
        · rename_i hdelim
          split at h
          · rename_i hrows
            injection h with h'
            subst h'
            refine ⟨?_, by simp⟩
            have h1 := splitFirstSub_spec hsp1
            have h2 := splitFirstSub_spec hsp2
            have h3 := matchRowsAux_spec p2.2.length p2.2
            calc s = p1.1 ++ ['\n'] ++ p1.2 := h1
              _ = p1.1 ++ ['\n'] ++ (p2.1 ++ ['\n'] ++ p2.2) := by rw [← h2]
              _ = p1.1 ++ ['\n'] ++ (p2.1 ++ ['\n'] ++
                  ((matchRowsAux p2.2.length p2.2).1
                    ++ (matchRowsAux p2.2.length p2.2).2.1)) := by rw [← h3]
              _ = (p1.1 ++ '\n' :: (p2.1 ++ '\n' ::
                  (matchRowsAux p2.2.length p2.2).1))
                  ++ (matchRowsAux p2.2.length p2.2).2.1 := by simp
          · exact absurd h (by simp)
        · exact absurd h (by simp)
      · exact absurd h (by simp)
    · exact absurd h (by simp)
  · exact absurd h (by simp)

/-- The table pattern needs a leading `|`: at any other head it fails. -/
theorem matchTableAt_none_head {c : Char} (hc : c ≠ '|') (w : List Char) :
    matchTableAt (c :: w) = none := by
  simp only [matchTableAt]
  split
  · rename_i p hsp
    have hrow : isRowLine p.1 = false := by
      rw [splitFirstSub] at hsp
      by_cases hst : startsL ['\n'] (c :: w) = true
      · rw [if_pos hst] at hsp
        injection hsp with h'
        subst h'
        rfl
      · rw [if_neg hst] at hsp
        cases hq : splitFirstSub ['\n'] w with
        | none => rw [hq] at hsp; exact absurd hsp (by simp)
        | some q =>
            rw [hq] at hsp
            injection hsp with h'
            subst h'
            show isRowLine (c :: q.1) = false
            rw [isRowLine]
            have : startsL ['|'] (c :: q.1) = false := by
              rw [startsL]
              have h1 : ('|' = c) = False := eq_false fun he => hc he.symm
              simp [h1, startsL]
            rw [this]
            simp
    rw [hrow]
    simp
  · rfl

theorem subTableAux_nil (f k : Nat) : subTableAux f k [] = ([], []) := by
  cases f <;> rfl

theorem subCodeAux_nil (f k : Nat) : subCodeAux f k [] = ([], []) := by
  cases f <;> rfl

theorem subTableAux_stable :
    ∀ (f₁ : Nat) (s : List Char) (k f₂ : Nat), s.length ≤ f₁ → s.length ≤ f₂ →
    subTableAux f₁ k s = subTableAux f₂ k s := by
  intro f₁
  induction f₁ with
  | zero =>
      intro s k f₂ h₁ _
      have : s = [] := List.eq_nil_of_length_eq_zero (Nat.le_zero.mp h₁)
      subst this
      rw [subTableAux_nil, subTableAux_nil]
  | succ f ih =>
      intro s k f₂ h₁ h₂
      cases s with
      | nil => rw [subTableAux_nil, subTableAux_nil]
      | cons c rest =>
          cases f₂ with
          | zero => simp at h₂
          | succ f₂' =>
              cases hm : matchTableAt (c :: rest) with
              | some m =>
                  obtain ⟨hspec, hne⟩ := matchTableAt_spec hm
                  have hlen : m.2.length ≤ rest.length := by
                    have := congrArg List.length hspec
                    simp only [List.length_cons, List.length_append] at this
                    cases hm1 : m.1 with
                    | nil => exact absurd hm1 hne
                    | cons x xs => rw [hm1] at this; simp at this; omega
                  simp only [subTableAux, hm]
                  rw [ih m.2 (k + 1) f₂' (le_trans hlen (Nat.le_of_succ_le_succ h₁))
                    (le_trans hlen (Nat.le_of_succ_le_succ h₂))]
              | none =>
                  simp only [subTableAux, hm]
                  rw [ih rest k f₂' (Nat.le_of_succ_le_succ h₁)
                    (Nat.le_of_succ_le_succ h₂)]

/-- Scanning past a region in which no table match can start only copies the
characters. -/
theorem subTableAux_walk (k : Nat) :
    ∀ (q y : List Char),
    (∀ a z, q = a ++ z → z ≠ [] → matchTableAt (z ++ y) = none) →
    ∀ fuel, (q ++ y).length ≤ fuel →
    subTableAux fuel k (q ++ y)
      = (q ++ (subTableAux y.length k y).1, (subTableAux y.length k y).2) := by
  intro q
  induction q with
  | nil =>
      intro y _ fuel hf
      simp only [List.nil_append] at hf ⊢
      rw [subTableAux_stable fuel y k y.length hf (le_refl _)]
  | cons c q' ih =>
      intro y hq fuel hf
      cases fuel with
      | zero => simp at hf
      | succ f =>
          have hnone : matchTableAt (c :: (q' ++ y)) = none :=
            hq [] (c :: q') rfl (List.cons_ne_nil c q')
          show subTableAux (f + 1) k (c :: (q' ++ y)) = _
          simp only [subTableAux, hnone]
          rw [ih y (fun a z hz hne => hq (c :: a) z (by rw [hz]; rfl) hne) f
            (by simpa using Nat.le_of_succ_le_succ hf)]
          simp

/-- Decomposition of the code-block scan: its output is the flattening of a
clean piece list of literal segments and code placeholders, whose blocks are
exactly the collected ones; substituting the collected blocks back for the
placeholders recovers the input. -/
theorem subCode_decomp :
    ∀ (fuel k : Nat) (t : List Char), t.length ≤ fuel → '_' ∉ t →
    ∃ ps : List RPi,
      (subCodeAux fuel k t).1 = flat ps ∧
      CleanSegs ps ∧
      (∀ j, RPi.tph j ∉ ps) ∧
      (∀ j, RPi.cph j ∈ ps → k ≤ j ∧ j < k + (subCodeAux fuel k t).2.length) ∧
      (∀ b ∈ (subCodeAux fuel k t).2, '_' ∉ b) ∧
      List.Chain' (fun a b => ¬ (isSeg a ∧ isSeg b)) ps ∧
      (∀ ft : Nat → List Char,
        flatSub (fun i => (subCodeAux fuel k t).2.getD (i - k) []) ft ps = t) := by
  intro fuel
  induction fuel with
  | zero =>
      intro k t hf _
      have ht : t = [] := List.eq_nil_of_length_eq_zero (Nat.le_zero.mp hf)
      subst ht
      rw [subCodeAux_nil]
      exact ⟨[], rfl, cleanSegs_nil, by simp, by simp, by simp, by simp,
        fun ft => rfl⟩
  | succ f ih =>
      intro k t hf hu
      cases t with
      | nil =>
          rw [subCodeAux_nil]
          exact ⟨[], rfl, cleanSegs_nil, by simp, by simp, by simp, by simp,
            fun ft => rfl⟩
      | cons c rest =>
          cases hm : matchCodeAt (c :: rest) with
          | some m =>
              obtain ⟨hspec, hne⟩ := matchCodeAt_spec hm
              have hlen : m.2.length ≤ rest.length := by
                have := congrArg List.length hspec
                simp only [List.length_cons, List.length_append] at this
                cases hm1 : m.1 with
                | nil => exact absurd hm1 hne
                | cons x xs => rw [hm1] at this; simp at this; omega
              have hu2 : '_' ∉ m.2 := fun hmem => hu (by
                rw [hspec]; exact List.mem_append.mpr (Or.inr hmem))
              have hu1 : '_' ∉ m.1 := fun hmem => hu (by
                rw [hspec]; exact List.mem_append.mpr (Or.inl hmem))
              obtain ⟨ps', h1, h2, h3, h4, h5, h6, h7⟩ :=
                ih (k + 1) m.2 (le_trans hlen (Nat.le_of_succ_le_succ hf)) hu2
              have hR : subCodeAux (f + 1) k (c :: rest)
                  = (codePH k ++ (subCodeAux f (k + 1) m.2).1,
                     m.1 :: (subCodeAux f (k + 1) m.2).2) := by
                simp only [subCodeAux, hm]
              rw [hR]
              refine ⟨RPi.cph k :: ps', ?_, ?_, ?_, ?_, ?_, ?_, ?_⟩
              · show codePH k ++ _ = codePH k ++ flat ps'
                rw [h1]
              · intro s hs
                rcases List.mem_cons.mp hs with h | h
                · cases h
                · exact h2 s h
              · intro j hj
                rcases List.mem_cons.mp hj with h | h
                · cases h
                · exact h3 j h
              · intro j hj
                rcases List.mem_cons.mp hj with h | h
                · injection h with h'
                  subst h'
                  exact ⟨le_refl _, by simp only [List.length_cons]; omega⟩
                · have := h4 j h
                  simp only [List.length_cons]
                  omega
              · intro b hb
                rcases List.mem_cons.mp hb with h | h
                · subst h; exact hu1
                · exact h5 b h
              · rw [List.chain'_cons']
                exact ⟨fun b _ => by simp [isSeg], h6⟩
              · intro ft
                show (m.1 :: (subCodeAux f (k + 1) m.2).2).getD (k - k) []
                    ++ flatSub _ ft ps' = c :: rest
                have hk0 : k - k = 0 := Nat.sub_self k
                rw [hk0]
                have hcongr : flatSub
                    (fun i => (m.1 :: (subCodeAux f (k + 1) m.2).2).getD (i - k) [])
                    ft ps'
                    = flatSub
                    (fun i => (subCodeAux f (k + 1) m.2).2.getD (i - (k + 1)) [])
                    ft ps' := by
                  apply flatSub_congr ps'
                  · intro j hj
                    have hjr := h4 j hj
                    have hsub : j - k = (j - (k + 1)) + 1 := by omega
                    rw [hsub, List.getD_cons_succ]
                  · intro j _; rfl
                rw [hcongr, h7 ft]
                exact hspec.symm
          | none =>
              have hc : c ≠ '_' := fun he => hu (he ▸ List.mem_cons_self _ _)
              have hu' : '_' ∉ rest := fun hmem => hu (List.mem_cons_of_mem c hmem)
              obtain ⟨ps', h1, h2, h3, h4, h5, h6, h7⟩ :=
                ih k rest (Nat.le_of_succ_le_succ hf) hu'
              have hR : subCodeAux (f + 1) k (c :: rest)
                  = (c :: (subCodeAux f k rest).1, (subCodeAux f k rest).2) := by
                simp only [subCodeAux, hm]
              rw [hR]
              refine ⟨segCons c ps', ?_, cleanSegs_segCons hc h2, ?_, ?_, h5,
                chain_noSegs_segCons c h6, ?_⟩
              · show c :: _ = _
                rw [h1, flat_segCons]
              · intro j hj
                exact h3 j (tph_mem_segCons hj)
              · intro j hj
                exact h4 j (cph_mem_segCons hj)
              · intro ft
                rw [flatSub_segCons, h7 ft]

theorem flat_phd_head {ps : List RPi} (hph : ∀ s' tl, ps ≠ RPi.seg s' :: tl)
    (hne : flat ps ≠ []) : ∃ w, flat ps = '_' :: w := by
  cases ps with
  | nil => exact absurd rfl hne
  | cons q tl =>
      cases q with
      | seg s' => exact absurd rfl (hph s' tl)
      | cph j => exact ⟨_, rfl⟩
      | tph j => exact ⟨_, rfl⟩

/-- Decomposition of the table scan run on a literal text followed by the
flattening of a placeholder-led piece list: the table pass neither enters the
placeholders (a hypothesis says its blocks capture no underscore) nor merges
across them, and substituting the collected table blocks back recovers the
input shape. -/
theorem subTable_decomp :
    ∀ (fuel : Nat) (s : List Char) (ps : List RPi) (k : Nat),
    '_' ∉ s → CleanSegs ps → (∀ j, RPi.tph j ∉ ps) →
    (∀ s' tl, ps ≠ RPi.seg s' :: tl) →
    List.Chain' (fun a b => ¬ (isSeg a ∧ isSeg b)) ps →
    (s ++ flat ps).length ≤ fuel →
    (∀ b ∈ (subTableAux fuel k (s ++ flat ps)).2, '_' ∉ b) →
    ∃ ps₂ : List RPi,
      (subTableAux fuel k (s ++ flat ps)).1 = flat ps₂ ∧
      CleanSegs ps₂ ∧
      (∀ j, RPi.cph j ∈ ps₂ → RPi.cph j ∈ ps) ∧
      (∀ j, RPi.tph j ∈ ps₂ →
        k ≤ j ∧ j < k + (subTableAux fuel k (s ++ flat ps)).2.length) ∧
      (∀ fc : Nat → List Char,
        flatSub fc
          (fun j => (subTableAux fuel k (s ++ flat ps)).2.getD (j - k) []) ps₂
          = s ++ flatSub fc tablePH ps) := by
  intro fuel
  induction fuel with
  | zero =>
      intro s ps k _ _ _ hphd _ hf _
      have h0 : (s ++ flat ps).length = 0 := Nat.le_zero.mp hf
      rcases List.append_eq_nil.mp (List.eq_nil_of_length_eq_zero h0)
        with ⟨hs, hps⟩
      subst hs
      have hps' : ps = [] := by
        cases ps with
        | nil => rfl
        | cons q tl =>
            cases q with
            | seg s' => exact absurd rfl (hphd s' tl)
            | cph j =>
                exfalso
                have he : flat (RPi.cph j :: tl) = codePH j ++ flat tl := rfl
                rw [he] at hps
                exact codePH_ne_nil j (List.append_eq_nil.mp hps).1
            | tph j =>
                exfalso
                have he : flat (RPi.tph j :: tl) = tablePH j ++ flat tl := rfl
                rw [he] at hps
                exact tablePH_ne_nil j (List.append_eq_nil.mp hps).1
      subst hps'
      exact ⟨[], rfl, cleanSegs_nil, by simp, by simp, fun fc => rfl⟩
  | succ f ih =>
      intro s ps k hus hclean hnot hphd hchain hf hblocks
      cases s with
      | nil =>
          cases ps with
          | nil => exact ⟨[], rfl, cleanSegs_nil, by simp, by simp, fun fc => rfl⟩
          | cons q tl =>
              cases q with
              | seg s' => exact absurd rfl (hphd s' tl)
              | tph j => exact absurd (List.mem_cons_self _ _) (hnot j)
              | cph j =>
                  have hq : ∀ a z, codePH j = a ++ z → z ≠ [] →
                      matchTableAt (z ++ flat tl) = none := by
                    intro a z hz hne
                    cases z with
                    | nil => exact absurd rfl hne
                    | cons zh zt =>
                        have hzm : zh ∈ codePH j := by
                          rw [hz]
                          exact List.mem_append.mpr
                            (Or.inr (List.mem_cons_self _ _))
                        exact matchTableAt_none_head
                          (fun he => codePH_no_pipe (he ▸ hzm)) _
                  have hshape : ([] : List Char) ++ flat (RPi.cph j :: tl)
                      = codePH j ++ flat tl := rfl
                  rw [hshape] at hf hblocks ⊢
                  have hlen1 : (flat tl).length ≤ f := by
                    rw [List.length_append] at hf
                    have := List.length_pos.mpr (codePH_ne_nil j)
                    omega
                  have hwalk := subTableAux_walk k (codePH j) (flat tl) hq
                    (f + 1) hf
                  rw [subTableAux_stable (flat tl).length (flat tl) k f
                    (le_refl _) hlen1] at hwalk
                  rw [hwalk] at hblocks ⊢
                  have hchain' : List.Chain' (fun a b => ¬ (isSeg a ∧ isSeg b)) tl :=
                    (List.chain'_cons'.mp hchain).2
                  cases tl with
                  | nil =>
                      rw [show flat ([] : List RPi) = [] from rfl,
                        subTableAux_nil]
                      refine ⟨[RPi.cph j], rfl, ?_, fun _ h => h, by simp,
                        fun fc => rfl⟩
                      intro s hs
                      rcases List.mem_singleton.mp hs with h
                      cases h
                  | cons q₂ tl₂ =>
                      cases q₂ with
                      | tph j₂ =>
                          exact absurd (List.mem_cons_of_mem _
                            (List.mem_cons_self _ _)) (hnot j₂)
                      | seg s₂ =>
                          have hflat : flat (RPi.seg s₂ :: tl₂)
                              = s₂ ++ flat tl₂ := rfl
                          rw [hflat] at hblocks ⊢
                          have hus₂ : '_' ∉ s₂ := hclean s₂
                            (List.mem_cons_of_mem _ (List.mem_cons_self _ _))
                          have hclean₂ : CleanSegs tl₂ :=
                            cleanSegs_cons (cleanSegs_cons hclean)
                          have hnot₂ : ∀ j', RPi.tph j' ∉ tl₂ := fun j' hm =>
                            hnot j' (List.mem_cons_of_mem _
                              (List.mem_cons_of_mem _ hm))
                          have hphd₂ : ∀ s' tl', tl₂ ≠ RPi.seg s' :: tl' := by
                            intro s₃ tl₃ heq
                            have := (List.chain'_cons'.mp hchain').1
                            rw [heq] at this
                            exact this (RPi.seg s₃) rfl ⟨trivial, trivial⟩
                          have hchain₂ := (List.chain'_cons'.mp hchain').2
                          have hlen₂ : (s₂ ++ flat tl₂).length ≤ f := by
                            rw [hflat] at hlen1
                            exact hlen1
                          obtain ⟨ps₂', g1, g2, g3, g4, g5⟩ :=
                            ih s₂ tl₂ k hus₂ hclean₂ hnot₂ hphd₂ hchain₂ hlen₂
                              (fun b hb => hblocks b hb)
                          refine ⟨RPi.cph j :: ps₂', ?_, ?_, ?_, ?_, ?_⟩
                          · show codePH j ++ (subTableAux f k (s₂ ++ flat tl₂)).1
                              = codePH j ++ flat ps₂'
                            rw [g1]
                          · intro s hs
                            rcases List.mem_cons.mp hs with h | h
                            · cases h
                            · exact g2 s h
                          · intro j' hj'
                            rcases List.mem_cons.mp hj' with h | h
                            · rw [h]; exact List.mem_cons_self _ _
                            · exact List.mem_cons_of_mem _
                                (List.mem_cons_of_mem _ (g3 j' h))
                          · intro j' hj'
                            rcases List.mem_cons.mp hj' with h | h
                            · cases h
                            · exact g4 j' h
                          · intro fc
                            show fc j ++ flatSub fc
                              (fun j' => (subTableAux f k (s₂ ++ flat tl₂)).2.getD
                                (j' - k) []) ps₂'
                              = fc j ++ (s₂ ++ flatSub fc tablePH tl₂)
                            rw [g5 fc]
                      | cph j₂ =>
                          have hclean₂ : CleanSegs (RPi.cph j₂ :: tl₂) :=
                            cleanSegs_cons hclean
                          have hnot₂ : ∀ j', RPi.tph j' ∉ RPi.cph j₂ :: tl₂ :=
                            fun j' hm => hnot j' (List.mem_cons_of_mem _ hm)
                          have hphd₂ : ∀ s' tl',
                              (RPi.cph j₂ :: tl₂ : List RPi) ≠ RPi.seg s' :: tl' := by
                            intro s₃ tl₃ heq
                            cases heq
                          have hlen₂ : (([] : List Char)
                              ++ flat (RPi.cph j₂ :: tl₂)).length ≤ f := by
                            simpa using hlen1
                          obtain ⟨ps₂', g1, g2, g3, g4, g5⟩ :=
                            ih [] (RPi.cph j₂ :: tl₂) k (by simp) hclean₂ hnot₂
                              hphd₂ hchain' hlen₂ (fun b hb => hblocks b hb)
                          simp only [List.nil_append] at g1 g4 g5
                          refine ⟨RPi.cph j :: ps₂', ?_, ?_, ?_, ?_, ?_⟩
                          · show codePH j
                              ++ (subTableAux f k (flat (RPi.cph j₂ :: tl₂))).1
                              = codePH j ++ flat ps₂'
                            rw [g1]
                          · intro s hs
                            rcases List.mem_cons.mp hs with h | h
                            · cases h
                            · exact g2 s h
                          · intro j' hj'
                            rcases List.mem_cons.mp hj' with h | h
                            · rw [h]; exact List.mem_cons_self _ _
                            · exact List.mem_cons_of_mem _ (g3 j' h)
                          · intro j' hj'
                            rcases List.mem_cons.mp hj' with h | h
                            · cases h
                            · exact g4 j' h
                          · intro fc
                            show fc j ++ flatSub fc
                              (fun j' =>
                                (subTableAux f k (flat (RPi.cph j₂ :: tl₂))).2.getD
                                (j' - k) []) ps₂'
                              = fc j ++ flatSub fc tablePH (RPi.cph j₂ :: tl₂)
                            rw [g5 fc]
      | cons c s' =>
          rw [List.cons_append] at hf hblocks ⊢
          have hus' : '_' ∉ s' := fun hm => hus (List.mem_cons_of_mem c hm)
          have hc : c ≠ '_' := fun he => hus (he ▸ List.mem_cons_self _ _)
          cases hm : matchTableAt (c :: (s' ++ flat ps)) with
          | none =>
              simp only [subTableAux, hm] at hblocks ⊢
              have hlen' : (s' ++ flat ps).length ≤ f := by
                rw [List.length_cons] at hf
                omega
              obtain ⟨ps₂', g1, g2, g3, g4, g5⟩ :=
                ih s' ps k hus' hclean hnot hphd hchain hlen'
                  (fun b hb => hblocks b hb)
              refine ⟨segCons c ps₂', ?_, cleanSegs_segCons hc g2, ?_, ?_, ?_⟩
              · show c :: (subTableAux f k (s' ++ flat ps)).1 = _
                rw [g1, flat_segCons]
              · intro j hj
                exact g3 j (cph_mem_segCons hj)
              · intro j hj
                exact g4 j (tph_mem_segCons hj)
              · intro fc
                show flatSub fc _ (segCons c ps₂')
                  = (c :: s') ++ flatSub fc tablePH ps
                rw [flatSub_segCons, g5 fc]
                rfl
          | some m =>
              simp only [subTableAux, hm] at hblocks ⊢
              obtain ⟨hspec, hne⟩ := matchTableAt_spec hm
              have hm1c : '_' ∉ m.1 :=
                hblocks m.1 (List.mem_cons_self _ _)
              have hre : (c :: s') ++ flat ps = m.1 ++ m.2 := by
                rw [List.cons_append]; exact hspec
              have hsplit : ∃ s₂, c :: s' = m.1 ++ s₂ ∧ m.2 = s₂ ++ flat ps := by
                rcases List.append_eq_append_iff.mp hre with
                  ⟨a', ha', hfa⟩ | ⟨s₂, hs₂, hm2⟩
                · cases a' with
                  | nil =>
                      refine ⟨[], by simpa using ha'.symm, ?_⟩
                      simp only [List.nil_append] at hfa ⊢
                      exact hfa.symm
                  | cons ah at' =>
                      exfalso
                      have hfne : flat ps ≠ [] := by
                        rw [hfa]; simp
                      obtain ⟨w, hw⟩ := flat_phd_head hphd hfne
                      rw [hw] at hfa
                      simp only [List.cons_append] at hfa
                      injection hfa with h1 h2
                      apply hm1c
                      rw [ha', ← h1]
                      exact List.mem_append.mpr
                        (Or.inr (List.mem_cons_self _ _))
                · exact ⟨s₂, hs₂, hm2⟩
              obtain ⟨s₂, hs₂, hm2⟩ := hsplit
              rw [hm2] at hblocks ⊢
              have hus₂ : '_' ∉ s₂ := fun hmem => hus (by
                rw [hs₂]; exact List.mem_append.mpr (Or.inr hmem))
              have hlen₂ : (s₂ ++ flat ps).length ≤ f := by
                have hl1 := congrArg List.length hre
                have hl2 := congrArg List.length hm2
                rw [List.length_cons, List.length_append] at hf
                simp only [List.length_append, List.cons_append,
                  List.length_cons] at hl1 hl2
                have hm1pos : 0 < m.1.length := List.length_pos.mpr hne
                rw [List.length_append]
                omega
              obtain ⟨ps₂', g1, g2, g3, g4, g5⟩ :=
                ih s₂ ps (k + 1) hus₂ hclean hnot hphd hchain hlen₂
                  (fun b hb => hblocks b (List.mem_cons_of_mem _ hb))
              refine ⟨RPi.tph k :: ps₂', ?_, ?_, ?_, ?_, ?_⟩
              · show tablePH k ++ (subTableAux f (k + 1) (s₂ ++ flat ps)).1
                  = tablePH k ++ flat ps₂'
                rw [g1]
              · intro s hs
                rcases List.mem_cons.mp hs with h | h
                · cases h
                · exact g2 s h
              · intro j hj
                rcases List.mem_cons.mp hj with h | h
                · cases h
                · exact g3 j h
              · intro j hj
                rcases List.mem_cons.mp hj with h | h
                · injection h with h'
                  subst h'
                  exact ⟨le_refl _, by simp only [List.length_cons]; omega⟩
                · have := g4 j h
                  simp only [List.length_cons]
                  omega
              · intro fc
                show (m.1 :: (subTableAux f (k + 1) (s₂ ++ flat ps)).2).getD
                    (k - k) []
                  ++ flatSub fc
                    (fun j => (m.1 :: (subTableAux f (k + 1) (s₂ ++ flat ps)).2).getD
                      (j - k) []) ps₂'
                  = (c :: s') ++ flatSub fc tablePH ps
                rw [Nat.sub_self]
                have hcongr : flatSub fc
                    (fun j => (m.1 :: (subTableAux f (k + 1) (s₂ ++ flat ps)).2).getD
                      (j - k) []) ps₂'
                    = flatSub fc
                    (fun j => (subTableAux f (k + 1) (s₂ ++ flat ps)).2.getD
                      (j - (k + 1)) []) ps₂' := by
                  apply flatSub_congr ps₂'
                  · intro j _; rfl
                  · intro j hj
                    have hjr := g4 j hj
                    have hsub : j - k = (j - (k + 1)) + 1 := by omega
                    rw [hsub, List.getD_cons_succ]
                rw [hcongr, g5 fc, hs₂]
                simp [List.append_assoc]

theorem getD_clean {L : List (List Char)} (hL : ∀ b ∈ L, '_' ∉ b) :
    ∀ n, '_' ∉ L.getD n [] := by
  induction L with
  | nil => intro n; simp
  | cons b L' ih =>
      intro n
      cases n with
      | zero => exact hL b (List.mem_cons_self _ _)
      | succ n' =>
          rw [List.getD_cons_succ]
          exact ih (fun b' hb' => hL b' (List.mem_cons_of_mem _ hb')) n'

/-- Fully substituting both placeholder families into a piece list equals the
direct double substitution. -/
theorem flat_subst_bridge :
    ∀ (ps₂ : List RPi) (C T : List (List Char)),
    (∀ j, RPi.cph j ∈ ps₂ → j < C.length) →
    (∀ j, RPi.tph j ∈ ps₂ → j < T.length) →
    flat ((ps₂.map (substC 0 C)).map (substT 0 T))
      = flatSub (fun i => C.getD i []) (fun j => T.getD j []) ps₂ := by
  intro ps₂
  induction ps₂ with
  | nil => intro C T _ _; rfl
  | cons q rest ih =>
      intro C T hC hT
      have hC' : ∀ j, RPi.cph j ∈ rest → j < C.length :=
        fun j hj => hC j (List.mem_cons_of_mem _ hj)
      have hT' : ∀ j, RPi.tph j ∈ rest → j < T.length :=
        fun j hj => hT j (List.mem_cons_of_mem _ hj)
      cases q with
      | seg s =>
          show s ++ flat ((rest.map (substC 0 C)).map (substT 0 T))
            = s ++ flatSub _ _ rest
          rw [ih C T hC' hT']
      | cph i =>
          have hi : i < C.length := hC i (List.mem_cons_self _ _)
          have hsub : substC 0 C (RPi.cph i) = RPi.seg (C.getD (i - 0) []) := by
            rw [substC, if_pos ⟨Nat.zero_le i, by omega⟩]
          simp only [List.map_cons, hsub]
          show C.getD (i - 0) []
              ++ flat ((rest.map (substC 0 C)).map (substT 0 T))
            = C.getD i [] ++ flatSub _ _ rest
          rw [ih C T hC' hT', Nat.sub_zero]
      | tph j =>
          have hj : j < T.length := hT j (List.mem_cons_self _ _)
          have hsub1 : substC 0 C (RPi.tph j) = RPi.tph j := rfl
          have hsub2 : substT 0 T (RPi.tph j) = RPi.seg (T.getD (j - 0) []) := by
            rw [substT, if_pos ⟨Nat.zero_le j, by omega⟩]
          simp only [List.map_cons, hsub1, hsub2]
          show T.getD (j - 0) []
              ++ flat ((rest.map (substC 0 C)).map (substT 0 T))
            = T.getD j [] ++ flatSub _ _ rest
          rw [ih C T hC' hT', Nat.sub_zero]

/-- The assembled round trip, given a stage-1 decomposition of the code scan
and a peeling of its piece list into a literal head and a placeholder-led
tail. -/
theorem preserveRestore_core
    (t : List Char)
    (ps ps₀ : List RPi) (s₀ : List Char)
    (hpeel : flat ps = s₀ ++ flat ps₀)
    (hpeelSub : ∀ fc, flatSub fc tablePH ps = s₀ ++ flatSub fc tablePH ps₀)
    (hsub : ∀ j, RPi.cph j ∈ ps₀ → RPi.cph j ∈ ps)
    (hp1 : (subCodeAux t.length 0 t).1 = flat ps)
    (hc0 : CleanSegs ps₀)
    (hn0 : ∀ j, RPi.tph j ∉ ps₀)
    (hph0 : ∀ s' tl, ps₀ ≠ RPi.seg s' :: tl)
    (hch0 : List.Chain' (fun a b => ¬ (isSeg a ∧ isSeg b)) ps₀)
    (hs0 : '_' ∉ s₀)
    (hp4 : ∀ j, RPi.cph j ∈ ps → j < (subCodeAux t.length 0 t).2.length)
    (hp5 : ∀ b ∈ (subCodeAux t.length 0 t).2, '_' ∉ b)
    (hp7 : flatSub (fun i => (subCodeAux t.length 0 t).2.getD i [])
        tablePH ps = t)
    (h2' : ∀ b ∈ (subTableAux (s₀ ++ flat ps₀).length 0 (s₀ ++ flat ps₀)).2,
        '_' ∉ b) :
    preserveRestore t = t := by
  obtain ⟨ps₂, q1, q2, q3, q4, q5⟩ :=
    subTable_decomp (s₀ ++ flat ps₀).length s₀ ps₀ 0 hs0 hc0 hn0 hph0 hch0
      (le_refl _) h2'
  show restoreFold tablePH
      (subTableAux (subCodeAux t.length 0 t).1.length 0
        (subCodeAux t.length 0 t).1).2 0
      (restoreFold codePH (subCodeAux t.length 0 t).2 0
        (subTableAux (subCodeAux t.length 0 t).1.length 0
          (subCodeAux t.length 0 t).1).1) = t
  rw [hp1, hpeel, q1]
  have hrangeC : ∀ j, RPi.cph j ∈ ps₂ →
      j < (subCodeAux t.length 0 t).2.length :=
    fun j hj => hp4 j (hsub j (q3 j hj))
  have hrangeT : ∀ j, RPi.tph j ∈ ps₂ →
      j < (subTableAux (s₀ ++ flat ps₀).length 0 (s₀ ++ flat ps₀)).2.length :=
    fun j hj => by have := q4 j hj; omega
  rw [restoreFold_code (subCodeAux t.length 0 t).2 0 ps₂ q2 hp5]
  have hcleanM : CleanSegs (ps₂.map (substC 0 (subCodeAux t.length 0 t).2)) := by
    intro s hs
    rcases List.mem_map.mp hs with ⟨q, hq, hfq⟩
    cases q with
    | seg s' =>
        rw [show substC 0 (subCodeAux t.length 0 t).2 (RPi.seg s')
          = RPi.seg s' from rfl] at hfq
        injection hfq with h'
        subst h'
        exact q2 s' hq
    | cph i =>
        rw [substC, if_pos ⟨Nat.zero_le i, by
          have := hrangeC i hq; omega⟩] at hfq
        injection hfq with h'
        subst h'
        exact getD_clean hp5 (i - 0)
    | tph j =>
        rw [show substC 0 (subCodeAux t.length 0 t).2 (RPi.tph j)
          = RPi.tph j from rfl] at hfq
        cases hfq
  have hnocM : ∀ j, RPi.cph j ∉
      ps₂.map (substC 0 (subCodeAux t.length 0 t).2) := by
    intro j hm
    rcases List.mem_map.mp hm with ⟨q, hq, hfq⟩
    cases q with
    | seg s' =>
        rw [show substC 0 (subCodeAux t.length 0 t).2 (RPi.seg s')
          = RPi.seg s' from rfl] at hfq
        cases hfq
    | cph i =>
        rw [substC, if_pos ⟨Nat.zero_le i, by
          have := hrangeC i hq; omega⟩] at hfq
        cases hfq
    | tph j' =>
        rw [show substC 0 (subCodeAux t.length 0 t).2 (RPi.tph j')
          = RPi.tph j' from rfl] at hfq
        cases hfq
  rw [restoreFold_table
    (subTableAux (s₀ ++ flat ps₀).length 0 (s₀ ++ flat ps₀)).2 0
    (ps₂.map (substC 0 (subCodeAux t.length 0 t).2)) hcleanM hnocM h2']
  rw [List.map_map]
  have hcomp : ps₂.map
      ((substT 0 (subTableAux (s₀ ++ flat ps₀).length 0 (s₀ ++ flat ps₀)).2)
        ∘ (substC 0 (subCodeAux t.length 0 t).2))
      = (ps₂.map (substC 0 (subCodeAux t.length 0 t).2)).map
        (substT 0 (subTableAux (s₀ ++ flat ps₀).length 0 (s₀ ++ flat ps₀)).2) := by
    rw [List.map_map]
  rw [hcomp, flat_subst_bridge ps₂ (subCodeAux t.length 0 t).2
    (subTableAux (s₀ ++ flat ps₀).length 0 (s₀ ++ flat ps₀)).2
    hrangeC hrangeT]
  have e1 : flatSub (fun i => (subCodeAux t.length 0 t).2.getD i [])
      (fun j => (subTableAux (s₀ ++ flat ps₀).length 0
        (s₀ ++ flat ps₀)).2.getD j []) ps₂
      = flatSub (fun i => (subCodeAux t.length 0 t).2.getD i [])
      (fun j => (subTableAux (s₀ ++ flat ps₀).length 0
        (s₀ ++ flat ps₀)).2.getD (j - 0) []) ps₂ :=
    flatSub_congr ps₂ (fun _ _ => rfl) (fun j _ => by rw [Nat.sub_zero])
  rw [e1, q5 (fun i => (subCodeAux t.length 0 t).2.getD i []),
    ← hpeelSub (fun i => (subCodeAux t.length 0 t).2.getD i [])]
  exact hp7

/-- C10 (amended): the placeholder round trip
`_restore_special_blocks(_preserve_special_blocks(t)) = t` holds for every
text `t` that contains no underscore and whose preserved table blocks capture
no underscore; in general it can fail (see the counterexample). -/
theorem c10_preserve_restore_amended (t : List Char) (h1 : '_' ∉ t)
    (h2 : ∀ b ∈ (preserve_special_blocks t).table, '_' ∉ b) :
    preserveRestore t = t := by
  obtain ⟨ps, p1, p2, p3, p4, p5, p6, p7⟩ :=
    subCode_decomp t.length 0 t (le_refl _) h1
  have h2' : ∀ b ∈ (subTableAux (subCodeAux t.length 0 t).1.length 0
      (subCodeAux t.length 0 t).1).2, '_' ∉ b := h2
  rw [p1] at h2'
  have hp4 : ∀ j, RPi.cph j ∈ ps → j < (subCodeAux t.length 0 t).2.length :=
    fun j hj => by have := p4 j hj; omega
  have hp7 : flatSub (fun i => (subCodeAux t.length 0 t).2.getD i [])
      tablePH ps = t := by
    have e : flatSub (fun i => (subCodeAux t.length 0 t).2.getD i [])
        tablePH ps
        = flatSub (fun i => (subCodeAux t.length 0 t).2.getD (i - 0) [])
        tablePH ps :=
      flatSub_congr ps (fun i _ => by rw [Nat.sub_zero]) (fun _ _ => rfl)
    rw [e]
    exact p7 tablePH
  cases ps with
  | nil =>
      exact preserveRestore_core t [] [] [] rfl (fun fc => rfl) (fun _ h => h)
        p1 cleanSegs_nil (by simp) (fun s' tl h => by cases h) (by simp)
        (by simp) hp4 p5 hp7 (fun b hb => h2' b hb)
  | cons q rest =>
      cases q with
      | seg s₀ =>
          exact preserveRestore_core t (RPi.seg s₀ :: rest) rest s₀ rfl
            (fun fc => rfl) (fun j h => List.mem_cons_of_mem _ h) p1
            (cleanSegs_cons p2) (fun j hm => p3 j (List.mem_cons_of_mem _ hm))
            (by
              intro s' tl heq
              have := (List.chain'_cons'.mp p6).1
              rw [heq] at this
              exact this (RPi.seg s') rfl ⟨trivial, trivial⟩)
            (List.chain'_cons'.mp p6).2 (p2 s₀ (List.mem_cons_self _ _)) hp4 p5
            hp7 (fun b hb => h2' b hb)
      | cph i =>
          exact preserveRestore_core t (RPi.cph i :: rest) (RPi.cph i :: rest)
            [] rfl (fun fc => rfl) (fun _ h => h) p1 p2 p3
            (by intro s' tl heq; injection heq with heq1 heq2; cases heq1)
            p6 (by simp) hp4 p5 hp7 (fun b hb => h2' b hb)
      | tph i => exact absurd (List.mem_cons_self _ _) (p3 i)

/-- C10 counterexample: the round trip fails (i) when the text already
contains placeholder-shaped text, (ii) when a code block lies inside a table
row, so the table block captures the code placeholder and the code pass has
already run by the time it is restored, and (iii) when underscore-free text
adjacent to two code placeholders reassembles into a spurious placeholder. -/
theorem c10_counterexample :
    preserveRestore ("__CODE_BLOCK_0__ and ```\nc\n```".data)
      ≠ "__CODE_BLOCK_0__ and ```\nc\n```".data ∧
    preserveRestore ("|a ```\nc\n``` b|\n|---|\n|x|\n".data)
      ≠ "|a ```\nc\n``` b|\n|---|\n|x|\n".data ∧
    preserveRestore ("```\na\n``````\nb\n```CODE_BLOCK_0_```\nc\n```".data)
      ≠ "```\na\n``````\nb\n```CODE_BLOCK_0_```\nc\n```".data :=
  ⟨by decide, by decide, by decide⟩

/-- Witness for C10: a concrete document with a fenced code block satisfies
both hypotheses and round-trips. -/
theorem c10_witness :
    ('_' ∉ "hello\n```py\ncode\n```\nworld".data) ∧
    (∀ b ∈ (preserve_special_blocks
        ("hello\n```py\ncode\n```\nworld".data)).table, '_' ∉ b) ∧
    preserveRestore ("hello\n```py\ncode\n```\nworld".data)
      = "hello\n```py\ncode\n```\nworld".data :=
  ⟨by decide, by decide,
    c10_preserve_restore_amended _ (by decide) (by decide)⟩

/-- The comment line `f"<!-- Source: {url} -->"` that `_clean_markdown`
prepends to every document's output. -/
def srcComment (url : String) : List Char :=
  "<!-- Source: ".data ++ url.data ++ " -->".data

/-- `'\n'.join` on character-list lines. -/
def joinNL : List (List Char) → List Char
  | [] => []
  | [l] => l
  | l :: rest => l ++ '\n' :: joinNL rest

/-- `re.sub(r'\n{3,}', '\n\n', s)`: scanning left to right, every maximal run
of three or more newlines is replaced by exactly two; `fuel ≥ s.length`
always suffices. -/
def collapseNLAux : Nat → List Char → List Char
  | _, [] => []
  | Nat.succ fuel, c :: rest =>
      if c = '\n' then
        (if ((c :: rest).takeWhile (fun x => x = '\n')).length ≥ 3 then
          ['\n', '\n']
         else (c :: rest).takeWhile (fun x => x = '\n'))
          ++ collapseNLAux fuel
            ((c :: rest).drop ((c :: rest).takeWhile (fun x => x = '\n')).length)
      else c :: collapseNLAux fuel rest
  | 0, s => s

/-- `re.sub(r'\n{3,}', '\n\n', s)` with the always-sufficient fuel. -/
def collapseNL (s : List Char) : List Char := collapseNLAux s.length s

/-- `HTMLCleaner._clean_markdown(markdown, url)` on the split lines: the
dedup line loop, `'\n'.join`, the source-comment prepend
`f"<!-- Source: {url} -->\n\n{cleaned}"` and the newline collapsing. -/
def clean_markdown (st : CleanState) (url : String) (lines : List String) :
    List Char × CleanState :=
  let r := cleanLines lines st
  (collapseNL (srcComment url ++ '\n' :: '\n' ::
    joinNL (r.1.map String.data)), r.2)

/-- The cleaning stage over a sequence of documents `(url, lines)`: the
module-level dedup state persists across documents and each document yields
its final markdown string. -/
def clean_docs_out : List (String × List String) → CleanState →
    List (List Char) × CleanState
  | [], st => ([], st)
  | d :: ds, st =>
      let p := clean_markdown st d.1 d.2
      let q := clean_docs_out ds p.2
      (p.1 :: q.1, q.2)

/-- The line structure of a string: split at every newline. -/
def splitNL (s : List Char) : List (List Char) :=
  splitChars (fun c => c = '\n') s

/-- Total number of times `L` occurs as a line of the given output
strings. -/
def lineOcc (L : List Char) (outs : List (List Char)) : Nat :=
  (outs.map (fun o => (splitNL o).count L)).sum

theorem splitChars_ne_nil (p : Char → Bool) : ∀ l, splitChars p l ≠ [] := by
  intro l
  induction l with
  | nil => simp [splitChars]
  | cons c rest ih =>
      simp only [splitChars]
      cases hsc : splitChars p rest with
      | nil => cases hpc : p c <;> simp
      | cons w ws => cases hpc : p c <;> simp

theorem splitNL_cons_no {c : Char} (hc : c ≠ '\n') (x : List Char) :
    ∃ w ws, splitNL x = w :: ws ∧ splitNL (c :: x) = (c :: w) :: ws := by
  cases hsc : splitNL x with
  | nil => exact absurd hsc (splitChars_ne_nil _ x)
  | cons w ws =>
      refine ⟨w, ws, rfl, ?_⟩
      show splitChars (fun c => c = '\n') (c :: x) = _
      simp only [splitChars]
      rw [show splitChars (fun c => c = '\n') x = w :: ws from hsc]
      simp [hc]

theorem splitNL_cons_nl (x : List Char) :
    splitNL ('\n' :: x) = [] :: splitNL x := by
  cases hsc : splitNL x with
  | nil => exact absurd hsc (splitChars_ne_nil _ x)
  | cons w ws =>
      show splitChars (fun c => c = '\n') ('\n' :: x) = _
      simp only [splitChars]
      rw [show splitChars (fun c => c = '\n') x = w :: ws from hsc]
      simp

theorem splitNL_replicate (x : List Char) :
    ∀ k, splitNL (List.replicate k '\n' ++ x)
      = List.replicate k [] ++ splitNL x := by
  intro k
  induction k with
  | zero => simp
  | succ n ih =>
      rw [List.replicate_succ, List.cons_append, splitNL_cons_nl, ih,
        List.replicate_succ, List.cons_append]

theorem splitNL_no_nl : ∀ {A : List Char}, '\n' ∉ A → splitNL A = [A] := by
  intro A
  induction A with
  | nil => intro _; rfl
  | cons a A' ih =>
      intro h
      have ha : a ≠ '\n' := fun he => h (he ▸ List.mem_cons_self _ _)
      have h' : '\n' ∉ A' := fun hm => h (List.mem_cons_of_mem a hm)
      obtain ⟨w, ws, e1, e2⟩ := splitNL_cons_no ha A'
      rw [ih h'] at e1
      injection e1 with e1a e1b
      rw [e2, e1a, e1b]

theorem splitNL_line_append : ∀ {A : List Char}, '\n' ∉ A → ∀ (x : List Char),
    splitNL (A ++ '\n' :: x) = A :: splitNL x := by
  intro A
  induction A with
  | nil => intro _ x; exact splitNL_cons_nl x
  | cons a A' ih =>
      intro h x
      have ha : a ≠ '\n' := fun he => h (he ▸ List.mem_cons_self _ _)
      have h' : '\n' ∉ A' := fun hm => h (List.mem_cons_of_mem a hm)
      obtain ⟨w, ws, e1, e2⟩ := splitNL_cons_no ha (A' ++ '\n' :: x)
      rw [ih h' x] at e1
      injection e1 with e1a e1b
      show splitNL (a :: (A' ++ '\n' :: x)) = _
      rw [e2, e1a, e1b]

theorem collapse_run_step (f : Nat) (rest : List Char) :
    collapseNLAux (f + 1) ('\n' :: rest)
      = (if (('\n' :: rest).takeWhile (fun x => x = '\n')).length ≥ 3
          then ['\n', '\n'] else ('\n' :: rest).takeWhile (fun x => x = '\n'))
        ++ collapseNLAux f
          (('\n' :: rest).drop
            (('\n' :: rest).takeWhile (fun x => x = '\n')).length) := by
  simp only [collapseNLAux]
  simp

/-- The newline collapse keeps the first line and, beyond it, preserves the
number of occurrences of every nonempty line. -/
theorem collapse_split : ∀ (fuel : Nat) (s : List Char), s.length ≤ fuel →
    ∃ w t t', splitNL (collapseNLAux fuel s) = w :: t ∧ splitNL s = w :: t' ∧
      ∀ L : List Char, L ≠ [] → t.count L = t'.count L := by
  intro fuel
  induction fuel with
  | zero =>
      intro s h
      have hs : s = [] := List.eq_nil_of_length_eq_zero (Nat.le_zero.mp h)
      subst hs
      exact ⟨[], [], [], rfl, rfl, fun _ _ => rfl⟩
  | succ f ih =>
      intro s hlen
      cases s with
      | nil => exact ⟨[], [], [], rfl, rfl, fun _ _ => rfl⟩
      | cons c rest =>
          by_cases hc : c = '\n'
          · subst hc
            have hsplit : ('\n' :: rest)
                = ('\n' :: rest).takeWhile (fun x => x = '\n')
                  ++ ('\n' :: rest).drop
                    (('\n' :: rest).takeWhile (fun x => x = '\n')).length := by
              conv_lhs => rw [← List.take_append_drop
                (((('\n' :: rest)).takeWhile (fun x => x = '\n')).length)
                ('\n' :: rest)]
              rw [takeWhile_take]
            have hrep : ('\n' :: rest).takeWhile (fun x => x = '\n')
                = List.replicate
                  (('\n' :: rest).takeWhile (fun x => x = '\n')).length '\n' := by
              apply List.eq_replicate_of_mem
              intro b hb
              have hpb := List.mem_takeWhile_imp hb
              exact of_decide_eq_true hpb
            have hm1 : 1 ≤ (('\n' :: rest).takeWhile (fun x => x = '\n')).length := by
              simp [List.takeWhile_cons]
            have hdroplen : (('\n' :: rest).drop
                (('\n' :: rest).takeWhile (fun x => x = '\n')).length).length ≤ f := by
              rw [List.length_drop]
              simp only [List.length_cons] at hlen ⊢
              omega
            obtain ⟨w, t, t', e1, e2, hcnt⟩ := ih _ hdroplen
            have hrun : ∀ X : List Char,
                splitNL (('\n' :: rest).takeWhile (fun x => x = '\n') ++ X)
                  = List.replicate
                    (('\n' :: rest).takeWhile (fun x => x = '\n')).length []
                    ++ splitNL X := by
              intro X
              conv_lhs => rw [hrep]
              rw [splitNL_replicate]
            rw [collapse_run_step]
            by_cases hbig :
                (('\n' :: rest).takeWhile (fun x => x = '\n')).length ≥ 3
            · rw [if_pos hbig]
              refine ⟨[], [] :: w :: t,
                List.replicate
                  ((('\n' :: rest).takeWhile (fun x => x = '\n')).length - 1) []
                  ++ w :: t', ?_, ?_, ?_⟩
              · have h2 : (['\n', '\n'] : List Char)
                    = List.replicate 2 '\n' := rfl
                rw [h2, splitNL_replicate, e1]
                rfl
              · conv_lhs => rw [hsplit]
                rw [hrun, e2]
                have hm : (('\n' :: rest).takeWhile (fun x => x = '\n')).length
                    = ((('\n' :: rest).takeWhile (fun x => x = '\n')).length - 1)
                      + 1 := by omega
                conv_lhs => rw [hm]
                rw [List.replicate_succ, List.cons_append]
              · intro L hL
                have hne0 : ¬ (([] : List Char) = L) := fun he => hL he.symm
                have h0 : List.count L (List.replicate
                    ((('\n' :: rest).takeWhile (fun x => x = '\n')).length - 1)
                    ([] : List Char)) = 0 := by
                  rw [List.count_replicate]
                  simp [hL]
                rw [List.count_append, h0, List.count_cons, List.count_cons,
                  List.count_cons]
                have := hcnt L hL
                simp only [beq_iff_eq, if_neg hne0]
                omega
            · rw [if_neg hbig]
              refine ⟨[],
                List.replicate
                  ((('\n' :: rest).takeWhile (fun x => x = '\n')).length - 1) []
                  ++ w :: t,
                List.replicate
                  ((('\n' :: rest).takeWhile (fun x => x = '\n')).length - 1) []
                  ++ w :: t', ?_, ?_, ?_⟩
              · rw [hrun, e1]
                have hm : (('\n' :: rest).takeWhile (fun x => x = '\n')).length
                    = ((('\n' :: rest).takeWhile (fun x => x = '\n')).length - 1)
                      + 1 := by omega
                conv_lhs => rw [hm]
                rw [List.replicate_succ, List.cons_append]
              · conv_lhs => rw [hsplit]
                rw [hrun, e2]
                have hm : (('\n' :: rest).takeWhile (fun x => x = '\n')).length
                    = ((('\n' :: rest).takeWhile (fun x => x = '\n')).length - 1)
                      + 1 := by omega
                conv_lhs => rw [hm]
                rw [List.replicate_succ, List.cons_append]
              · intro L hL
                rw [List.count_append, List.count_append, List.count_cons,
                  List.count_cons]
                have := hcnt L hL
                omega
          · have hstep : collapseNLAux (f + 1) (c :: rest)
                = c :: collapseNLAux f rest := by
              simp only [collapseNLAux]
              rw [if_neg hc]
            obtain ⟨w, t, t', e1, e2, hcnt⟩ := ih rest
              (by simpa using Nat.le_of_succ_le_succ hlen)
            obtain ⟨w₁, ws₁, f1, f2⟩ := splitNL_cons_no hc (collapseNLAux f rest)
            obtain ⟨w₂, ws₂, g1, g2⟩ := splitNL_cons_no hc rest
            rw [e1] at f1
            injection f1 with f1a f1b
            rw [e2] at g1
            injection g1 with g1a g1b
            refine ⟨c :: w, t, t', ?_, ?_, hcnt⟩
            · rw [hstep, f2, f1a, f1b]
            · rw [g2, g1a, g1b]

/-- The newline collapse preserves the number of occurrences of every
nonempty line. -/
theorem collapseNL_count (s : List Char) (L : List Char) (hL : L ≠ []) :
    (splitNL (collapseNL s)).count L = (splitNL s).count L := by
  obtain ⟨w, t, t', e1, e2, hcnt⟩ := collapse_split s.length s (le_refl _)
  show (splitNL (collapseNLAux s.length s)).count L = _
  rw [e1, e2, List.count_cons, List.count_cons, hcnt L hL]

theorem splitNL_joinNL_count :
    ∀ (ls : List (List Char)), (∀ l ∈ ls, '\n' ∉ l) →
    ∀ (L : List Char), L ≠ [] →
    (splitNL (joinNL ls)).count L = ls.count L := by
  intro ls
  induction ls with
  | nil =>
      intro _ L hL
      show (([[]] : List (List Char))).count L = 0
      rw [List.count_cons]
      have : ¬ (([] : List Char) = L) := fun he => hL he.symm
      simp [this, hL]
  | cons l rest ih =>
      intro hnl L hL
      have hl : '\n' ∉ l := hnl l (List.mem_cons_self _ _)
      cases rest with
      | nil =>
          show (splitNL (joinNL [l])).count L = _
          rw [show joinNL [l] = l from rfl, splitNL_no_nl hl]
      | cons r rs =>
          have hrest : ∀ l' ∈ r :: rs, '\n' ∉ l' :=
            fun l' hm => hnl l' (List.mem_cons_of_mem _ hm)
          show (splitNL (l ++ '\n' :: joinNL (r :: rs))).count L = _
          rw [splitNL_line_append hl, List.count_cons, List.count_cons,
            ih hrest L hL]

theorem count_map_data (l : List String) (v : String) :
    (l.map String.data).count v.data = l.count v := by
  induction l with
  | nil => rfl
  | cons a rest ih =>
      rw [List.map_cons, List.count_cons, List.count_cons, ih]
      have hiff : (a.data = v.data) ↔ (a = v) :=
        ⟨fun h => by cases a; cases v; exact congrArg String.mk h,
         fun h => by rw [h]⟩
      by_cases hav : a = v
      · simp [hav]
      · have hne : ¬ (a.data = v.data) := fun h => hav (hiff.mp h)
        simp [hav, hne]

theorem cleanStep_mem (st : CleanState) (l : String) :
    ∀ x ∈ (cleanStep st l).1, x = l ∨ x = "" := by
  intro x hx
  unfold cleanStep at hx
  by_cases hb : isBlank l = true
  · rw [if_pos hb] at hx
    rcases List.mem_singleton.mp hx with h
    exact Or.inr h
  · rw [if_neg hb] at hx
    cases hms : markStarts l with
    | true =>
        rw [hms] at hx
        simp only [Bool.not_true] at hx
        rw [if_neg (fun h => Bool.false_ne_true h)] at hx
        rcases List.mem_singleton.mp hx with h
        exact Or.inl h
    | false =>
        rw [hms] at hx
        simp only [Bool.not_false] at hx
        rw [if_pos trivial] at hx
        by_cases hsk : st.skips l = true
        · rw [if_pos hsk] at hx
          simp at hx
        · rw [if_neg hsk] at hx
          by_cases hc : st.counts l + 1 ≥ 3
          · rw [if_pos hc] at hx
            simp at hx
          · rw [if_neg hc] at hx
            rcases List.mem_singleton.mp hx with h
            exact Or.inl h

theorem cleanLines_mem : ∀ (lines : List String) (st : CleanState),
    ∀ x ∈ (cleanLines lines st).1, x ∈ lines ∨ x = "" := by
  intro lines
  induction lines with
  | nil => intro st x hx; simp [cleanLines] at hx
  | cons l rest ih =>
      intro st x hx
      show x ∈ l :: rest ∨ x = ""
      have hx' : x ∈ (cleanStep st l).1
          ∨ x ∈ (cleanLines rest (cleanStep st l).2).1 := by
        have : (cleanLines (l :: rest) st).1
            = (cleanStep st l).1 ++ (cleanLines rest (cleanStep st l).2).1 := rfl
        rw [this] at hx
        exact List.mem_append.mp hx
      rcases hx' with h | h
      · rcases cleanStep_mem st l x h with h' | h'
        · exact Or.inl (h' ▸ List.mem_cons_self _ _)
        · exact Or.inr h'
      · rcases ih (cleanStep st l).2 x h with h' | h'
        · exact Or.inl (List.mem_cons_of_mem _ h')
        · exact Or.inr h'

theorem srcComment_no_nl {url : String} (hurl : '\n' ∉ url.data) :
    '\n' ∉ srcComment url := by
  intro hm
  rcases List.mem_append.mp hm with hm | hm
  · rcases List.mem_append.mp hm with hm | hm
    · exact absurd hm (by decide)
    · exact hurl hm
  · exact absurd hm (by decide)

/-- Per-document line count of `v` in the final markdown produced by
`_clean_markdown`: one occurrence when the prepended source comment equals
`v`, plus the occurrences the dedup loop kept. -/
theorem clean_markdown_count (st : CleanState) (url : String)
    (lines : List String) (hurl : '\n' ∉ url.data)
    (hlines : ∀ l ∈ lines, '\n' ∉ l.data) (v : String) (hv : v.data ≠ []) :
    (splitNL (clean_markdown st url lines).1).count v.data
      = (if srcComment url = v.data then 1 else 0)
        + (cleanLines lines st).1.count v := by
  have hcom := srcComment_no_nl hurl
  show (splitNL (collapseNL (srcComment url ++ '\n' :: '\n' ::
      joinNL ((cleanLines lines st).1.map String.data)))).count v.data = _
  rw [collapseNL_count _ _ hv, splitNL_line_append hcom, splitNL_cons_nl]
  have hkept : ∀ l ∈ (cleanLines lines st).1.map String.data, '\n' ∉ l := by
    intro l hl
    rcases List.mem_map.mp hl with ⟨l', hl', rfl⟩
    rcases cleanLines_mem lines st l' hl' with h | h
    · exact hlines l' h
    · rw [h]; simp
  rw [List.count_cons, List.count_cons, splitNL_joinNL_count _ hkept _ hv,
    count_map_data]
  have hne0 : ¬ (([] : List Char) = v.data) := fun he => hv he.symm
  simp only [beq_iff_eq, if_neg hne0]
  by_cases hcv : srcComment url = v.data
  · simp [hcv]
    omega
  · simp [hcv]

/-- Line count of `v` across the whole cleaning stage: the dedup-kept body
occurrences plus one occurrence per document whose source comment equals
`v`. -/
theorem clean_docs_out_count (v : String) (hv : v.data ≠ []) :
    ∀ (docs : List (String × List String)) (st : CleanState),
    (∀ d ∈ docs, '\n' ∉ (d : String × List String).1.data) →
    (∀ d ∈ docs, ∀ l ∈ (d : String × List String).2, '\n' ∉ l.data) →
    lineOcc v.data (clean_docs_out docs st).1
      = (cleanDocs (docs.map Prod.snd) st).1.count v
        + (docs.filter (fun d => srcComment d.1 = v.data)).length := by
  intro docs
  induction docs with
  | nil =>
      intro st _ _
      simp [lineOcc, cleanDocs, clean_docs_out]
  | cons d ds ih =>
      intro st hurl hlines
      obtain ⟨url, lines⟩ := d
      have hstep : (clean_docs_out ((url, lines) :: ds) st).1
          = (clean_markdown st url lines).1
            :: (clean_docs_out ds (clean_markdown st url lines).2).1 := rfl
      rw [hstep]
      have hlo : lineOcc v.data ((clean_markdown st url lines).1
            :: (clean_docs_out ds (clean_markdown st url lines).2).1)
          = (splitNL (clean_markdown st url lines).1).count v.data
            + lineOcc v.data
              (clean_docs_out ds (clean_markdown st url lines).2).1 := by
        simp [lineOcc]
      rw [hlo, clean_markdown_count st url lines
        (hurl _ (List.mem_cons_self _ _)) (hlines _ (List.mem_cons_self _ _))
        v hv]
      have hst : (clean_markdown st url lines).2 = (cleanLines lines st).2 := rfl
      rw [hst, ih (cleanLines lines st).2
        (fun d hd => hurl d (List.mem_cons_of_mem _ hd))
        (fun d hd => hlines d (List.mem_cons_of_mem _ hd))]
      have hcd : (cleanDocs (((url, lines) :: ds).map Prod.snd) st).1
          = (cleanLines lines st).1
            ++ (cleanDocs (ds.map Prod.snd) (cleanLines lines st).2).1 := rfl
      rw [hcd, List.count_append, List.filter_cons]
      by_cases hcv : srcComment url = v.data
      · simp only [hcv]
        simp
        omega
      · simp only [hcv]
        simp [hcv]
        omega

/-- C2 (amended): a qualifying paragraph line occurs in the combined cleaned
output at most `2 + k` times, where `k` is the number of processed documents
whose prepended `<!-- Source: {url} -->` comment equals that line: the dedup
loop keeps at most two body occurrences, and each document unconditionally
contributes its source comment, which bypasses the loop. -/
theorem c2_clean_markdown_amended (docs : List (String × List String))
    (v : String) (hv : qualifies v = true)
    (hurl : ∀ d ∈ docs, '\n' ∉ (d : String × List String).1.data)
    (hlines : ∀ d ∈ docs, ∀ l ∈ (d : String × List String).2, '\n' ∉ l.data) :
    lineOcc v.data (clean_docs_out docs initClean).1
      ≤ 2 + (docs.filter (fun d => srcComment d.1 = v.data)).length := by
  have hvne : v.data ≠ [] := by
    intro h
    have hbl : isBlank v = true := by
      unfold isBlank
      rw [h]
      rfl
    rw [qualifies, hbl] at hv
    simp at hv
  rw [clean_docs_out_count v hvne docs initClean hurl hlines]
  have hb := (cleanDocs_count_le_two (docs.map Prod.snd) v hv).1
  omega

/-- C2 counterexample: a single document whose body repeats its own source
comment line keeps both body copies (counts 1 and 2), and the prepended
comment makes a third occurrence of that qualifying line in the output. -/
theorem c2_counterexample :
    qualifies "<!-- Source: u -->" = true ∧
    lineOcc ("<!-- Source: u -->".data)
      (clean_docs_out [("u", ["<!-- Source: u -->", "<!-- Source: u -->"])]
        initClean).1 = 3 :=
  ⟨by decide, by decide⟩

/-- Witness for C2: a qualifying line repeated five times across two
documents, matching no source comment, survives at most twice. -/
theorem c2_witness :
    qualifies "hi" = true ∧
    lineOcc "hi".data (clean_docs_out
        [("u", ["hi", "hi", "hi"]), ("w", ["hi", "hi"])] initClean).1
      ≤ 2 + (([("u", ["hi", "hi", "hi"]), ("w", ["hi", "hi"])]
          : List (String × List String)).filter
          (fun d => srcComment d.1 = "hi".data)).length :=
  ⟨by decide, c2_clean_markdown_amended _ "hi" (by decide) (by decide)
    (by decide)⟩

end ThinkMark
